import Mathlib

/-!
# Minesweeper: a shallow embedding of `Main.cpp`

The C++ program keeps two parallel grids, `minefield` (an `int` per cell) and
`mines` (a `bool` per cell), both `std::vector<std::vector<...>>` indexed as
`grid.at(Y).at(X)`.  Here a grid is a list of rows.  Coordinates and cell values are
`int` in the source and unbounded `Int` here: the only arithmetic on them is `X - 1`,
`X + 1` and a count of at most eight, which stay inside `int` except at its two extreme
values, and those are not modelled.  A checked access `vector::at` throws
`std::out_of_range`; that, and the other ways a run can go wrong, are results of type
`Fault`.  The calls of `PlayBSound` have no effect on the state and are left out; the
results of `IsKeyPressed` and `rand ()` are inputs.
-/

namespace Minesweeper

/-- Ways in which a run of the program can fail to produce a value. -/
inductive Fault where
  /-- The exception `std::out_of_range` thrown by `vector::at`. -/
  | outOfRange
  /-- The call `front ()` on an empty vector (undefined behaviour). -/
  | emptyFront
  /-- The remainder `rand () % MAX` with `MAX == 0` (undefined behaviour). -/
  | divByZero
  /-- The unchecked write `out[i]` outside the string (undefined behaviour). -/
  | badIndex
  /-- The supplied sequence of `rand ()` results was used up. -/
  | outOfDraws
  /-- The recursion budget of the model of `FloodMinefield` was used up. -/
  | outOfFuel
  deriving DecidableEq, Repr

deriving instance DecidableEq for Except

/-- Result of running a piece of the program. -/
abbrev Res (α : Type) : Type := Except Fault α

/-- Board of cell values, `std::vector<std::vector<int>>`, a list of rows. -/
abbrev Board : Type := List (List Int)

/-- Mine grid, `std::vector<std::vector<bool>>`, a list of rows. -/
abbrev Mines : Type := List (List Bool)

/-! ## Constants (lines 37-60) -/

def CHAR_CLEAR : Char := ' '
def CHAR_HIDDEN : Char := '-'
def CHAR_FLAG : Char := '#'
def CHAR_QMK : Char := '?'
def CHAR_MINE : Char := 'M'
def CHAR_CURSOR : Char := 'X'

def CELL_CLEAR : Int := 0
def CELL_HIDDEN : Int := 9
def CELL_FLAG : Int := 10
def CELL_QMK : Int := 11

/-- Information about the game difficulty (`struct Difficulty`). -/
structure Difficulty where
  Width : Int
  Height : Int
  MineCount : Int
  deriving DecidableEq, Repr

def DIFFICULTIES : List Difficulty :=
  [⟨9, 9, 10⟩, ⟨16, 16, 40⟩, ⟨30, 16, 99⟩]

def CLEAR_AMOUNT : Nat := 100
def CELL_SIZE : Int := 2

/-! ## Vector primitives -/

/-- Checked read `v.at (i)` with an `int` index: a negative index converts to a huge
`size_t`, so it throws exactly like an index past the end. -/
def vecAt {α : Type} (v : List α) (i : Int) : Res α :=
  if i < 0 then .error .outOfRange
  else match v[i.toNat]? with
    | some a => .ok a
    | none => .error .outOfRange

/-- Checked write `v.at (i) = a`. -/
def vecSet {α : Type} (v : List α) (i : Int) (a : α) : Res (List α) :=
  if i < 0 then .error .outOfRange
  else if i.toNat < v.length then .ok (v.set i.toNat a)
  else .error .outOfRange

/-- Read `g->at (Y).at (X)`. -/
def gridAt {α : Type} (g : List (List α)) (X Y : Int) : Res α := do
  let row ← vecAt g Y
  vecAt row X

/-- Write `g->at (Y).at (X) = a`: both `at` calls are made before the store. -/
def gridSet {α : Type} (g : List (List α)) (X Y : Int) (a : α) : Res (List (List α)) := do
  let row ← vecAt g Y
  let row1 ← vecSet row X a
  vecSet g Y row1

/-- Value of `g->front ().size ()`. -/
def frontSize {α : Type} (g : List (List α)) : Res Int :=
  match g with
  | [] => .error .emptyFront
  | row :: _ => .ok (row.length : Int)

/-- Value of `g->size ()`. -/
def gridSize {α : Type} (g : List (List α)) : Int := (g.length : Int)

/-! ## The functions of `Main.cpp` -/

/-- Source `CheckMine` (lines 79-85). -/
def CheckMine (X Y : Int) (MINES : Mines) : Res Bool := do
  let WIDTH ← frontSize MINES
  let HEIGHT := gridSize MINES
  if X < 0 ∨ X ≥ WIDTH ∨ Y < 0 ∨ Y ≥ HEIGHT then
    return false
  gridAt MINES X Y

/-- Source `GetMinefieldValue` (lines 200-202). -/
def GetMinefieldValue (X Y : Int) (MINEFIELD : Board) : Res Int :=
  gridAt MINEFIELD X Y

/-- Source `SetMinefieldValue` (lines 258-260). -/
def SetMinefieldValue (X Y : Int) (VALUE : Int) (minefield : Board) : Res Board :=
  gridSet minefield X Y VALUE

/-- Source `GetAdjacentMineCount` (lines 168-195): eight probes in the written order. -/
def GetAdjacentMineCount (X Y : Int) (MINES : Mines) : Res Int := do
  let count : Int := 0
  -- Top left
  let count := if (← CheckMine (X - 1) (Y - 1) MINES) then count + 1 else count
  -- Top
  let count := if (← CheckMine X (Y - 1) MINES) then count + 1 else count
  -- Top right
  let count := if (← CheckMine (X + 1) (Y - 1) MINES) then count + 1 else count
  -- Left
  let count := if (← CheckMine (X - 1) Y MINES) then count + 1 else count
  -- Right
  let count := if (← CheckMine (X + 1) Y MINES) then count + 1 else count
  -- Bottom left
  let count := if (← CheckMine (X - 1) (Y + 1) MINES) then count + 1 else count
  -- Bottom
  let count := if (← CheckMine X (Y + 1) MINES) then count + 1 else count
  -- Bottom right
  let count := if (← CheckMine (X + 1) (Y + 1) MINES) then count + 1 else count
  return count

/-- Source `FloodMinefield` (lines 131-163), with a budget on the nesting depth of the
recursion: a call made with budget `0` reports `outOfFuel`, every other call runs the
body of the source function and makes its eight recursive calls with one unit less. -/
def FloodMinefieldFuel : Nat → Int → Int → Board → Mines → Res Board
  | 0, _, _, _, _ => .error .outOfFuel
  | fuel + 1, X, Y, minefield, MINES => do
    let WIDTH ← frontSize minefield
    let HEIGHT := gridSize minefield
    if X < 0 ∨ X ≥ WIDTH ∨ Y < 0 ∨ Y ≥ HEIGHT then
      return minefield
    if (← GetMinefieldValue X Y minefield) = CELL_CLEAR then
      return minefield
    if (← CheckMine X Y MINES) then
      return minefield
    let adjacentMines ← GetAdjacentMineCount X Y MINES
    let minefield ← SetMinefieldValue X Y adjacentMines minefield
    if adjacentMines > 0 then
      return minefield
    -- Top left
    let minefield ← FloodMinefieldFuel fuel (X - 1) (Y - 1) minefield MINES
    -- Top
    let minefield ← FloodMinefieldFuel fuel X (Y - 1) minefield MINES
    -- Top right
    let minefield ← FloodMinefieldFuel fuel (X + 1) (Y - 1) minefield MINES
    -- Left
    let minefield ← FloodMinefieldFuel fuel (X - 1) Y minefield MINES
    -- Right
    let minefield ← FloodMinefieldFuel fuel (X + 1) Y minefield MINES
    -- Bottom left
    let minefield ← FloodMinefieldFuel fuel (X - 1) (Y + 1) minefield MINES
    -- Bottom
    let minefield ← FloodMinefieldFuel fuel X (Y + 1) minefield MINES
    -- Bottom right
    FloodMinefieldFuel fuel (X + 1) (Y + 1) minefield MINES

/-- Number of cells of a grid that satisfy `p`. -/
def gridCount {α : Type} (p : α → Bool) (g : List (List α)) : Nat :=
  (g.map fun row => row.countP p).sum

/-- Number of cells of a board whose value is not `CELL_CLEAR`. -/
def nonClearCount (minefield : Board) : Nat :=
  gridCount (fun v => decide (v ≠ CELL_CLEAR)) minefield

/-- Number of cells of a mine grid that hold a mine. -/
def mineCount (mines : Mines) : Nat :=
  gridCount (fun v => v) mines

/-- Source `FloodMinefield` (lines 131-163).  A call recurses only after it has turned a
cell that was not `CELL_CLEAR` into `CELL_CLEAR`, so the nesting depth never exceeds the
number of such cells plus one; that is the budget given to the recursion. -/
def FloodMinefield (X Y : Int) (minefield : Board) (MINES : Mines) : Res Board :=
  FloodMinefieldFuel (nonClearCount minefield + 1) X Y minefield MINES

/-- Source `RandomRange` (lines 251-253), with the value `r` returned by `rand ()`.
For `r ≥ 0` the truncating remainder of C++ is `Int.tmod`.  The sum is taken over the
unbounded integers: where `r % MAX + MIN` leaves the range of `int` the source has no defined
value, and the result here says nothing about it. -/
def RandomRange (MIN MAX : Int) (r : Nat) : Res Int :=
  if MAX = 0 then .error .divByZero
  else .ok (Int.tmod (r : Int) MAX + MIN)

/-- The `do ... while` loop of `PlaceMines` (lines 229-232): each round takes two results
of `rand ()`, first for `x` and then for `y`, and the loop repeats while the drawn cell
is the avoided one or already holds a mine. -/
def PlaceMines.pick (WIDTH HEIGHT : Int) (mines : Mines) (AVOID_X AVOID_Y : Int) :
    List Nat → Res (Int × Int × List Nat)
  | r1 :: r2 :: rest => do
    let x ← RandomRange 0 WIDTH r1
    let y ← RandomRange 0 HEIGHT r2
    if x = AVOID_X ∧ y = AVOID_Y then
      PlaceMines.pick WIDTH HEIGHT mines AVOID_X AVOID_Y rest
    else if (← CheckMine x y mines) then
      PlaceMines.pick WIDTH HEIGHT mines AVOID_X AVOID_Y rest
    else
      return (x, y, rest)
  | _ => .error .outOfDraws

/-- The `for` loop of `PlaceMines` (lines 225-235) with `n` iterations left. -/
def PlaceMines.loop (WIDTH HEIGHT : Int) (AVOID_X AVOID_Y : Int) :
    Nat → Mines → List Nat → Res (Mines × List Nat)
  | 0, mines, draws => .ok (mines, draws)
  | n + 1, mines, draws => do
    let (x, y, draws) ← PlaceMines.pick WIDTH HEIGHT mines AVOID_X AVOID_Y draws
    let mines ← gridSet mines x y true
    PlaceMines.loop WIDTH HEIGHT AVOID_X AVOID_Y n mines draws

/-- Source `PlaceMines` (lines 222-236).  The loop `for (i = 0; i < AMOUNT; i++)` runs
`AMOUNT` times when `AMOUNT` is positive and not at all otherwise.  The result holds the
new mine grid and the draws that were not used. -/
def PlaceMines (AMOUNT : Int) (mines : Mines) (AVOID_X AVOID_Y : Int) (draws : List Nat) :
    Res (Mines × List Nat) := do
  let WIDTH ← frontSize mines
  let HEIGHT := gridSize mines
  PlaceMines.loop WIDTH HEIGHT AVOID_X AVOID_Y AMOUNT.toNat mines draws

/-- Inner loop of `VerifyVictory` (lines 269-271) over the columns `x, x+1, ...`, with `n`
columns left: `false` when the body executes `return false`, `true` when the row is
passed without returning. -/
def VerifyVictory.row (minefield : Board) (mines : Mines) (y : Int) : Nat → Int → Res Bool
  | 0, _ => .ok true
  | n + 1, x => do
    if (← GetMinefieldValue x y minefield) = CELL_HIDDEN then
      if !(← CheckMine x y mines) then
        return false
    VerifyVictory.row minefield mines y n (x + 1)

/-- Outer loop of `VerifyVictory` (lines 268-272) over the rows `y, y+1, ...`, with `n`
rows left. -/
def VerifyVictory.rows (minefield : Board) (mines : Mines) (WIDTH : Int) : Nat → Int → Res Bool
  | 0, _ => .ok true
  | n + 1, y => do
    if !(← VerifyVictory.row minefield mines y WIDTH.toNat 0) then
      return false
    VerifyVictory.rows minefield mines WIDTH n (y + 1)

/-- Source `VerifyVictory` (lines 265-273). -/
def VerifyVictory (minefield : Board) (mines : Mines) : Res Bool := do
  let WIDTH ← frontSize minefield
  let HEIGHT := gridSize minefield
  VerifyVictory.rows minefield mines WIDTH HEIGHT.toNat 0

/-- The text `SPACING`, `std::string (CELL_SIZE - 1, ' ')` (line 93). -/
def SPACING : List Char := List.replicate (CELL_SIZE - 1).toNat ' '

/-- Body of the inner loop of `DrawMinefield` (lines 97-120): the text appended for the
cell `(x, y)`.  `CheckMine` is only called when `SHOW_MINES` holds. -/
def DrawMinefield.cell (MINEFIELD : Board) (MINES : Mines) (SHOW_MINES : Bool) (x y : Int) :
    Res (List Char) := do
  if SHOW_MINES then
    if (← CheckMine x y MINES) then
      return CHAR_MINE :: SPACING
  let CELL_VALUE ← GetMinefieldValue x y MINEFIELD
  let shown : List Char :=
    if CELL_VALUE = CELL_CLEAR then [CHAR_CLEAR]
    else if CELL_VALUE = CELL_FLAG then [CHAR_FLAG]
    else if CELL_VALUE = CELL_HIDDEN then [CHAR_HIDDEN]
    else if CELL_VALUE = CELL_QMK then [CHAR_QMK]
    else (toString CELL_VALUE).toList
  return shown ++ SPACING

/-- Inner loop of `DrawMinefield` (lines 96-121) from column `x` with `n` columns left. -/
def DrawMinefield.row (MINEFIELD : Board) (MINES : Mines) (SHOW_MINES : Bool) (y : Int) :
    Nat → Int → List Char → Res (List Char)
  | 0, _, output => .ok output
  | n + 1, x, output => do
    let text ← DrawMinefield.cell MINEFIELD MINES SHOW_MINES x y
    DrawMinefield.row MINEFIELD MINES SHOW_MINES y n (x + 1) (output ++ text)

/-- Outer loop of `DrawMinefield` (lines 95-125) from row `y` with `n` rows left. -/
def DrawMinefield.rows (MINEFIELD : Board) (MINES : Mines) (SHOW_MINES : Bool)
    (WIDTH HEIGHT : Int) : Nat → Int → List Char → Res (List Char)
  | 0, _, output => .ok output
  | n + 1, y, output => do
    let output ← DrawMinefield.row MINEFIELD MINES SHOW_MINES y WIDTH.toNat 0 output
    -- Start a new line until we reach the final line.
    let output := if y < HEIGHT - 1 then output ++ [Char.ofNat 10] else output
    DrawMinefield.rows MINEFIELD MINES SHOW_MINES WIDTH HEIGHT n (y + 1) output

/-- Source `DrawMinefield` (lines 90-126): the string `output` after the call. -/
def DrawMinefield (output : List Char) (MINEFIELD : Board) (MINES : Mines)
    (SHOW_MINES : Bool) : Res (List Char) := do
  let WIDTH ← frontSize MINEFIELD
  let HEIGHT := gridSize MINEFIELD
  DrawMinefield.rows MINEFIELD MINES SHOW_MINES WIDTH HEIGHT HEIGHT.toNat 0 output

/-! ## The game loop of `main` (lines 297-418) -/

/-- Local variables of one game of `main` (lines 298-310). -/
structure Session where
  WIDTH : Int
  HEIGHT : Int
  BASE_MINE_COUNT : Int
  cursorX : Int
  cursorY : Int
  minefield : Board
  mines : Mines
  shouldPlaceMines : Bool
  run : Bool
  victory : Bool
  shouldDrawMinefield : Bool
  newGame : Bool
  deriving DecidableEq, Repr

/-- State at the start of a game for a difficulty (lines 298-310). -/
def Session.fresh (d : Difficulty) : Session where
  WIDTH := d.Width
  HEIGHT := d.Height
  BASE_MINE_COUNT := d.MineCount
  cursorX := 0
  cursorY := 0
  minefield := List.replicate d.Height.toNat (List.replicate d.Width.toNat CELL_HIDDEN)
  mines := List.replicate d.Height.toNat (List.replicate d.Width.toNat false)
  shouldPlaceMines := true
  run := true
  victory := false
  shouldDrawMinefield := true
  newGame := false

/-- Results of the calls of `IsKeyPressed` that one pass of the game loop makes. -/
structure Keys where
  up : Bool
  down : Bool
  left : Bool
  right : Bool
  flag : Bool
  qmk : Bool
  check : Bool
  restart : Bool
  deriving DecidableEq, Repr

/-- No key pressed. -/
def Keys.none : Keys := ⟨false, false, false, false, false, false, false, false⟩

/-- Cursor movement and wrap-around (lines 316-349). -/
def moveCursor (k : Keys) (s : Session) : Session :=
  let cursorY := if k.up then s.cursorY - 1 else s.cursorY
  let cursorY := if k.down then cursorY + 1 else cursorY
  let cursorX := if k.left then s.cursorX - 1 else s.cursorX
  let cursorX := if k.right then cursorX + 1 else cursorX
  let wantsToMove := k.up || k.down || k.left || k.right
  let shouldDrawMinefield := if wantsToMove then true else s.shouldDrawMinefield
  let cursorX :=
    if cursorX < 0 then s.WIDTH - 1 else if cursorX ≥ s.WIDTH then 0 else cursorX
  let cursorY :=
    if cursorY < 0 then s.HEIGHT - 1 else if cursorY ≥ s.HEIGHT then 0 else cursorY
  { s with cursorX := cursorX, cursorY := cursorY, shouldDrawMinefield := shouldDrawMinefield }

/-- Branch taken when `PLACE_FLAG` is pressed (lines 353-367). -/
def placeFlag (CURRENT_CELL_VALUE : Int) (s : Session) : Res Session := do
  let s := { s with shouldDrawMinefield := true }
  if CURRENT_CELL_VALUE = CELL_HIDDEN then
    return { s with minefield := ← SetMinefieldValue s.cursorX s.cursorY CELL_FLAG s.minefield }
  else if CURRENT_CELL_VALUE = CELL_QMK then
    return { s with minefield := ← SetMinefieldValue s.cursorX s.cursorY CELL_FLAG s.minefield }
  else if CURRENT_CELL_VALUE = CELL_FLAG then
    return { s with minefield := ← SetMinefieldValue s.cursorX s.cursorY CELL_HIDDEN s.minefield }
  else
    return s

/-- Branch taken when `PLACE_QMK` is pressed (lines 369-383). -/
def placeQmk (CURRENT_CELL_VALUE : Int) (s : Session) : Res Session := do
  let s := { s with shouldDrawMinefield := true }
  if CURRENT_CELL_VALUE = CELL_HIDDEN then
    return { s with minefield := ← SetMinefieldValue s.cursorX s.cursorY CELL_QMK s.minefield }
  else if CURRENT_CELL_VALUE = CELL_FLAG then
    return { s with minefield := ← SetMinefieldValue s.cursorX s.cursorY CELL_QMK s.minefield }
  else if CURRENT_CELL_VALUE = CELL_QMK then
    return { s with minefield := ← SetMinefieldValue s.cursorX s.cursorY CELL_HIDDEN s.minefield }
  else
    return s

/-- Branch taken when `CHECK_MINE` is pressed on a hidden cell (lines 385-403). -/
def checkCell (draws : List Nat) (s : Session) : Res (Session × List Nat) := do
  let s := { s with shouldDrawMinefield := true }
  -- Populate our field with mines after the first check.
  let (s, draws) ←
    if s.shouldPlaceMines then do
      let (mines, draws) ← PlaceMines s.BASE_MINE_COUNT s.mines s.cursorX s.cursorY draws
      pure ({ s with mines := mines, shouldPlaceMines := false }, draws)
    else
      pure (s, draws)
  if !(← CheckMine s.cursorX s.cursorY s.mines) then
    let minefield ← FloodMinefield s.cursorX s.cursorY s.minefield s.mines
    let victory ← VerifyVictory minefield s.mines
    return ({ s with minefield := minefield, victory := victory }, draws)
  else
    return ({ s with run := false }, draws)

/-- Input handling of one pass of the game loop (lines 316-405). -/
def handleInput (k : Keys) (draws : List Nat) (s : Session) : Res (Session × List Nat) := do
  let s := moveCursor k s
  let CURRENT_CELL_VALUE ← GetMinefieldValue s.cursorX s.cursorY s.minefield
  if k.flag then
    return (← placeFlag CURRENT_CELL_VALUE s, draws)
  else if k.qmk then
    return (← placeQmk CURRENT_CELL_VALUE s, draws)
  else if k.check ∧ CURRENT_CELL_VALUE = CELL_HIDDEN then
    checkCell draws s
  else if k.restart then
    return ({ s with newGame := true }, draws)
  else
    return (s, draws)

/-- Text put in front of the board (lines 314, 408, 409). -/
def frameHeader (s : Session) : List Char :=
  List.replicate CLEAR_AMOUNT (Char.ofNat 10)
    ++ "UP, DOWN, LEFT, RIGHT - Move | SPACE - Check | F - Flag | Q - Question mark | R - Restart \n".toList
    ++ ("Position X: " ++ toString s.cursorX ++ ", Y: " ++ toString s.cursorY).toList
    ++ [Char.ofNat 10]

/-- Unchecked write `out[i] = c`. -/
def stringSet (out : List Char) (i : Int) (c : Char) : Res (List Char) :=
  if 0 ≤ i ∧ i.toNat < out.length then .ok (out.set i.toNat c) else .error .badIndex

/-- Text printed by the drawing step (lines 408-414) when the board is drawn with the
given `SHOW_MINES` argument. -/
def frameText (SHOW_MINES : Bool) (s : Session) : Res (List Char) := do
  let out := frameHeader s
  let CURSOR_OFFSET : Int := (out.length : Int)
  let out ← DrawMinefield out s.minefield s.mines SHOW_MINES
  -- Here we convert our 2D cursor position to 1D.
  stringSet out (s.cursorY * (s.WIDTH * CELL_SIZE + 1) + s.cursorX * CELL_SIZE + CURSOR_OFFSET)
    CHAR_CURSOR

/-- Drawing step of one pass of the game loop (lines 407-417): the state afterwards and
the text printed, if any.  The board is drawn with `SHOW_MINES = !run`. -/
def drawStep (s : Session) : Res (Session × Option (List Char)) := do
  if s.shouldDrawMinefield then
    let out ← frameText (!s.run) s
    return ({ s with shouldDrawMinefield := false }, some out)
  else
    return (s, none)

/-- One pass of the body of the game loop (lines 313-417). -/
def loopBody (k : Keys) (draws : List Nat) (s : Session) :
    Res (Session × List Nat × Option (List Char)) := do
  let (s, draws) ← handleInput k draws s
  let (s, out) ← drawStep s
  return (s, draws, out)

/-- States of a game that the loop `while (run && !victory && !newGame)` can be in at
the start of a pass, for a given difficulty. -/
inductive Reachable (d : Difficulty) : Session → Prop where
  | start : Reachable d (Session.fresh d)
  | pass (k : Keys) (draws rest : List Nat) (out : Option (List Char)) (s t : Session) :
      Reachable d s → s.run = true → s.victory = false → s.newGame = false →
      loopBody k draws s = .ok (t, rest, out) → Reachable d t

/-! ## Vocabulary of the specification -/

/-- Cell `(x, y)` lies inside a grid of `W` columns and `H` rows. -/
def inBounds (W H x y : Int) : Prop := 0 ≤ x ∧ x < W ∧ 0 ≤ y ∧ y < H

instance (W H x y : Int) : Decidable (inBounds W H x y) :=
  inferInstanceAs (Decidable (0 ≤ x ∧ x < W ∧ 0 ≤ y ∧ y < H))

/-- Grid `g` is a rectangle of `H` rows that each have `W` cells. -/
def Rect {α : Type} (W H : Int) (g : List (List α)) : Prop :=
  (g.length : Int) = H ∧ ∀ row ∈ g, (row.length : Int) = W

instance {α : Type} (W H : Int) (g : List (List α)) : Decidable (Rect W H g) :=
  inferInstanceAs (Decidable ((g.length : Int) = H ∧ ∀ row ∈ g, (row.length : Int) = W))

/-- Cell `(x, y)` is a cell of the grid and holds a mine. -/
def mineAt (m : Mines) (x y : Int) : Bool := decide (gridAt m x y = .ok true)

/-- The nine cells of the 3x3 neighbourhood of `(x, y)`, row by row. -/
def neighbourhood (x y : Int) : List (Int × Int) :=
  [(x - 1, y - 1), (x, y - 1), (x + 1, y - 1),
   (x - 1, y), (x, y), (x + 1, y),
   (x - 1, y + 1), (x, y + 1), (x + 1, y + 1)]

/-- Brute-force adjacency count, in the words of the specification: the number of cells
of the 3x3 neighbourhood of `(x, y)`, other than `(x, y)` itself, that lie inside the grid
and hold a mine. -/
def bruteForceCount (W H : Int) (m : Mines) (x y : Int) : Nat :=
  (neighbourhood x y).countP fun c =>
    decide (c ≠ (x, y) ∧ inBounds W H c.1 c.2 ∧ gridAt m c.1 c.2 = .ok true)

/-- Cells `(x, y)` and `(u, v)` are distinct and touch, along an edge or at a corner. -/
def adjacent (x y u v : Int) : Prop :=
  (x, y) ≠ (u, v) ∧ (u = x - 1 ∨ u = x ∨ u = x + 1) ∧ (v = y - 1 ∨ v = y ∨ v = y + 1)

instance (x y u v : Int) : Decidable (adjacent x y u v) :=
  inferInstanceAs (Decidable
    ((x, y) ≠ (u, v) ∧ (u = x - 1 ∨ u = x ∨ u = x + 1) ∧ (v = y - 1 ∨ v = y ∨ v = y + 1)))

/-- Cell value stands for a revealed cell: an adjacency count `0..8`. -/
def isRevealed (v : Int) : Prop := 0 ≤ v ∧ v ≤ 8

instance (v : Int) : Decidable (isRevealed v) :=
  inferInstanceAs (Decidable (0 ≤ v ∧ v ≤ 8))

/-- The eight cells on which `FloodMinefield` recurses, in the order of the source
(lines 147-162). -/
def floodOrder (X Y : Int) : List (Int × Int) :=
  [(X - 1, Y - 1), (X, Y - 1), (X + 1, Y - 1), (X - 1, Y),
   (X + 1, Y), (X - 1, Y + 1), (X, Y + 1), (X + 1, Y + 1)]

/-- Calls of `FloodMinefield` made one after the other on a list of cells, each on the
board left by the previous one. -/
def floodEach (fuel : Nat) (MINES : Mines) : List (Int × Int) → Board → Res Board
  | [], minefield => .ok minefield
  | c :: cs, minefield => do
    let minefield ← FloodMinefieldFuel fuel c.1 c.2 minefield MINES
    floodEach fuel MINES cs minefield

/-- Adjacent-mine count of a cell as an `int`. -/
def adjacentCount (W H : Int) (m : Mines) (x y : Int) : Int :=
  ((bruteForceCount W H m x y : Nat) : Int)

/-- Cell is a zero-adjacency non-mine cell of the grid. -/
def isZeroCell (W H : Int) (m : Mines) (x y : Int) : Prop :=
  inBounds W H x y ∧ mineAt m x y = false ∧ bruteForceCount W H m x y = 0

instance (W H : Int) (m : Mines) (x y : Int) : Decidable (isZeroCell W H m x y) :=
  inferInstanceAs
    (Decidable (inBounds W H x y ∧ mineAt m x y = false ∧ bruteForceCount W H m x y = 0))

/-- The 8-connected region of zero-adjacency non-mine cells that contains `(x, y)`: the
cells reached from `(x, y)` by steps between touching zero-adjacency non-mine cells. -/
inductive ZeroRegion (W H : Int) (m : Mines) (x y : Int) : Int → Int → Prop where
  | start : isZeroCell W H m x y → ZeroRegion W H m x y x y
  | grow (p q u v : Int) : ZeroRegion W H m x y p q → adjacent p q u v →
      isZeroCell W H m u v → ZeroRegion W H m x y u v

/-- The zero region of `(x, y)` together with the grid cells that touch it. -/
def inFloodArea (W H : Int) (m : Mines) (x y u v : Int) : Prop :=
  ZeroRegion W H m x y u v ∨
    (inBounds W H u v ∧ ∃ p q, ZeroRegion W H m x y p q ∧ adjacent p q u v)

/-- Cells that a call of `FloodMinefield` at `(x, y)` on board `b` may visit: the start,
and from a visited cell inside the grid that holds no mine, is not `CELL_CLEAR` on `b` and
has adjacent-mine count `0`, every cell that touches it. -/
inductive FloodReach (W H : Int) (m : Mines) (b : Board) : Int → Int → Int → Int → Prop where
  | self (x y : Int) : FloodReach W H m b x y x y
  | step (x y p q u v : Int) : inBounds W H x y → mineAt m x y = false →
      bruteForceCount W H m x y = 0 → gridAt b x y ≠ .ok CELL_CLEAR → adjacent x y p q →
      FloodReach W H m b p q u v → FloodReach W H m b x y u v

/-- Relation between the board before and after a flood: every cell either keeps its
value, or is a non-mine cell of the grid inside `S` that was not `CELL_CLEAR` and now
holds its adjacent-mine count. -/
def FloodFrame (W H : Int) (m : Mines) (S : Int → Int → Prop) (b b1 : Board) : Prop :=
  ∀ u v : Int, gridAt b1 u v = gridAt b u v ∨
    (gridAt b1 u v = .ok (adjacentCount W H m u v) ∧ inBounds W H u v ∧ mineAt m u v = false ∧
      gridAt b u v ≠ .ok CELL_CLEAR ∧ S u v)

/-- Cell `(u, v)` is `CELL_CLEAR` on the board while some grid cell touching it is neither
`CELL_CLEAR` nor showing its adjacent-mine count. -/
def Unfinished (W H : Int) (m : Mines) (b : Board) (u v : Int) : Prop :=
  gridAt b u v = .ok CELL_CLEAR ∧ ∃ p q, adjacent u v p q ∧ inBounds W H p q ∧
    gridAt b p q ≠ .ok CELL_CLEAR ∧ gridAt b p q ≠ .ok (adjacentCount W H m p q)

/-- What a flood leaves behind: the board is still a `W` by `H` rectangle, no more cells
differ from `CELL_CLEAR` than before, the changes obey `FloodFrame`, and no cell has become
`Unfinished`. -/
def FloodPost (W H : Int) (m : Mines) (S : Int → Int → Prop) (b b1 : Board) : Prop :=
  Rect W H b1 ∧ nonClearCount b1 ≤ nonClearCount b ∧ FloodFrame W H m S b b1 ∧
    ∀ u v : Int, Unfinished W H m b1 u v → Unfinished W H m b u v

/-- Cell value at `(x, y)` is `CELL_CLEAR` or the adjacent-mine count of the cell. -/
def Settled (W H : Int) (m : Mines) (b : Board) (x y : Int) : Prop :=
  gridAt b x y = .ok CELL_CLEAR ∨ gridAt b x y = .ok (adjacentCount W H m x y)

/-- Session state as the game loop keeps it: positive dimensions, both grids rectangles
of these dimensions, and the cursor on a cell of the grid. -/
def Session.wellFormed (s : Session) : Prop :=
  0 < s.WIDTH ∧ 0 < s.HEIGHT ∧ Rect s.WIDTH s.HEIGHT s.minefield ∧
    Rect s.WIDTH s.HEIGHT s.mines ∧ inBounds s.WIDTH s.HEIGHT s.cursorX s.cursorY

instance (s : Session) : Decidable s.wellFormed :=
  inferInstanceAs (Decidable (0 < s.WIDTH ∧ 0 < s.HEIGHT ∧ Rect s.WIDTH s.HEIGHT s.minefield ∧
    Rect s.WIDTH s.HEIGHT s.mines ∧ inBounds s.WIDTH s.HEIGHT s.cursorX s.cursorY))

/-- None of the four movement keys is pressed. -/
def Keys.noMove (k : Keys) : Prop :=
  k.up = false ∧ k.down = false ∧ k.left = false ∧ k.right = false

instance (k : Keys) : Decidable k.noMove :=
  inferInstanceAs
    (Decidable (k.up = false ∧ k.down = false ∧ k.left = false ∧ k.right = false))

/-- The toggle-flag action: `PLACE_FLAG` pressed, cursor not moved. -/
def Keys.isToggleFlag (k : Keys) : Prop := k.noMove ∧ k.flag = true

instance (k : Keys) : Decidable k.isToggleFlag :=
  inferInstanceAs (Decidable (k.noMove ∧ k.flag = true))

/-- The toggle-question action: `PLACE_QMK` pressed without `PLACE_FLAG`, cursor not
moved. -/
def Keys.isToggleQmk (k : Keys) : Prop := k.noMove ∧ k.flag = false ∧ k.qmk = true

instance (k : Keys) : Decidable k.isToggleQmk :=
  inferInstanceAs (Decidable (k.noMove ∧ k.flag = false ∧ k.qmk = true))

/-- The reveal action: `CHECK_MINE` pressed without `PLACE_FLAG` and `PLACE_QMK`, cursor
not moved. -/
def Keys.isReveal (k : Keys) : Prop :=
  k.noMove ∧ k.flag = false ∧ k.qmk = false ∧ k.check = true

instance (k : Keys) : Decidable k.isReveal :=
  inferInstanceAs (Decidable (k.noMove ∧ k.flag = false ∧ k.qmk = false ∧ k.check = true))

/-- Horizontal step asked for by the movement keys: `-1`, `0` or `1`. -/
def Keys.stepX (k : Keys) : Int :=
  (if k.right then 1 else 0) - (if k.left then 1 else 0)

/-- Vertical step asked for by the movement keys: `-1`, `0` or `1`. -/
def Keys.stepY (k : Keys) : Int :=
  (if k.down then 1 else 0) - (if k.up then 1 else 0)

/-- Cell value after the toggle-flag action, in the words of the specification:
`Hidden → Flagged`, `Questioned → Flagged`, `Flagged → Hidden`, anything else unchanged. -/
def toggleFlagValue (v : Int) : Int :=
  if v = CELL_HIDDEN then CELL_FLAG
  else if v = CELL_QMK then CELL_FLAG
  else if v = CELL_FLAG then CELL_HIDDEN
  else v

/-- Cell value after the toggle-question action, in the words of the specification:
`Hidden → Questioned`, `Flagged → Questioned`, `Questioned → Hidden`, anything else
unchanged. -/
def toggleQmkValue (v : Int) : Int :=
  if v = CELL_HIDDEN then CELL_QMK
  else if v = CELL_FLAG then CELL_QMK
  else if v = CELL_QMK then CELL_HIDDEN
  else v

/-- A fresh game whose cursor stands on the cell `(cx, cy)`. -/
def Session.freshAt (d : Difficulty) (cx cy : Int) : Session :=
  { Session.fresh d with cursorX := cx, cursorY := cy }

/-- Cell values of a session agree with its mine grid: every cell holds a count `0..8` or
one of `CELL_HIDDEN`, `CELL_FLAG`, `CELL_QMK`, and a cell holding a count holds the
adjacent-mine count of that cell over the mine grid, which has then been placed. -/
def Session.consistent (s : Session) : Prop :=
  ∀ x y v : Int, GetMinefieldValue x y s.minefield = .ok v →
    (isRevealed v ∨ v = CELL_HIDDEN ∨ v = CELL_FLAG ∨ v = CELL_QMK) ∧
    (isRevealed v → GetAdjacentMineCount x y s.mines = .ok v ∧ s.shouldPlaceMines = false)

/-- The eight neighbour offsets `(dx, dy)` in the order in which `FloodMinefield` visits
them (lines 147-162): top-left, top, top-right, left, right, bottom-left, bottom,
bottom-right. -/
def floodOffsets : List (Int × Int) :=
  [(-1, -1), (0, -1), (1, -1), (-1, 0), (1, 0), (-1, 1), (0, 1), (1, 1)]

/-- Calls of `call` on the neighbours of `(X, Y)` at the given offsets, one after the
other, each on the board left by the previous one. -/
def floodVisit (call : Int → Int → Board → Res Board) (X Y : Int) :
    List (Int × Int) → Board → Res Board
  | [], minefield => .ok minefield
  | d :: ds, minefield => do
    let minefield ← call (X + d.1) (Y + d.2) minefield
    floodVisit call X Y ds minefield

/-- Flood fill of the specification with a chosen visiting order: the body of
`FloodMinefield` (bounds test, `CELL_CLEAR` test, mine test, store of the adjacent-mine
count, return when it is positive), followed by one recursive call per offset of `order`,
in the order of that list.  The budget works as in `FloodMinefieldFuel`. -/
def FloodOrderedFuel (order : List (Int × Int)) : Nat → Int → Int → Board → Mines → Res Board
  | 0, _, _, _, _ => .error .outOfFuel
  | fuel + 1, X, Y, minefield, MINES => do
    let WIDTH ← frontSize minefield
    let HEIGHT := gridSize minefield
    if X < 0 ∨ X ≥ WIDTH ∨ Y < 0 ∨ Y ≥ HEIGHT then
      return minefield
    if (← GetMinefieldValue X Y minefield) = CELL_CLEAR then
      return minefield
    if (← CheckMine X Y MINES) then
      return minefield
    let adjacentMines ← GetAdjacentMineCount X Y MINES
    let minefield ← SetMinefieldValue X Y adjacentMines minefield
    if adjacentMines > 0 then
      return minefield
    floodVisit (fun x y b => FloodOrderedFuel order fuel x y b MINES) X Y order minefield

/-- Flood fill with a chosen visiting order, with the budget of `FloodMinefield`. -/
def FloodOrdered (order : List (Int × Int)) (X Y : Int) (minefield : Board) (MINES : Mines) :
    Res Board :=
  FloodOrderedFuel order (nonClearCount minefield + 1) X Y minefield MINES

end Minesweeper

namespace Minesweeper

/-! ## Vectors and grids -/

theorem vecAt_eq_ok_iff {α : Type} (v : List α) (i : Int) (a : α) :
    vecAt v i = .ok a ↔ 0 ≤ i ∧ v[i.toNat]? = some a := by
  unfold vecAt
  by_cases h : i < 0
  · simp [h]
  · simp only [h, if_false]
    cases hv : v[i.toNat]? with
    | none => simp
    | some b => simp; omega

theorem vecAt_ok_of_lt {α : Type} (v : List α) (i : Int) (h0 : 0 ≤ i)
    (h1 : i < (v.length : Int)) : ∃ a, vecAt v i = .ok a ∧ a ∈ v := by
  have hlt : i.toNat < v.length := by omega
  refine ⟨v[i.toNat], ?_, List.getElem_mem hlt⟩
  rw [vecAt_eq_ok_iff]
  exact ⟨h0, List.getElem?_eq_getElem hlt⟩

theorem vecAt_ok_bounds {α : Type} {v : List α} {i : Int} {a : α} (h : vecAt v i = .ok a) :
    0 ≤ i ∧ i < (v.length : Int) ∧ a ∈ v := by
  rw [vecAt_eq_ok_iff] at h
  obtain ⟨h0, h1⟩ := h
  obtain ⟨hlt, rfl⟩ := List.getElem?_eq_some.mp h1
  exact ⟨h0, by omega, List.getElem_mem hlt⟩

theorem vecAt_error_of_not {α : Type} (v : List α) (i : Int)
    (h : ¬ (0 ≤ i ∧ i < (v.length : Int))) : vecAt v i = .error .outOfRange := by
  unfold vecAt
  by_cases h0 : i < 0
  · simp [h0]
  · have hle : v.length ≤ i.toNat := by omega
    simp [h0, List.getElem?_eq_none hle]

theorem vecSet_eq_ok_iff {α : Type} (v : List α) (i : Int) (a : α) (w : List α) :
    vecSet v i a = .ok w ↔ 0 ≤ i ∧ i < (v.length : Int) ∧ w = v.set i.toNat a := by
  unfold vecSet
  by_cases h : i < 0
  · simp [h]
  · by_cases h1 : i.toNat < v.length
    · simp [h, h1]
      constructor
      · intro e; exact ⟨by omega, by omega, e.symm⟩
      · intro e; exact e.2.2.symm
    · simp [h, h1]; omega

theorem vecAt_set_self {α : Type} {v w : List α} {i : Int} {a : α}
    (h : vecSet v i a = .ok w) : vecAt w i = .ok a := by
  rw [vecSet_eq_ok_iff] at h
  obtain ⟨h0, h1, rfl⟩ := h
  rw [vecAt_eq_ok_iff]
  refine ⟨h0, ?_⟩
  rw [List.getElem?_set]
  have : i.toNat < v.length := by omega
  simp [this]

theorem vecAt_set_ne {α : Type} {v w : List α} {i j : Int} {a : α}
    (h : vecSet v i a = .ok w) (hne : j ≠ i) : vecAt w j = vecAt v j := by
  rw [vecSet_eq_ok_iff] at h
  obtain ⟨h0, h1, rfl⟩ := h
  unfold vecAt
  by_cases hj : j < 0
  · simp [hj]
  · have : i.toNat ≠ j.toNat := by omega
    simp [hj, List.getElem?_set_ne this]

theorem gridAt_ok_bounds {α : Type} {W H : Int} {g : List (List α)} (hg : Rect W H g)
    {x y : Int} {a : α} (h : gridAt g x y = .ok a) : inBounds W H x y := by
  unfold gridAt at h
  cases hr : vecAt g y with
  | error e => rw [hr] at h; cases h
  | ok row =>
    rw [hr] at h
    have h2 : vecAt row x = .ok a := h
    obtain ⟨hy0, hy1, hmem⟩ := vecAt_ok_bounds hr
    obtain ⟨hx0, hx1, _⟩ := vecAt_ok_bounds h2
    have := hg.2 row hmem
    have := hg.1
    exact ⟨hx0, by omega, hy0, by omega⟩

theorem gridAt_ok_of_inBounds {α : Type} {W H : Int} {g : List (List α)} (hg : Rect W H g)
    {x y : Int} (h : inBounds W H x y) : ∃ a, gridAt g x y = .ok a := by
  obtain ⟨hx0, hx1, hy0, hy1⟩ := h
  obtain ⟨row, hr, hmem⟩ := vecAt_ok_of_lt g y hy0 (by rw [hg.1]; exact hy1)
  obtain ⟨a, ha, _⟩ := vecAt_ok_of_lt row x hx0 (by rw [hg.2 row hmem]; exact hx1)
  refine ⟨a, ?_⟩
  unfold gridAt
  rw [hr]
  exact ha

theorem gridSet_ok_of_at {α : Type} {g : List (List α)} {x y : Int} {a : α} (b : α)
    (h : gridAt g x y = .ok a) : ∃ g1, gridSet g x y b = .ok g1 := by
  unfold gridAt at h
  cases hr : vecAt g y with
  | error e => rw [hr] at h; cases h
  | ok row =>
    rw [hr] at h
    have h2 : vecAt row x = .ok a := h
    obtain ⟨hy0, hy1, _⟩ := vecAt_ok_bounds hr
    obtain ⟨hx0, hx1, _⟩ := vecAt_ok_bounds h2
    refine ⟨g.set y.toNat (row.set x.toNat b), ?_⟩
    unfold gridSet
    rw [hr]
    have e1 : vecSet row x b = .ok (row.set x.toNat b) :=
      (vecSet_eq_ok_iff _ _ _ _).mpr ⟨hx0, hx1, rfl⟩
    have e2 : vecSet g y (row.set x.toNat b) = .ok (g.set y.toNat (row.set x.toNat b)) :=
      (vecSet_eq_ok_iff _ _ _ _).mpr ⟨hy0, hy1, rfl⟩
    show (vecSet row x b >>= fun row1 => vecSet g y row1) = _
    rw [e1]
    exact e2

/-- Parts of a successful `gridSet`: the row read, the row written and the grid written. -/
theorem gridSet_parts {α : Type} {g g1 : List (List α)} {x y : Int} {b : α}
    (h : gridSet g x y b = .ok g1) :
    ∃ row row1, vecAt g y = .ok row ∧ vecSet row x b = .ok row1 ∧ vecSet g y row1 = .ok g1 := by
  unfold gridSet at h
  cases hr : vecAt g y with
  | error e => rw [hr] at h; cases h
  | ok row =>
    rw [hr] at h
    have h2 : (vecSet row x b >>= fun row1 => vecSet g y row1) = .ok g1 := h
    cases hs : vecSet row x b with
    | error e => rw [hs] at h2; cases h2
    | ok row1 =>
      rw [hs] at h2
      exact ⟨row, row1, rfl, hs, h2⟩

theorem gridAt_set_self {α : Type} {g g1 : List (List α)} {x y : Int} {b : α}
    (h : gridSet g x y b = .ok g1) : gridAt g1 x y = .ok b := by
  obtain ⟨row, row1, _, h2, h3⟩ := gridSet_parts h
  unfold gridAt
  rw [vecAt_set_self h3]
  exact vecAt_set_self h2

theorem gridAt_set_ne {α : Type} {g g1 : List (List α)} {x y u v : Int} {b : α}
    (h : gridSet g x y b = .ok g1) (hne : (u, v) ≠ (x, y)) : gridAt g1 u v = gridAt g u v := by
  obtain ⟨row, row1, h1, h2, h3⟩ := gridSet_parts h
  unfold gridAt
  by_cases hv : v = y
  · subst hv
    have hu : u ≠ x := fun e => hne (by rw [e])
    rw [vecAt_set_self h3, h1]
    exact vecAt_set_ne h2 hu
  · rw [vecAt_set_ne h3 hv]

theorem gridSet_rect {α : Type} {W H : Int} {g g1 : List (List α)} {x y : Int} {b : α}
    (hg : Rect W H g) (h : gridSet g x y b = .ok g1) : Rect W H g1 := by
  obtain ⟨row, row1, h1, h2, h3⟩ := gridSet_parts h
  rw [vecSet_eq_ok_iff] at h2 h3
  obtain ⟨_, _, rfl⟩ := h2
  obtain ⟨_, _, rfl⟩ := h3
  obtain ⟨_, _, hmem⟩ := vecAt_ok_bounds h1
  refine ⟨by rw [List.length_set]; exact hg.1, ?_⟩
  intro r hr
  rcases List.mem_or_eq_of_mem_set hr with h | h
  · exact hg.2 r h
  · rw [h, List.length_set]; exact hg.2 row hmem

theorem frontSize_rect {α : Type} {W H : Int} {g : List (List α)} (hg : Rect W H g)
    (hH : 0 < H) : frontSize g = .ok W := by
  cases g with
  | nil => have := hg.1; simp at this; omega
  | cons row rest =>
    show Except.ok (row.length : Int) = Except.ok W
    rw [hg.2 row (List.mem_cons_self _ _)]

theorem gridSize_rect {α : Type} {W H : Int} {g : List (List α)} (hg : Rect W H g) :
    gridSize g = H := hg.1

theorem CheckMine_rect {W H : Int} {m : Mines} (hm : Rect W H m) (hH : 0 < H) (x y : Int) :
    CheckMine x y m = .ok (mineAt m x y) := by
  unfold CheckMine
  rw [frontSize_rect hm hH, gridSize_rect hm]
  by_cases hb : inBounds W H x y
  · obtain ⟨a, ha⟩ := gridAt_ok_of_inBounds hm hb
    obtain ⟨h1, h2, h3, h4⟩ := hb
    have hc : ¬ (x < 0 ∨ x ≥ W ∨ y < 0 ∨ y ≥ H) := by omega
    simp only [bind, Except.bind, hc, if_false]
    rw [ha]
    cases a <;> simp [mineAt, ha] <;> rfl
  · have hc : (x < 0 ∨ x ≥ W ∨ y < 0 ∨ y ≥ H) := by
      unfold inBounds at hb; omega
    have hne : gridAt m x y ≠ .ok true := fun h => hb (gridAt_ok_bounds hm h)
    simp only [bind, Except.bind, hc, if_true, pure, Except.pure]
    simp [mineAt, hne]

theorem mineAt_inBounds {W H : Int} {m : Mines} (hm : Rect W H m) {x y : Int}
    (h : mineAt m x y = true) : inBounds W H x y := by
  unfold mineAt at h
  exact gridAt_ok_bounds hm (of_decide_eq_true h)

/-- Sum computed by the eight probes of `GetAdjacentMineCount`. -/
theorem GetAdjacentMineCount_rect {W H : Int} {m : Mines} (hm : Rect W H m) (hH : 0 < H)
    (x y : Int) :
    GetAdjacentMineCount x y m = .ok ((bruteForceCount W H m x y : Nat) : Int) := by
  unfold GetAdjacentMineCount
  simp only [CheckMine_rect hm hH, bind, Except.bind, pure, Except.pure]
  congr 1
  have key : ∀ u v : Int, (u, v) ≠ (x, y) →
      decide ((u, v) ≠ (x, y) ∧ inBounds W H u v ∧ gridAt m u v = .ok true) = mineAt m u v := by
    intro u v hne
    unfold mineAt
    by_cases hg : gridAt m u v = .ok true
    · simp [hne, hg, gridAt_ok_bounds hm hg]
    · simp [hg]
  unfold bruteForceCount neighbourhood
  simp only [List.countP_cons, List.countP_nil]
  rw [key (x-1) (y-1) (by simp), key x (y-1) (by simp), key (x+1) (y-1) (by simp),
    key (x-1) y (by simp), key (x+1) y (by simp), key (x-1) (y+1) (by simp),
    key x (y+1) (by simp), key (x+1) (y+1) (by simp)]
  simp only [ne_eq, not_true_eq_false, false_and, decide_False, Bool.false_eq_true, if_false]
  cases mineAt m (x-1) (y-1) <;> cases mineAt m x (y-1) <;> cases mineAt m (x+1) (y-1) <;>
  cases mineAt m (x-1) y <;> cases mineAt m (x+1) y <;> cases mineAt m (x-1) (y+1) <;>
  cases mineAt m x (y+1) <;> cases mineAt m (x+1) (y+1) <;> rfl

theorem bruteForceCount_le (W H : Int) (m : Mines) (x y : Int) :
    bruteForceCount W H m x y ≤ 8 := by
  unfold bruteForceCount neighbourhood
  simp only [List.countP_cons, List.countP_nil]
  simp only [ne_eq, not_true_eq_false, false_and, decide_False, Bool.false_eq_true, if_false]
  split_ifs <;> omega

/-! ## Counting the cells that are not clear -/

theorem sum_map_set {α : Type} (f : α → Nat) (a : α) :
    ∀ (g : List α) (i : Nat) (h : i < g.length),
      ((g.set i a).map f).sum + f g[i] = (g.map f).sum + f a
  | [], _, h => absurd h (Nat.not_lt_zero _)
  | x :: xs, 0, _ => by
    simp; omega
  | x :: xs, j + 1, h => by
    have hj : j < xs.length := by simpa using h
    have := sum_map_set f a xs j hj
    simp only [List.set_cons_succ, List.map_cons, List.sum_cons, List.getElem_cons_succ]
    omega

theorem countP_set_add {α : Type} (p : α → Bool) (a : α) :
    ∀ (row : List α) (i : Nat) (h : i < row.length),
      (row.set i a).countP p + (if p row[i] then 1 else 0) =
        row.countP p + (if p a then 1 else 0)
  | [], _, h => absurd h (Nat.not_lt_zero _)
  | x :: xs, 0, _ => by
    simp [List.countP_cons]; omega
  | x :: xs, j + 1, h => by
    have hj : j < xs.length := by simpa using h
    have := countP_set_add p a xs j hj
    simp only [List.set_cons_succ, List.countP_cons, List.getElem_cons_succ]
    omega

theorem gridCount_set {α : Type} (p : α → Bool) {g g1 : List (List α)} {x y : Int}
    {old new : α} (hget : gridAt g x y = .ok old) (hset : gridSet g x y new = .ok g1) :
    gridCount p g1 + (if p old then 1 else 0) = gridCount p g + (if p new then 1 else 0) := by
  obtain ⟨row, row1, h1, h2, h3⟩ := gridSet_parts hset
  have hold : vecAt row x = .ok old := by
    unfold gridAt at hget
    rw [h1] at hget
    exact hget
  rw [vecSet_eq_ok_iff] at h2 h3
  obtain ⟨hx0, hx1, rfl⟩ := h2
  obtain ⟨hy0, hy1, rfl⟩ := h3
  rw [vecAt_eq_ok_iff] at h1 hold
  have hy : y.toNat < g.length := by omega
  have hx : x.toNat < row.length := by omega
  have er : g[y.toNat] = row := by
    have := h1.2
    rw [List.getElem?_eq_getElem hy] at this
    exact Option.some.inj this
  have eo : row[x.toNat] = old := by
    have := hold.2
    rw [List.getElem?_eq_getElem hx] at this
    exact Option.some.inj this
  unfold gridCount
  have s1 := sum_map_set (fun r : List α => r.countP p) (row.set x.toNat new) g y.toNat hy
  have s2 := countP_set_add p new row x.toNat hx
  rw [er] at s1
  rw [eo] at s2
  omega

theorem nonClearCount_set {b b1 : Board} {x y old new : Int}
    (hget : gridAt b x y = .ok old) (hset : gridSet b x y new = .ok b1) :
    nonClearCount b1 + (if old ≠ CELL_CLEAR then 1 else 0) =
      nonClearCount b + (if new ≠ CELL_CLEAR then 1 else 0) := by
  have h := gridCount_set (fun v : Int => decide (v ≠ CELL_CLEAR)) hget hset
  simp only [decide_eq_true_eq] at h
  exact h

/-! ## One call of `FloodMinefield` -/

theorem floodEach_floodOrder (f : Nat) (m : Mines) (x y : Int) (b : Board) :
    floodEach f m (floodOrder x y) b = (do
      let b ← FloodMinefieldFuel f (x - 1) (y - 1) b m
      let b ← FloodMinefieldFuel f x (y - 1) b m
      let b ← FloodMinefieldFuel f (x + 1) (y - 1) b m
      let b ← FloodMinefieldFuel f (x - 1) y b m
      let b ← FloodMinefieldFuel f (x + 1) y b m
      let b ← FloodMinefieldFuel f (x - 1) (y + 1) b m
      let b ← FloodMinefieldFuel f x (y + 1) b m
      FloodMinefieldFuel f (x + 1) (y + 1) b m) := by
  have e : ∀ r : Res Board, (r >>= fun a => Except.ok a) = r := by
    intro r; cases r <;> rfl
  simp only [floodOrder, floodEach, e]

theorem FloodMinefieldFuel_succ {W H : Int} {m : Mines} {b : Board} (hm : Rect W H m)
    (hb : Rect W H b) (hH : 0 < H) (f : Nat) (x y : Int) :
    FloodMinefieldFuel (f + 1) x y b m =
      if inBounds W H x y then
        match gridAt b x y with
        | .error e => .error e
        | .ok v =>
          if v = CELL_CLEAR then .ok b
          else if mineAt m x y = true then .ok b
          else match gridSet b x y (adjacentCount W H m x y) with
            | .error e => .error e
            | .ok b1 =>
              if adjacentCount W H m x y > 0 then .ok b1
              else floodEach f m (floodOrder x y) b1
      else .ok b := by
  rw [FloodMinefieldFuel]
  simp only [floodEach_floodOrder]
  simp only [frontSize_rect hb hH, gridSize_rect hb, CheckMine_rect hm hH,
    GetAdjacentMineCount_rect hm hH, GetMinefieldValue, SetMinefieldValue, bind, Except.bind,
    pure, Except.pure, adjacentCount]
  by_cases hin : inBounds W H x y
  · have hc : ¬ (x < 0 ∨ x ≥ W ∨ y < 0 ∨ y ≥ H) := by
      unfold inBounds at hin; omega
    simp only [hin, hc, if_true, if_false]
    cases hv : gridAt b x y with
    | error e => rfl
    | ok v =>
      simp only
      by_cases h0 : v = CELL_CLEAR
      · simp [h0]
      · simp only [h0, if_false]
        cases hmn : mineAt m x y with
        | true => simp
        | false =>
          simp only [Bool.false_eq_true, if_false]
          cases hs : gridSet b x y ((bruteForceCount W H m x y : Nat) : Int) with
          | error e => rfl
          | ok b1 =>
            simp only
  · have hc : (x < 0 ∨ x ≥ W ∨ y < 0 ∨ y ≥ H) := by
      unfold inBounds at hin; omega
    simp [hin, hc]

/-! ## Relations between the boards of a flood -/

theorem FloodPost_refl {W H : Int} {m : Mines} {S : Int → Int → Prop} {b : Board}
    (hb : Rect W H b) : FloodPost W H m S b b :=
  ⟨hb, le_refl _, fun _ _ => Or.inl rfl, fun _ _ h => h⟩

theorem FloodFrame_mono {W H : Int} {m : Mines} {S T : Int → Int → Prop} {b b1 : Board}
    (hST : ∀ u v, S u v → T u v) (h : FloodFrame W H m S b b1) : FloodFrame W H m T b b1 := by
  intro u v
  rcases h u v with h1 | ⟨h1, h2, h3, h4, h5⟩
  · exact Or.inl h1
  · exact Or.inr ⟨h1, h2, h3, h4, hST u v h5⟩

theorem FloodPost_mono {W H : Int} {m : Mines} {S T : Int → Int → Prop} {b b1 : Board}
    (hST : ∀ u v, S u v → T u v) (h : FloodPost W H m S b b1) : FloodPost W H m T b b1 :=
  ⟨h.1, h.2.1, FloodFrame_mono hST h.2.2.1, h.2.2.2⟩

theorem FloodFrame_trans {W H : Int} {m : Mines} {S : Int → Int → Prop} {b b1 b2 : Board}
    (h1 : FloodFrame W H m S b b1) (h2 : FloodFrame W H m S b1 b2) :
    FloodFrame W H m S b b2 := by
  intro u v
  rcases h2 u v with e2 | ⟨e2, i2, m2, n2, s2⟩
  · rcases h1 u v with e1 | ⟨e1, i1, m1, n1, s1⟩
    · exact Or.inl (e2.trans e1)
    · exact Or.inr ⟨e2.trans e1, i1, m1, n1, s1⟩
  · refine Or.inr ⟨e2, i2, m2, ?_, s2⟩
    rcases h1 u v with e1 | ⟨e1, i1, m1, n1, s1⟩
    · rw [← e1]; exact n2
    · exact n1

theorem FloodPost_trans {W H : Int} {m : Mines} {S : Int → Int → Prop} {b b1 b2 : Board}
    (h1 : FloodPost W H m S b b1) (h2 : FloodPost W H m S b1 b2) : FloodPost W H m S b b2 :=
  ⟨h2.1, le_trans h2.2.1 h1.2.1, FloodFrame_trans h1.2.2.1 h2.2.2.1,
    fun u v h => h1.2.2.2 u v (h2.2.2.2 u v h)⟩

/-- A cell that is not clear after a flood was not clear before it. -/
theorem FloodFrame_not_clear {W H : Int} {m : Mines} {S : Int → Int → Prop} {b b1 : Board}
    (h : FloodFrame W H m S b b1) {u v : Int} (hn : gridAt b1 u v ≠ .ok CELL_CLEAR) :
    gridAt b u v ≠ .ok CELL_CLEAR := by
  rcases h u v with e | ⟨_, _, _, n, _⟩
  · rw [← e]; exact hn
  · exact n

/-- A settled cell stays settled. -/
theorem FloodFrame_settled {W H : Int} {m : Mines} {S : Int → Int → Prop} {b b1 : Board}
    (h : FloodFrame W H m S b b1) {u v : Int} (hs : Settled W H m b u v) :
    Settled W H m b1 u v := by
  rcases h u v with e | ⟨e, _⟩
  · unfold Settled; rw [e]; exact hs
  · exact Or.inr e

theorem FloodReach_mono {W H : Int} {m : Mines} {S : Int → Int → Prop} {b b1 : Board}
    (h : FloodFrame W H m S b b1) {x y u v : Int} (hr : FloodReach W H m b1 x y u v) :
    FloodReach W H m b x y u v := by
  induction hr with
  | self x y => exact FloodReach.self x y
  | step x y p q u v hin hmn hc hne hadj _ ih =>
    exact FloodReach.step x y p q u v hin hmn hc (FloodFrame_not_clear h hne) hadj ih

theorem mem_floodOrder_iff (x y : Int) (c : Int × Int) :
    c ∈ floodOrder x y ↔ adjacent x y c.1 c.2 := by
  obtain ⟨p, q⟩ := c
  unfold floodOrder adjacent
  simp only [List.mem_cons, Prod.mk.injEq, List.mem_singleton, List.mem_nil_iff, or_false, ne_eq,
    not_and]
  constructor
  · intro h
    rcases h with h | h | h | h | h | h | h | h <;> obtain ⟨hp, hq⟩ := h <;> subst hp <;>
      subst hq <;> simp <;> omega
  · rintro ⟨hne, hp | hp | hp, hq | hq | hq⟩ <;> subst hp <;> subst hq <;> simp at hne ⊢

theorem mineAt_false_of_count_zero {W H : Int} {m : Mines} (hm : Rect W H m) {x y p q : Int}
    (hc : bruteForceCount W H m x y = 0) (hadj : adjacent x y p q) : mineAt m p q = false := by
  unfold bruteForceCount at hc
  rw [List.countP_eq_zero] at hc
  have hmem : (p, q) ∈ neighbourhood x y := by
    unfold neighbourhood
    unfold adjacent at hadj
    obtain ⟨hne, hp | hp | hp, hq | hq | hq⟩ := hadj <;> subst hp <;> subst hq <;> simp
  have := hc (p, q) hmem
  cases hmq : mineAt m p q with
  | false => rfl
  | true =>
    exfalso
    apply this
    have hg : gridAt m p q = .ok true := of_decide_eq_true hmq
    simp only [decide_eq_true_eq]
    refine ⟨?_, gridAt_ok_bounds hm hg, hg⟩
    intro e
    exact hadj.1 e.symm

/-! ## The recursion of `FloodMinefield` -/

theorem floodEach_post {W H : Int} {m : Mines} (fuel : Nat)
    (IH : ∀ x y b, Rect W H b → nonClearCount b < fuel →
      ∃ b1, FloodMinefieldFuel fuel x y b m = .ok b1 ∧
        FloodPost W H m (FloodReach W H m b x y) b b1 ∧
        (inBounds W H x y → mineAt m x y = false → Settled W H m b1 x y)) :
    ∀ (cs : List (Int × Int)) (b : Board), Rect W H b → nonClearCount b < fuel →
      ∃ b1, floodEach fuel m cs b = .ok b1 ∧
        FloodPost W H m (fun u v => ∃ c ∈ cs, FloodReach W H m b c.1 c.2 u v) b b1 ∧
        ∀ c ∈ cs, inBounds W H c.1 c.2 → mineAt m c.1 c.2 = false →
          Settled W H m b1 c.1 c.2 := by
  intro cs
  induction cs with
  | nil =>
    intro b hb _
    exact ⟨b, rfl, FloodPost_refl hb, fun c hc => absurd hc (List.not_mem_nil c)⟩
  | cons c cs ih =>
    intro b hb hlt
    obtain ⟨b1, e1, p1, s1⟩ := IH c.1 c.2 b hb hlt
    obtain ⟨b2, e2, p2, s2⟩ := ih b1 p1.1 (lt_of_le_of_lt p1.2.1 hlt)
    refine ⟨b2, ?_, ?_, ?_⟩
    · show (FloodMinefieldFuel fuel c.1 c.2 b m >>= fun b => floodEach fuel m cs b) = _
      rw [e1]
      exact e2
    · refine FloodPost_trans (FloodPost_mono ?_ p1) (FloodPost_mono ?_ p2)
      · intro u v h
        exact ⟨c, List.mem_cons_self _ _, h⟩
      · rintro u v ⟨d, hd, h⟩
        exact ⟨d, List.mem_cons_of_mem _ hd, FloodReach_mono p1.2.2.1 h⟩
    · intro d hd hin hmn
      rcases List.mem_cons.mp hd with rfl | hd
      · exact FloodFrame_settled p2.2.2.1 (s1 hin hmn)
      · exact s2 d hd hin hmn

theorem FloodMinefieldFuel_post {W H : Int} {m : Mines} (hm : Rect W H m) (hH : 0 < H) :
    ∀ (fuel : Nat) (x y : Int) (b : Board), Rect W H b → nonClearCount b < fuel →
      ∃ b1, FloodMinefieldFuel fuel x y b m = .ok b1 ∧
        FloodPost W H m (FloodReach W H m b x y) b b1 ∧
        (inBounds W H x y → mineAt m x y = false → Settled W H m b1 x y) := by
  intro fuel
  induction fuel with
  | zero => intro x y b _ h; exact absurd h (Nat.not_lt_zero _)
  | succ f ih =>
    intro x y b hb hlt
    rw [FloodMinefieldFuel_succ hm hb hH]
    by_cases hin : inBounds W H x y
    swap
    · rw [if_neg hin]
      exact ⟨b, rfl, FloodPost_refl hb, fun h => absurd h hin⟩
    rw [if_pos hin]
    obtain ⟨v, hv⟩ := gridAt_ok_of_inBounds hb hin
    rw [hv]
    simp only
    by_cases h0 : v = CELL_CLEAR
    · rw [if_pos h0]
      refine ⟨b, rfl, FloodPost_refl hb, fun _ _ => Or.inl ?_⟩
      rw [hv, h0]
    rw [if_neg h0]
    cases hmn : mineAt m x y with
    | true =>
      simp only [if_true]
      exact ⟨b, rfl, FloodPost_refl hb, fun _ h => by cases h⟩
    | false =>
      simp only [Bool.false_eq_true, if_false]
      obtain ⟨b0, hs⟩ := gridSet_ok_of_at (adjacentCount W H m x y) hv
      rw [hs]
      simp only
      have hb0 : Rect W H b0 := gridSet_rect hb hs
      have hcount := nonClearCount_set hv hs
      have hc1 : (if v ≠ CELL_CLEAR then 1 else 0) = 1 := if_pos h0
      rw [hc1] at hcount
      have hself : gridAt b0 x y = .ok (adjacentCount W H m x y) := gridAt_set_self hs
      have hother : ∀ u w : Int, (u, w) ≠ (x, y) → gridAt b0 u w = gridAt b u w :=
        fun u w hne => gridAt_set_ne hs hne
      have hne0 : gridAt b x y ≠ .ok CELL_CLEAR := by
        rw [hv]; intro e; exact h0 (Except.ok.inj e)
      have hframe0 : FloodFrame W H m (FloodReach W H m b x y) b b0 := by
        intro u w
        by_cases e : (u, w) = (x, y)
        · obtain ⟨rfl, rfl⟩ := Prod.mk.inj e
          exact Or.inr ⟨hself, hin, hmn, hne0, FloodReach.self _ _⟩
        · exact Or.inl (hother u w e)
      by_cases hpos : adjacentCount W H m x y > 0
      · rw [if_pos hpos]
        refine ⟨b0, rfl, ⟨hb0, ?_, hframe0, ?_⟩, fun _ _ => Or.inr hself⟩
        · have hle : (if adjacentCount W H m x y ≠ CELL_CLEAR then 1 else 0 : Nat) ≤ 1 := by
            split <;> omega
          omega
        · rintro u w ⟨hc, p, q, hadj, hpq, n1, n2⟩
          have huw : (u, w) ≠ (x, y) := by
            intro e
            obtain ⟨rfl, rfl⟩ := Prod.mk.inj e
            rw [hself] at hc
            have := Except.ok.inj hc
            unfold CELL_CLEAR at this
            omega
          have hpq2 : (p, q) ≠ (x, y) := by
            intro e
            obtain ⟨rfl, rfl⟩ := Prod.mk.inj e
            exact n2 hself
          rw [hother u w huw] at hc
          rw [hother p q hpq2] at n1 n2
          exact ⟨hc, p, q, hadj, hpq, n1, n2⟩
      · rw [if_neg hpos]
        have hzero : adjacentCount W H m x y = 0 := by
          unfold adjacentCount at hpos ⊢
          omega
        have hbz : bruteForceCount W H m x y = 0 := by
          unfold adjacentCount at hzero
          omega
        have hdec : nonClearCount b0 + 1 = nonClearCount b := by
          rw [hzero] at hcount
          simp only [CELL_CLEAR, ne_eq, not_true_eq_false, if_false] at hcount
          omega
        have hlt0 : nonClearCount b0 < f := by omega
        obtain ⟨b1, e1, p1, s1⟩ := floodEach_post f ih (floodOrder x y) b0 hb0 hlt0
        have hframe1 : FloodFrame W H m (FloodReach W H m b x y) b0 b1 := by
          refine FloodFrame_mono ?_ p1.2.2.1
          rintro u w ⟨c, hc, hr⟩
          exact FloodReach.step x y c.1 c.2 u w hin hmn hbz hne0
            ((mem_floodOrder_iff x y c).mp hc) (FloodReach_mono hframe0 hr)
        refine ⟨b1, e1, ⟨p1.1, ?_, FloodFrame_trans hframe0 hframe1, ?_⟩, ?_⟩
        · exact le_trans p1.2.1 (by omega)
        · intro u w hu
          have hu0 := p1.2.2.2 u w hu
          by_cases e : (u, w) = (x, y)
          · exfalso
            obtain ⟨rfl, rfl⟩ := Prod.mk.inj e
            obtain ⟨_, p, q, hadj, hpq, n1, n2⟩ := hu
            have hset := s1 (p, q) ((mem_floodOrder_iff u w (p, q)).mpr hadj) hpq
              (mineAt_false_of_count_zero hm hbz hadj)
            rcases hset with h | h
            · exact n1 h
            · exact n2 h
          · obtain ⟨hc, p, q, hadj, hpq, n1, n2⟩ := hu0
            have hpq2 : (p, q) ≠ (x, y) := by
              intro e2
              obtain ⟨rfl, rfl⟩ := Prod.mk.inj e2
              exact n2 hself
            rw [hother u w e] at hc
            rw [hother p q hpq2] at n1 n2
            exact ⟨hc, p, q, hadj, hpq, n1, n2⟩
        · intro _ _
          exact FloodFrame_settled hframe1 (Or.inr hself)

theorem list_set_same {α : Type} (l : List α) (i : Nat) (a : α) (h : l[i]? = some a) :
    l.set i a = l := by
  induction l generalizing i with
  | nil => rfl
  | cons x xs ih =>
    cases i with
    | zero =>
      simp only [List.getElem?_cons_zero, Option.some.injEq] at h
      rw [h]; rfl
    | succ j =>
      simp only [List.getElem?_cons_succ] at h
      rw [List.set_cons_succ, ih j h]

/-- Storing the value a cell already has leaves the grid as it is. -/
theorem gridSet_same {α : Type} {g : List (List α)} {x y : Int} {a : α}
    (h : gridAt g x y = .ok a) : gridSet g x y a = .ok g := by
  obtain ⟨g1, hs⟩ := gridSet_ok_of_at a h
  obtain ⟨row, row1, h1, h2, h3⟩ := gridSet_parts hs
  have hold : vecAt row x = .ok a := by
    unfold gridAt at h
    rw [h1] at h
    exact h
  rw [vecSet_eq_ok_iff] at h2 h3
  obtain ⟨_, _, e2⟩ := h2
  obtain ⟨_, _, e3⟩ := h3
  rw [vecAt_eq_ok_iff] at h1 hold
  rw [list_set_same row x.toNat a hold.2] at e2
  rw [e2, list_set_same g y.toNat row h1.2] at e3
  rw [hs, e3]

theorem FloodMinefield_post {W H : Int} {m : Mines} {b : Board} (hm : Rect W H m)
    (hb : Rect W H b) (hH : 0 < H) (x y : Int) :
    ∃ b1, FloodMinefield x y b m = .ok b1 ∧
      FloodPost W H m (FloodReach W H m b x y) b b1 ∧
      (inBounds W H x y → mineAt m x y = false → Settled W H m b1 x y) :=
  FloodMinefieldFuel_post hm hH (nonClearCount b + 1) x y b hb (Nat.lt_succ_self _)

/-! ## The recursion budget does not matter -/

theorem floodEach_fuel {W H : Int} {m : Mines} (hm : Rect W H m) (hH : 0 < H) (f1 f2 : Nat)
    (IH : ∀ (x y : Int) (b : Board), Rect W H b → nonClearCount b < f1 →
      nonClearCount b < f2 → FloodMinefieldFuel f1 x y b m = FloodMinefieldFuel f2 x y b m) :
    ∀ (cs : List (Int × Int)) (b : Board), Rect W H b → nonClearCount b < f1 →
      nonClearCount b < f2 → floodEach f1 m cs b = floodEach f2 m cs b := by
  intro cs
  induction cs with
  | nil => intro b _ _ _; rfl
  | cons c cs ih =>
    intro b hb h1 h2
    obtain ⟨b1, e1, p1, _⟩ := FloodMinefieldFuel_post hm hH f1 c.1 c.2 b hb h1
    have e2 : FloodMinefieldFuel f2 c.1 c.2 b m = .ok b1 := by
      rw [← IH c.1 c.2 b hb h1 h2]; exact e1
    show (FloodMinefieldFuel f1 c.1 c.2 b m >>= fun b => floodEach f1 m cs b) =
      (FloodMinefieldFuel f2 c.1 c.2 b m >>= fun b => floodEach f2 m cs b)
    rw [e1, e2]
    exact ih b1 p1.1 (lt_of_le_of_lt p1.2.1 h1) (lt_of_le_of_lt p1.2.1 h2)

/-- Any two budgets above the number of cells that are not clear give the same result. -/
theorem FloodMinefieldFuel_fuel {W H : Int} {m : Mines} (hm : Rect W H m) (hH : 0 < H) :
    ∀ (f1 f2 : Nat) (x y : Int) (b : Board), Rect W H b → nonClearCount b < f1 →
      nonClearCount b < f2 → FloodMinefieldFuel f1 x y b m = FloodMinefieldFuel f2 x y b m := by
  intro f1
  induction f1 with
  | zero => intro f2 x y b _ h; exact absurd h (Nat.not_lt_zero _)
  | succ g1 ih =>
    intro f2 x y b hb h1 h2
    cases f2 with
    | zero => exact absurd h2 (Nat.not_lt_zero _)
    | succ g2 =>
      rw [FloodMinefieldFuel_succ hm hb hH, FloodMinefieldFuel_succ hm hb hH]
      by_cases hin : inBounds W H x y
      swap
      · rw [if_neg hin, if_neg hin]
      rw [if_pos hin, if_pos hin]
      obtain ⟨v, hv⟩ := gridAt_ok_of_inBounds hb hin
      rw [hv]
      simp only
      by_cases h0 : v = CELL_CLEAR
      · rw [if_pos h0, if_pos h0]
      rw [if_neg h0, if_neg h0]
      by_cases hmn : mineAt m x y = true
      · rw [if_pos hmn, if_pos hmn]
      rw [if_neg hmn, if_neg hmn]
      obtain ⟨b0, hs⟩ := gridSet_ok_of_at (adjacentCount W H m x y) hv
      rw [hs]
      simp only
      by_cases hpos : adjacentCount W H m x y > 0
      · rw [if_pos hpos, if_pos hpos]
      rw [if_neg hpos, if_neg hpos]
      have hzero : adjacentCount W H m x y = 0 := by
        unfold adjacentCount at hpos ⊢
        omega
      have hcount := nonClearCount_set hv hs
      rw [hzero, if_pos h0] at hcount
      simp only [CELL_CLEAR, ne_eq, not_true_eq_false, if_false] at hcount
      exact floodEach_fuel hm hH g1 g2 (fun x y b hb a1 a2 => ih g2 x y b hb a1 a2)
        (floodOrder x y) b0 (gridSet_rect hb hs) (by omega) (by omega)

/-- The result of `FloodMinefield` is the result of the recursion under every budget
above the number of cells that are not clear. -/
theorem FloodMinefield_eq_fuel {W H : Int} {m : Mines} {b : Board} (hm : Rect W H m)
    (hb : Rect W H b) (hH : 0 < H) (f : Nat) (hf : nonClearCount b < f) (x y : Int) :
    FloodMinefieldFuel f x y b m = FloodMinefield x y b m :=
  FloodMinefieldFuel_fuel hm hH f (nonClearCount b + 1) x y b hb hf (Nat.lt_succ_self _)

/-- Claim C5. `FloodMinefield` is idempotent: on every rectangular board with at least one
row, with a mine grid of the same dimensions and any integer coordinates, the call returns
a board, and a second call at the same coordinates on that board returns it unchanged. -/
theorem C5_flood_idempotent (W H : Int) (m : Mines) (b : Board) (x y : Int)
    (hH : 0 < H) (hm : Rect W H m) (hb : Rect W H b) :
    ∃ b1, FloodMinefield x y b m = .ok b1 ∧ FloodMinefield x y b1 m = .ok b1 := by
  obtain ⟨b1, e1, p1, s1⟩ := FloodMinefield_post hm hb hH x y
  refine ⟨b1, e1, ?_⟩
  unfold FloodMinefield
  rw [FloodMinefieldFuel_succ hm p1.1 hH]
  by_cases hin : inBounds W H x y
  swap
  · rw [if_neg hin]
  rw [if_pos hin]
  obtain ⟨v, hv⟩ := gridAt_ok_of_inBounds p1.1 hin
  rw [hv]
  simp only
  by_cases h0 : v = CELL_CLEAR
  · rw [if_pos h0]
  rw [if_neg h0]
  cases hmn : mineAt m x y with
  | true => simp only [if_true]
  | false =>
    simp only [Bool.false_eq_true, if_false]
    have hv2 : gridAt b1 x y = .ok (adjacentCount W H m x y) := by
      rcases s1 hin hmn with h | h
      · rw [hv] at h
        exact absurd (Except.ok.inj h) h0
      · exact h
    rw [gridSet_same hv2]
    simp only
    have hpos : adjacentCount W H m x y > 0 := by
      have e : v = adjacentCount W H m x y := by
        rw [hv] at hv2
        exact Except.ok.inj hv2
      have hnn : 0 ≤ adjacentCount W H m x y := by
        unfold adjacentCount; omega
      rw [e] at h0
      unfold CELL_CLEAR at h0
      omega
    rw [if_pos hpos]

/-- Witness for C5 on a 3x3 board with one mine in the corner. -/
theorem C5_flood_idempotent_witness :
    ∃ b1, FloodMinefield 0 0 [[9, 9, 9], [9, 9, 9], [9, 9, 9]]
        [[false, false, false], [false, false, false], [false, false, true]] = .ok b1 ∧
      FloodMinefield 0 0 b1
        [[false, false, false], [false, false, false], [false, false, true]] = .ok b1 :=
  C5_flood_idempotent 3 3 [[false, false, false], [false, false, false], [false, false, true]]
    [[9, 9, 9], [9, 9, 9], [9, 9, 9]] 0 0 (by decide) (by decide) (by decide)

/-! ## Flood-fill correctness on a board without revealed cells -/

theorem gridAt_mem {α : Type} {g : List (List α)} {x y : Int} {a : α}
    (h : gridAt g x y = .ok a) : ∃ row ∈ g, a ∈ row := by
  unfold gridAt at h
  cases hr : vecAt g y with
  | error e => rw [hr] at h; cases h
  | ok row =>
    rw [hr] at h
    have h2 : vecAt row x = .ok a := h
    exact ⟨row, (vecAt_ok_bounds hr).2.2, (vecAt_ok_bounds h2).2.2⟩

theorem adjacentCount_revealed (W H : Int) (m : Mines) (x y : Int) :
    isRevealed (adjacentCount W H m x y) := by
  have := bruteForceCount_le W H m x y
  unfold isRevealed adjacentCount
  omega

/-- Cells visited from a cell of the zero region, or from a cell touching it, lie in the
flood area. -/
theorem FloodReach_inFloodArea {W H : Int} {m : Mines} {b : Board} {x0 y0 p q u v : Int}
    (hr : FloodReach W H m b p q u v) (huv : inBounds W H u v)
    (hp : ZeroRegion W H m x0 y0 p q ∨ ∃ r s, ZeroRegion W H m x0 y0 r s ∧ adjacent r s p q) :
    inFloodArea W H m x0 y0 u v := by
  induction hr with
  | self p q =>
    rcases hp with h | h
    · exact Or.inl h
    · exact Or.inr ⟨huv, h⟩
  | step p q p1 q1 u v hin hmn hc _ hadj _ ih =>
    apply ih huv
    have hz : ZeroRegion W H m x0 y0 p q := by
      rcases hp with h | ⟨r, s, h, ha⟩
      · exact h
      · exact ZeroRegion.grow r s p q h ha ⟨hin, hmn, hc⟩
    exact Or.inr ⟨p, q, hz, hadj⟩

/-- Claim C1. Flood-fill correctness: on a rectangular mine grid and a board of the same
dimensions (at least one row) with no revealed cell, started at a cell of the grid that
holds no mine and has adjacent-mine count 0, `FloodMinefield` returns a board of the same
dimensions on which the revealed cells are exactly the cells of the zero region of the
start together with the grid cells touching that region; each of them holds its own
adjacent-mine count, and every other cell is unchanged. -/
theorem C1_flood_fill_correct (W H : Int) (m : Mines) (b : Board) (x y : Int)
    (hH : 0 < H) (hm : Rect W H m) (hb : Rect W H b)
    (hnone : ∀ row ∈ b, ∀ v ∈ row, ¬ isRevealed v)
    (hin : inBounds W H x y) (hmine : CheckMine x y m = .ok false)
    (hcount : GetAdjacentMineCount x y m = .ok 0) :
    ∃ b1, FloodMinefield x y b m = .ok b1 ∧ Rect W H b1 ∧
      ∀ u v : Int,
        ((∃ n, GetMinefieldValue u v b1 = .ok n ∧ isRevealed n) ↔
          inFloodArea W H m x y u v) ∧
        (inFloodArea W H m x y u v →
          GetMinefieldValue u v b1 = GetAdjacentMineCount u v m) ∧
        (¬ inFloodArea W H m x y u v →
          GetMinefieldValue u v b1 = GetMinefieldValue u v b) := by
  have hmn : mineAt m x y = false := by
    rw [CheckMine_rect hm hH] at hmine
    exact Except.ok.inj hmine
  have hbz : bruteForceCount W H m x y = 0 := by
    rw [GetAdjacentMineCount_rect hm hH] at hcount
    have := Except.ok.inj hcount
    omega
  have hzero : isZeroCell W H m x y := ⟨hin, hmn, hbz⟩
  obtain ⟨b1, e1, ⟨hb1, _, hframe, hunf⟩, hset⟩ := FloodMinefield_post hm hb hH x y
  refine ⟨b1, e1, hb1, ?_⟩
  -- no cell of the old board is revealed
  have hold : ∀ u v n, gridAt b u v = .ok n → ¬ isRevealed n := by
    intro u v n h
    obtain ⟨row, hrow, hn⟩ := gridAt_mem h
    exact hnone row hrow n hn
  have hclear : isRevealed CELL_CLEAR := by unfold isRevealed CELL_CLEAR; omega
  -- no cell of the new board is unfinished
  have hfin : ∀ u v, ¬ Unfinished W H m b1 u v := by
    intro u v h
    exact hold u v CELL_CLEAR (hunf u v h).1 hclear
  -- a cell of the new board that is clear holds its count
  have hcnt : ∀ u v, Settled W H m b1 u v → gridAt b1 u v = .ok (adjacentCount W H m u v) := by
    intro u v h
    rcases h with h | h
    · rcases hframe u v with e | ⟨e, _⟩
      · rw [h] at e
        exact absurd hclear (hold u v CELL_CLEAR e.symm)
      · exact e
    · exact h
  have hnext : ∀ p q u v, gridAt b1 p q = .ok CELL_CLEAR → adjacent p q u v →
      inBounds W H u v → gridAt b1 u v = .ok (adjacentCount W H m u v) := by
    intro p q u v hp hadj huv
    apply hcnt
    by_contra hns
    unfold Settled at hns
    push_neg at hns
    exact hfin p q ⟨hp, u, v, hadj, huv, hns.1, hns.2⟩
  have hregion : ∀ p q, ZeroRegion W H m x y p q → gridAt b1 p q = .ok CELL_CLEAR := by
    intro p q hz
    induction hz with
    | start _ =>
      have := hcnt x y (hset hin hmn)
      rw [this]
      unfold adjacentCount CELL_CLEAR
      rw [hbz]; rfl
    | grow p q u v _ hadj hzc ih =>
      have := hnext p q u v ih hadj hzc.1
      rw [this]
      unfold adjacentCount CELL_CLEAR
      rw [hzc.2.2]; rfl
  have harea : ∀ u v, inFloodArea W H m x y u v →
      gridAt b1 u v = .ok (adjacentCount W H m u v) := by
    intro u v h
    rcases h with h | ⟨huv, p, q, hz, hadj⟩
    · exact hcnt u v (Or.inl (hregion u v h))
    · exact hnext p q u v (hregion p q hz) hadj huv
  have hchanged : ∀ u v, inBounds W H u v → FloodReach W H m b x y u v →
      inFloodArea W H m x y u v :=
    fun u v huv hr => FloodReach_inFloodArea hr huv (Or.inl (ZeroRegion.start hzero))
  intro u v
  refine ⟨⟨?_, ?_⟩, ?_, ?_⟩
  · rintro ⟨n, hn, hrev⟩
    rcases hframe u v with e | ⟨_, huv, _, _, hr⟩
    · exact absurd hrev (hold u v n (by rw [← e]; exact hn))
    · exact hchanged u v huv hr
  · intro h
    exact ⟨_, harea u v h, adjacentCount_revealed W H m u v⟩
  · intro h
    rw [GetAdjacentMineCount_rect hm hH]
    exact harea u v h
  · intro h
    rcases hframe u v with e | ⟨_, huv, _, _, hr⟩
    · exact e
    · exact absurd (hchanged u v huv hr) h

/-- Witness for C1, the scenario of the specification: 3x3 board, single mine at `(2, 2)`,
reveal `(0, 0)`.  All eight non-mine cells are revealed, the three cells next to the mine
show 1 and the others 0, and `VerifyVictory` holds. -/
theorem C1_flood_fill_correct_witness :
    FloodMinefield 0 0 [[9, 9, 9], [9, 9, 9], [9, 9, 9]]
        [[false, false, false], [false, false, false], [false, false, true]]
      = .ok [[0, 0, 0], [0, 1, 1], [0, 1, 9]] ∧
    VerifyVictory [[0, 0, 0], [0, 1, 1], [0, 1, 9]]
        [[false, false, false], [false, false, false], [false, false, true]] = .ok true ∧
    ∃ b1, FloodMinefield 0 0 [[9, 9, 9], [9, 9, 9], [9, 9, 9]]
        [[false, false, false], [false, false, false], [false, false, true]] = .ok b1 ∧
      Rect 3 3 b1 ∧
      ∀ u v : Int,
        ((∃ n, GetMinefieldValue u v b1 = .ok n ∧ isRevealed n) ↔
          inFloodArea 3 3 [[false, false, false], [false, false, false], [false, false, true]]
            0 0 u v) ∧
        (inFloodArea 3 3 [[false, false, false], [false, false, false], [false, false, true]]
            0 0 u v →
          GetMinefieldValue u v b1 = GetAdjacentMineCount u v
            [[false, false, false], [false, false, false], [false, false, true]]) ∧
        (¬ inFloodArea 3 3 [[false, false, false], [false, false, false], [false, false, true]]
            0 0 u v →
          GetMinefieldValue u v b1 =
            GetMinefieldValue u v [[9, 9, 9], [9, 9, 9], [9, 9, 9]]) :=
  ⟨by decide, by decide,
    C1_flood_fill_correct 3 3
      [[false, false, false], [false, false, false], [false, false, true]]
      [[9, 9, 9], [9, 9, 9], [9, 9, 9]] 0 0 (by decide) (by decide) (by decide) (by decide)
      (by decide) (by decide) (by decide)⟩

/-- Claim C2. On a rectangular mine grid with at least one row, for every integer cell
`(x, y)`, `GetAdjacentMineCount` returns the number of mine cells among the cells of the 3x3
neighbourhood of `(x, y)` that lie inside the grid and differ from `(x, y)`; the result lies
in `0..8`. -/
theorem C2_adjacent_count_is_brute_force (W H : Int) (m : Mines) (x y : Int)
    (hH : 0 < H) (hm : Rect W H m) :
    ∃ n : Int, GetAdjacentMineCount x y m = .ok n ∧
      n = ((bruteForceCount W H m x y : Nat) : Int) ∧ 0 ≤ n ∧ n ≤ 8 := by
  refine ⟨_, GetAdjacentMineCount_rect hm hH x y, rfl, ?_, ?_⟩
  · omega
  · have := bruteForceCount_le W H m x y
    omega

/-- Witness for C2: the centre of a 3x3 grid with mines in two corners, and a cell outside
the grid next to one of them. -/
theorem C2_adjacent_count_is_brute_force_witness :
    (∃ n : Int, GetAdjacentMineCount 1 1
        [[true, false, false], [false, false, false], [false, false, true]] = .ok n ∧
      n = ((bruteForceCount 3 3
        [[true, false, false], [false, false, false], [false, false, true]] 1 1 : Nat) : Int) ∧
      0 ≤ n ∧ n ≤ 8) ∧
    GetAdjacentMineCount 1 1
        [[true, false, false], [false, false, false], [false, false, true]] = .ok 2 ∧
    GetAdjacentMineCount (-1) (-1)
        [[true, false, false], [false, false, false], [false, false, true]] = .ok 1 :=
  ⟨C2_adjacent_count_is_brute_force 3 3
      [[true, false, false], [false, false, false], [false, false, true]] 1 1
      (by decide) (by decide),
    by decide, by decide⟩

set_option maxRecDepth 100000 in
/-- Claim C4 fails on the code. On the 3x1 board `[10, 1, 9]` (flag, revealed 1, hidden)
with the single mine under the hidden cell, `VerifyVictory` returns `true` although the
non-mine cell `(0, 0)` is flagged and not revealed: the loop only rejects cells equal to
`CELL_HIDDEN`.  The same happens in play on the beginner preset: flag `(0, 0)`, move the
cursor up and left (it wraps to `(8, 8)`), reveal there with draws that put the ten mines
around `(0, 0)`; the game is won with `(0, 0)` still flagged and free of a mine. -/
theorem C4_victory_with_flagged_safe_cell :
    (VerifyVictory [[10, 1, 9]] [[false, false, true]] = .ok true ∧
      CheckMine 0 0 [[false, false, true]] = .ok false ∧
      GetMinefieldValue 0 0 [[10, 1, 9]] = .ok CELL_FLAG ∧
      ¬ isRevealed CELL_FLAG) ∧
    (do
      let (s1, _, _) ← loopBody ⟨false, false, false, false, true, false, false, false⟩ []
        (Session.fresh ⟨9, 9, 10⟩)
      let (s2, _, _) ← loopBody ⟨true, false, true, false, false, false, false, false⟩ [] s1
      let (s3, _, _) ← loopBody ⟨false, false, false, false, false, false, true, false⟩
        [1, 0, 0, 1, 1, 1, 2, 0, 2, 1, 2, 2, 1, 2, 0, 2, 3, 0, 0, 3] s2
      return (s3.victory, GetMinefieldValue 0 0 s3.minefield, CheckMine 0 0 s3.mines))
      = .ok (true, .ok CELL_FLAG, .ok false) := by
  constructor
  · decide
  · decide

theorem RandomRange_zero {MAX : Int} (h : 0 < MAX) (r : Nat) :
    ∃ v, RandomRange 0 MAX r = .ok v ∧ 0 ≤ v ∧ v < MAX := by
  refine ⟨Int.tmod (r : Int) MAX + 0, ?_, ?_, ?_⟩
  · unfold RandomRange
    rw [if_neg (by omega)]
  · have := Int.tmod_nonneg MAX (Int.ofNat_nonneg r)
    omega
  · have := Int.tmod_lt_of_pos (r : Int) h
    omega

theorem pick_spec {W H : Int} {m : Mines} (hm : Rect W H m) (hW : 0 < W) (hH : 0 < H)
    (ax ay : Int) :
    ∀ (n : Nat) (draws : List Nat), draws.length ≤ n → ∀ (x y : Int) (rest : List Nat),
      PlaceMines.pick W H m ax ay draws = .ok (x, y, rest) →
      inBounds W H x y ∧ ¬ (x = ax ∧ y = ay) ∧ mineAt m x y = false := by
  intro n
  induction n with
  | zero =>
    intro draws hlen x y rest h
    have : draws = [] := List.eq_nil_of_length_eq_zero (by omega)
    subst this
    simp [PlaceMines.pick] at h
  | succ k ih =>
    intro draws hlen x y rest h
    match draws, hlen, h with
    | [], _, h => simp [PlaceMines.pick] at h
    | [_], _, h => simp [PlaceMines.pick] at h
    | r1 :: r2 :: tl, hlen, h =>
      obtain ⟨vx, ex, hx0, hx1⟩ := RandomRange_zero hW r1
      obtain ⟨vy, ey, hy0, hy1⟩ := RandomRange_zero hH r2
      rw [PlaceMines.pick] at h
      simp only [ex, ey, CheckMine_rect hm hH, bind, Except.bind, pure, Except.pure] at h
      have hl : tl.length ≤ k := by
        simp only [List.length_cons] at hlen
        omega
      by_cases hav : vx = ax ∧ vy = ay
      · rw [if_pos hav] at h
        exact ih tl hl x y rest h
      · rw [if_neg hav] at h
        cases hmn : mineAt m vx vy with
        | true =>
          rw [hmn] at h
          simp only [if_true] at h
          exact ih tl hl x y rest h
        | false =>
          rw [hmn] at h
          simp only [Bool.false_eq_true, if_false] at h
          have e := Except.ok.inj h
          simp only [Prod.mk.injEq] at e
          obtain ⟨rfl, rfl, _⟩ := e
          exact ⟨⟨hx0, hx1, hy0, hy1⟩, hav, hmn⟩

theorem mineAt_false_iff {W H : Int} {m : Mines} (hm : Rect W H m) {x y : Int}
    (hin : inBounds W H x y) : mineAt m x y = false ↔ gridAt m x y = .ok false := by
  obtain ⟨a, ha⟩ := gridAt_ok_of_inBounds hm hin
  unfold mineAt
  rw [ha]
  cases a <;> simp

theorem loop_spec {W H : Int} (hW : 0 < W) (hH : 0 < H) (ax ay : Int) :
    ∀ (n : Nat) (m : Mines) (draws : List Nat) (m1 : Mines) (rest : List Nat), Rect W H m →
      PlaceMines.loop W H ax ay n m draws = .ok (m1, rest) →
      Rect W H m1 ∧ mineCount m1 = mineCount m + n ∧
        (mineAt m ax ay = false → mineAt m1 ax ay = false) := by
  intro n
  induction n with
  | zero =>
    intro m draws m1 rest hm h
    simp only [PlaceMines.loop] at h
    have e := Except.ok.inj h
    simp only [Prod.mk.injEq] at e
    obtain ⟨rfl, _⟩ := e
    exact ⟨hm, rfl, fun hav => hav⟩
  | succ k ih =>
    intro m draws m1 rest hm h
    rw [PlaceMines.loop] at h
    cases hp : PlaceMines.pick W H m ax ay draws with
    | error e => rw [hp] at h; cases h
    | ok r =>
      obtain ⟨x, y, tl⟩ := r
      rw [hp] at h
      obtain ⟨hin, hne, hmn⟩ := pick_spec hm hW hH ax ay draws.length draws (le_refl _) x y tl hp
      have hold : gridAt m x y = .ok false := (mineAt_false_iff hm hin).mp hmn
      obtain ⟨m2, hs⟩ := gridSet_ok_of_at true hold
      simp only [bind, Except.bind, hs] at h
      have hm2 : Rect W H m2 := gridSet_rect hm hs
      have hav2 : mineAt m ax ay = false → mineAt m2 ax ay = false := by
        intro hav
        unfold mineAt
        rw [gridAt_set_ne hs (by intro e; exact hne (Prod.mk.inj e.symm))]
        exact hav
      obtain ⟨r1, r2, r3⟩ := ih m2 tl m1 rest hm2 h
      refine ⟨r1, ?_, fun hav => r3 (hav2 hav)⟩
      have hc := gridCount_set (fun v : Bool => v) hold hs
      simp only [Bool.false_eq_true, if_false, if_true] at hc
      unfold mineCount at r2 ⊢
      omega

theorem PlaceMines_spec {W H : Int} {mines mines1 : Mines} {count ax ay : Int}
    {draws rest : List Nat} (hW : 0 < W) (hH : 0 < H) (hm : Rect W H mines)
    (hrun : PlaceMines count mines ax ay draws = .ok (mines1, rest)) :
    Rect W H mines1 ∧ mineCount mines1 = mineCount mines + count.toNat ∧
      (mineAt mines ax ay = false → mineAt mines1 ax ay = false) := by
  unfold PlaceMines at hrun
  rw [frontSize_rect hm hH, gridSize_rect hm] at hrun
  exact loop_spec hW hH ax ay count.toNat mines draws mines1 rest hm hrun

theorem mineAt_false_of_mineCount_zero {mines : Mines} (h : mineCount mines = 0)
    (x y : Int) : mineAt mines x y = false := by
  cases hmn : mineAt mines x y with
  | false => rfl
  | true =>
    exfalso
    have hg : gridAt mines x y = .ok true := of_decide_eq_true hmn
    obtain ⟨m2, hs⟩ := gridSet_ok_of_at false hg
    have hc := gridCount_set (fun v : Bool => v) hg hs
    simp only [Bool.false_eq_true, if_false, if_true] at hc
    unfold mineCount at h
    omega

/-- Number of mines after `PlaceMines` for any `int` count: the loop
`for (int i = 0; i < AMOUNT; i++)` runs `max (count, 0)` times, so that many cells are
mines afterwards on a grid that held none. -/
theorem PlaceMines_mineCount {W H : Int} {mines mines1 : Mines} {count ax ay : Int}
    {draws rest : List Nat} (hW : 0 < W) (hH : 0 < H) (hm : Rect W H mines)
    (hempty : mineCount mines = 0)
    (hrun : PlaceMines count mines ax ay draws = .ok (mines1, rest)) :
    (mineCount mines1 : Int) = max count 0 := by
  obtain ⟨_, r2, _⟩ := PlaceMines_spec hW hH hm hrun
  rw [r2, hempty]
  omega

/-- Claim C3. On a rectangular mine grid with at least one row and one column that holds
no mine, for every number of mines `count` (an `int` that is not negative), every avoided
cell and every sequence of random draws on which `PlaceMines` completes: the grid keeps
its dimensions, exactly `count` cells are mines afterwards, and the avoided cell is not a
mine. -/
theorem C3_place_mines_count (W H : Int) (mines : Mines) (count ax ay : Int)
    (draws : List Nat) (mines1 : Mines) (rest : List Nat)
    (hW : 0 < W) (hH : 0 < H) (hm : Rect W H mines) (hempty : mineCount mines = 0)
    (hcount : 0 ≤ count)
    (hrun : PlaceMines count mines ax ay draws = .ok (mines1, rest)) :
    Rect W H mines1 ∧ (mineCount mines1 : Int) = count ∧
      CheckMine ax ay mines1 = .ok false := by
  obtain ⟨r1, r2, r3⟩ := PlaceMines_spec hW hH hm hrun
  refine ⟨r1, ?_, ?_⟩
  · rw [r2, hempty]
    omega
  · rw [CheckMine_rect r1 hH, r3 (mineAt_false_of_mineCount_zero hempty ax ay)]

/-- Witness for C3: three mines on an empty 3x3 grid, avoiding `(0, 0)`; the first draw
hits the avoided cell and the fourth a cell that already holds a mine. -/
theorem C3_place_mines_count_witness :
    PlaceMines 3 [[false, false, false], [false, false, false], [false, false, false]] 0 0
        [0, 0, 1, 1, 4, 4, 5, 5, 2, 2, 1, 2, 5, 6]
      = .ok ([[false, false, false], [false, true, false], [false, true, true]], [5, 6]) ∧
    Rect 3 3 [[false, false, false], [false, true, false], [false, true, true]] ∧
    (mineCount [[false, false, false], [false, true, false], [false, true, true]] : Int)
      = 3 ∧
    CheckMine 0 0 [[false, false, false], [false, true, false], [false, true, true]]
      = .ok false :=
  ⟨by decide,
    C3_place_mines_count 3 3 [[false, false, false], [false, false, false], [false, false, false]]
      3 0 0 [0, 0, 1, 1, 4, 4, 5, 5, 2, 2, 1, 2, 5, 6]
      [[false, false, false], [false, true, false], [false, true, true]] [5, 6]
      (by decide) (by decide) (by decide) (by decide) (by decide) (by decide)⟩

/-! ## Victory check -/

theorem rect_width_nonneg {α : Type} {W H : Int} {g : List (List α)} (hg : Rect W H g)
    (hH : 0 < H) : 0 ≤ W := by
  cases g with
  | nil => have := hg.1; simp at this; omega
  | cons row rest =>
    have := hg.2 row (List.mem_cons_self _ _)
    omega

theorem VerifyVictory_row_spec {W H : Int} {b : Board} {m : Mines} (hb : Rect W H b)
    (hm : Rect W H m) (hH : 0 < H) (y : Int) (hy : 0 ≤ y ∧ y < H) :
    ∀ (n : Nat) (x : Int), 0 ≤ x → x + n = W →
      ∃ r, VerifyVictory.row b m y n x = .ok r ∧
        (r = true ↔ ∀ u : Int, x ≤ u → u < W →
          ¬ (gridAt b u y = .ok CELL_HIDDEN ∧ mineAt m u y = false)) := by
  intro n
  induction n with
  | zero =>
    intro x _ hx
    refine ⟨true, rfl, ?_⟩
    simp only [true_iff]
    intro u h1 h2
    simp only [Nat.cast_zero, add_zero] at hx
    omega
  | succ k ih =>
    intro x hx0 hx
    have hin : inBounds W H x y := ⟨hx0, by push_cast at hx; omega, hy.1, hy.2⟩
    obtain ⟨v, hv⟩ := gridAt_ok_of_inBounds hb hin
    obtain ⟨r, hr, hiff⟩ := ih (x + 1) (by omega) (by push_cast at hx ⊢; omega)
    rw [VerifyVictory.row]
    simp only [GetMinefieldValue, hv, CheckMine_rect hm hH, bind, Except.bind, pure, Except.pure]
    by_cases hh : v = CELL_HIDDEN
    · cases hmn : mineAt m x y with
      | false =>
        refine ⟨false, by simp [hh], ?_⟩
        simp only [Bool.false_eq_true, false_iff, not_forall]
        refine ⟨x, le_refl _, hin.2.1, ?_⟩
        simp [hv, hh, hmn]
      | true =>
        refine ⟨r, by simp [hh, hr], ?_⟩
        rw [hiff]
        constructor
        · intro h u h1 h2
          by_cases e : u = x
          · subst e; simp [hmn]
          · exact h u (by omega) h2
        · intro h u h1 h2
          exact h u (by omega) h2
    · refine ⟨r, by simp [hh, hr], ?_⟩
      rw [hiff]
      constructor
      · intro h u h1 h2
        by_cases e : u = x
        · subst e
          rw [hv]
          intro hc
          exact hh (Except.ok.inj hc.1)
        · exact h u (by omega) h2
      · intro h u h1 h2
        exact h u (by omega) h2

theorem VerifyVictory_rows_spec {W H : Int} {b : Board} {m : Mines} (hb : Rect W H b)
    (hm : Rect W H m) (hH : 0 < H) :
    ∀ (n : Nat) (y : Int), 0 ≤ y → y + n = H →
      ∃ r, VerifyVictory.rows b m W n y = .ok r ∧
        (r = true ↔ ∀ u v : Int, 0 ≤ u → u < W → y ≤ v → v < H →
          ¬ (gridAt b u v = .ok CELL_HIDDEN ∧ mineAt m u v = false)) := by
  have hW := rect_width_nonneg hb hH
  intro n
  induction n with
  | zero =>
    intro y _ hy
    refine ⟨true, rfl, ?_⟩
    simp only [true_iff]
    intro u v _ _ h1 h2
    simp only [Nat.cast_zero, add_zero] at hy
    omega
  | succ k ih =>
    intro y hy0 hy
    obtain ⟨r0, hr0, hiff0⟩ := VerifyVictory_row_spec hb hm hH y
      ⟨hy0, by push_cast at hy; omega⟩ W.toNat 0 (le_refl _) (by omega)
    obtain ⟨r, hr, hiff⟩ := ih (y + 1) (by omega) (by push_cast at hy ⊢; omega)
    rw [VerifyVictory.rows]
    simp only [hr0, bind, Except.bind, pure, Except.pure]
    cases r0 with
    | false =>
      refine ⟨false, by simp, ?_⟩
      simp only [Bool.false_eq_true, false_iff]
      intro h
      have : (false = true) := hiff0.mpr (fun u h1 h2 => h u y h1 h2 (le_refl _)
        (by push_cast at hy; omega))
      cases this
    | true =>
      refine ⟨r, by simp [hr], ?_⟩
      rw [hiff]
      have h0 := hiff0.mp rfl
      constructor
      · intro h u v h1 h2 h3 h4
        by_cases e : v = y
        · subst e; exact h0 u h1 h2
        · exact h u v h1 h2 (by omega) h4
      · intro h u v h1 h2 h3 h4
        exact h u v h1 h2 (by omega) h4

/-- What `VerifyVictory` computes: it returns `true` exactly when no cell of the grid is
both `CELL_HIDDEN` and free of a mine. -/
theorem VerifyVictory_spec {W H : Int} {b : Board} {m : Mines} (hb : Rect W H b)
    (hm : Rect W H m) (hH : 0 < H) :
    ∃ r, VerifyVictory b m = .ok r ∧
      (r = true ↔ ∀ u v : Int, inBounds W H u v →
        ¬ (GetMinefieldValue u v b = .ok CELL_HIDDEN ∧ CheckMine u v m = .ok false)) := by
  obtain ⟨r, hr, hiff⟩ := VerifyVictory_rows_spec hb hm hH H.toNat 0 (le_refl _) (by omega)
  refine ⟨r, ?_, ?_⟩
  · unfold VerifyVictory
    rw [frontSize_rect hb hH, gridSize_rect hb]
    exact hr
  · rw [hiff]
    constructor
    · intro h u v hin
      rw [CheckMine_rect hm hH]
      intro hc
      exact h u v hin.1 hin.2.1 hin.2.2.1 hin.2.2.2 ⟨hc.1, Except.ok.inj hc.2⟩
    · intro h u v h1 h2 h3 h4 hc
      apply h u v ⟨h1, h2, h3, h4⟩
      rw [CheckMine_rect hm hH]
      exact ⟨hc.1, by rw [hc.2]⟩

/-! ## The game loop -/

theorem wrap_eq_emod (W z : Int) (hW : 0 < W) (h1 : -1 ≤ z) (h2 : z ≤ W) :
    (if z < 0 then W - 1 else if z ≥ W then 0 else z) = z % W := by
  by_cases hneg : z < 0
  · rw [if_pos hneg]
    have e : z = -1 := by omega
    subst e
    rw [← Int.add_emod_self, Int.emod_eq_of_lt (by omega) (by omega)]
    omega
  · rw [if_neg hneg]
    by_cases hge : z ≥ W
    · rw [if_pos hge]
      have e : z = W := by omega
      subst e
      exact (Int.emod_self).symm
    · rw [if_neg hge]
      exact (Int.emod_eq_of_lt (by omega) (by omega)).symm

theorem moveCursor_spec (k : Keys) (s : Session) (hW : 0 < s.WIDTH) (hH : 0 < s.HEIGHT)
    (hc : inBounds s.WIDTH s.HEIGHT s.cursorX s.cursorY) :
    (moveCursor k s).cursorX = (s.cursorX + k.stepX) % s.WIDTH ∧
    (moveCursor k s).cursorY = (s.cursorY + k.stepY) % s.HEIGHT ∧
    (moveCursor k s).minefield = s.minefield ∧ (moveCursor k s).mines = s.mines ∧
    (moveCursor k s).WIDTH = s.WIDTH ∧ (moveCursor k s).HEIGHT = s.HEIGHT ∧
    (moveCursor k s).BASE_MINE_COUNT = s.BASE_MINE_COUNT ∧
    (moveCursor k s).shouldPlaceMines = s.shouldPlaceMines ∧
    (moveCursor k s).run = s.run ∧ (moveCursor k s).victory = s.victory ∧
    (moveCursor k s).newGame = s.newGame := by
  obtain ⟨hx0, hx1, hy0, hy1⟩ := hc
  refine ⟨?_, ?_, rfl, rfl, rfl, rfl, rfl, rfl, rfl, rfl, rfl⟩
  · have e : (if k.right = true then (if k.left = true then s.cursorX - 1 else s.cursorX) + 1
        else (if k.left = true then s.cursorX - 1 else s.cursorX)) = s.cursorX + k.stepX := by
      unfold Keys.stepX
      cases k.right <;> cases k.left <;> simp
      omega
    show (if (if k.right = true then (if k.left = true then s.cursorX - 1 else s.cursorX) + 1
        else (if k.left = true then s.cursorX - 1 else s.cursorX)) < 0 then s.WIDTH - 1
      else if (if k.right = true then (if k.left = true then s.cursorX - 1 else s.cursorX) + 1
        else (if k.left = true then s.cursorX - 1 else s.cursorX)) ≥ s.WIDTH then 0
      else (if k.right = true then (if k.left = true then s.cursorX - 1 else s.cursorX) + 1
        else (if k.left = true then s.cursorX - 1 else s.cursorX))) = _
    rw [e]
    have hs : -1 ≤ k.stepX ∧ k.stepX ≤ 1 := by
      unfold Keys.stepX
      cases k.right <;> cases k.left <;> simp
    exact wrap_eq_emod _ _ hW (by omega) (by omega)
  · have e : (if k.down = true then (if k.up = true then s.cursorY - 1 else s.cursorY) + 1
        else (if k.up = true then s.cursorY - 1 else s.cursorY)) = s.cursorY + k.stepY := by
      unfold Keys.stepY
      cases k.down <;> cases k.up <;> simp
      omega
    show (if (if k.down = true then (if k.up = true then s.cursorY - 1 else s.cursorY) + 1
        else (if k.up = true then s.cursorY - 1 else s.cursorY)) < 0 then s.HEIGHT - 1
      else if (if k.down = true then (if k.up = true then s.cursorY - 1 else s.cursorY) + 1
        else (if k.up = true then s.cursorY - 1 else s.cursorY)) ≥ s.HEIGHT then 0
      else (if k.down = true then (if k.up = true then s.cursorY - 1 else s.cursorY) + 1
        else (if k.up = true then s.cursorY - 1 else s.cursorY))) = _
    rw [e]
    have hs : -1 ≤ k.stepY ∧ k.stepY ≤ 1 := by
      unfold Keys.stepY
      cases k.down <;> cases k.up <;> simp
    exact wrap_eq_emod _ _ hH (by omega) (by omega)

theorem moveCursor_wellFormed (k : Keys) (s : Session) (h : s.wellFormed) :
    (moveCursor k s).wellFormed := by
  obtain ⟨hW, hH, hb, hm, hc⟩ := h
  obtain ⟨e1, e2, e3, e4, e5, e6, _⟩ := moveCursor_spec k s hW hH hc
  unfold Session.wellFormed
  rw [e1, e2, e3, e4, e5, e6]
  exact ⟨hW, hH, hb, hm, Int.emod_nonneg _ (by omega), Int.emod_lt_of_pos _ hW,
    Int.emod_nonneg _ (by omega), Int.emod_lt_of_pos _ hH⟩

theorem moveCursor_noMove (k : Keys) (s : Session) (hk : k.noMove)
    (hc : inBounds s.WIDTH s.HEIGHT s.cursorX s.cursorY) : moveCursor k s = s := by
  obtain ⟨h1, h2, h3, h4⟩ := hk
  obtain ⟨hx0, hx1, hy0, hy1⟩ := hc
  unfold moveCursor
  simp only [h1, h2, h3, h4, Bool.false_eq_true, if_false, Bool.or_self]
  rw [if_neg (by omega), if_neg (by omega), if_neg (by omega), if_neg (by omega)]

theorem placeFlag_spec (s : Session) (v : Int) (hwf : s.wellFormed)
    (hv : GetMinefieldValue s.cursorX s.cursorY s.minefield = .ok v) :
    ∃ mf, placeFlag v s = .ok { s with shouldDrawMinefield := true, minefield := mf } ∧
      Rect s.WIDTH s.HEIGHT mf ∧
      GetMinefieldValue s.cursorX s.cursorY mf = .ok (toggleFlagValue v) ∧
      (∀ u w : Int, (u, w) ≠ (s.cursorX, s.cursorY) →
        GetMinefieldValue u w mf = GetMinefieldValue u w s.minefield) ∧
      (toggleFlagValue v = v → mf = s.minefield) := by
  obtain ⟨_, _, hb, _, _⟩ := hwf
  unfold GetMinefieldValue at hv ⊢
  have hset : ∀ a : Int, a ≠ v → ∃ mf, SetMinefieldValue s.cursorX s.cursorY a s.minefield = .ok mf ∧
      Rect s.WIDTH s.HEIGHT mf ∧ gridAt mf s.cursorX s.cursorY = .ok a ∧
      (∀ u w : Int, (u, w) ≠ (s.cursorX, s.cursorY) →
        GetMinefieldValue u w mf = GetMinefieldValue u w s.minefield) ∧
      (a = v → mf = s.minefield) := by
    intro a hne
    obtain ⟨mf, hs⟩ := gridSet_ok_of_at a hv
    exact ⟨mf, hs, gridSet_rect hb hs, gridAt_set_self hs,
      fun u w h => gridAt_set_ne hs h, fun e => absurd e hne⟩
  unfold placeFlag toggleFlagValue
  by_cases h1 : v = CELL_HIDDEN
  · obtain ⟨mf, hs, r⟩ := hset CELL_FLAG (by rw [h1]; decide)
    refine ⟨mf, ?_, ?_⟩
    · rw [if_pos h1]
      simp only [hs, bind, Except.bind, pure, Except.pure]
    · rw [if_pos h1]
      exact r
  by_cases h2 : v = CELL_QMK
  · obtain ⟨mf, hs, r⟩ := hset CELL_FLAG (by rw [h2]; decide)
    refine ⟨mf, ?_, ?_⟩
    · rw [if_neg h1, if_pos h2]
      simp only [hs, bind, Except.bind, pure, Except.pure]
    · rw [if_neg h1, if_pos h2]
      exact r
  by_cases h3 : v = CELL_FLAG
  · obtain ⟨mf, hs, r⟩ := hset CELL_HIDDEN (by rw [h3]; decide)
    refine ⟨mf, ?_, ?_⟩
    · rw [if_neg h1, if_neg h2, if_pos h3]
      simp only [hs, bind, Except.bind, pure, Except.pure]
    · rw [if_neg h1, if_neg h2, if_pos h3]
      exact r
  refine ⟨s.minefield, ?_, hb, ?_, fun _ _ _ => rfl, fun _ => rfl⟩
  · rw [if_neg h1, if_neg h2, if_neg h3]
    rfl
  · rw [if_neg h1, if_neg h2, if_neg h3]
    exact hv

theorem placeQmk_spec (s : Session) (v : Int) (hwf : s.wellFormed)
    (hv : GetMinefieldValue s.cursorX s.cursorY s.minefield = .ok v) :
    ∃ mf, placeQmk v s = .ok { s with shouldDrawMinefield := true, minefield := mf } ∧
      Rect s.WIDTH s.HEIGHT mf ∧
      GetMinefieldValue s.cursorX s.cursorY mf = .ok (toggleQmkValue v) ∧
      (∀ u w : Int, (u, w) ≠ (s.cursorX, s.cursorY) →
        GetMinefieldValue u w mf = GetMinefieldValue u w s.minefield) ∧
      (toggleQmkValue v = v → mf = s.minefield) := by
  obtain ⟨_, _, hb, _, _⟩ := hwf
  unfold GetMinefieldValue at hv ⊢
  have hset : ∀ a : Int, a ≠ v → ∃ mf, SetMinefieldValue s.cursorX s.cursorY a s.minefield = .ok mf ∧
      Rect s.WIDTH s.HEIGHT mf ∧ gridAt mf s.cursorX s.cursorY = .ok a ∧
      (∀ u w : Int, (u, w) ≠ (s.cursorX, s.cursorY) →
        GetMinefieldValue u w mf = GetMinefieldValue u w s.minefield) ∧
      (a = v → mf = s.minefield) := by
    intro a hne
    obtain ⟨mf, hs⟩ := gridSet_ok_of_at a hv
    exact ⟨mf, hs, gridSet_rect hb hs, gridAt_set_self hs,
      fun u w h => gridAt_set_ne hs h, fun e => absurd e hne⟩
  unfold placeQmk toggleQmkValue
  by_cases h1 : v = CELL_HIDDEN
  · obtain ⟨mf, hs, r⟩ := hset CELL_QMK (by rw [h1]; decide)
    refine ⟨mf, ?_, ?_⟩
    · rw [if_pos h1]
      simp only [hs, bind, Except.bind, pure, Except.pure]
    · rw [if_pos h1]
      exact r
  by_cases h2 : v = CELL_FLAG
  · obtain ⟨mf, hs, r⟩ := hset CELL_QMK (by rw [h2]; decide)
    refine ⟨mf, ?_, ?_⟩
    · rw [if_neg h1, if_pos h2]
      simp only [hs, bind, Except.bind, pure, Except.pure]
    · rw [if_neg h1, if_pos h2]
      exact r
  by_cases h3 : v = CELL_QMK
  · obtain ⟨mf, hs, r⟩ := hset CELL_HIDDEN (by rw [h3]; decide)
    refine ⟨mf, ?_, ?_⟩
    · rw [if_neg h1, if_neg h2, if_pos h3]
      simp only [hs, bind, Except.bind, pure, Except.pure]
    · rw [if_neg h1, if_neg h2, if_pos h3]
      exact r
  refine ⟨s.minefield, ?_, hb, ?_, fun _ _ _ => rfl, fun _ => rfl⟩
  · rw [if_neg h1, if_neg h2, if_neg h3]
    rfl
  · rw [if_neg h1, if_neg h2, if_neg h3]
    exact hv

theorem checkCell_placed (s : Session) (draws rest : List Nat) (m1 : Mines)
    (hs : s.shouldPlaceMines = true)
    (hp : PlaceMines s.BASE_MINE_COUNT s.mines s.cursorX s.cursorY draws = .ok (m1, rest)) :
    checkCell draws s = checkCell rest { s with mines := m1, shouldPlaceMines := false } := by
  unfold checkCell
  simp only [hs, hp, if_true, bind, Except.bind, pure, Except.pure, Bool.false_eq_true, if_false]

theorem checkCell_failed (s : Session) (draws : List Nat) (e : Fault)
    (hs : s.shouldPlaceMines = true)
    (hp : PlaceMines s.BASE_MINE_COUNT s.mines s.cursorX s.cursorY draws = .error e) :
    checkCell draws s = .error e := by
  unfold checkCell
  simp only [hs, hp, if_true, bind, Except.bind]

theorem checkCell_mine (s : Session) (draws : List Nat) (hwf : s.wellFormed)
    (hs : s.shouldPlaceMines = false) (hmn : mineAt s.mines s.cursorX s.cursorY = true) :
    checkCell draws s = .ok ({ s with shouldDrawMinefield := true, run := false }, draws) := by
  obtain ⟨_, hH, _, hm, _⟩ := hwf
  unfold checkCell
  simp only [hs, Bool.false_eq_true, if_false, bind, Except.bind, pure, Except.pure,
    CheckMine_rect hm hH, hmn, Bool.not_true]

theorem checkCell_safe (s : Session) (draws : List Nat) (hwf : s.wellFormed)
    (hs : s.shouldPlaceMines = false) (hmn : mineAt s.mines s.cursorX s.cursorY = false) :
    ∃ b1 r, FloodMinefield s.cursorX s.cursorY s.minefield s.mines = .ok b1 ∧
      VerifyVictory b1 s.mines = .ok r ∧
      FloodPost s.WIDTH s.HEIGHT s.mines
        (FloodReach s.WIDTH s.HEIGHT s.mines s.minefield s.cursorX s.cursorY) s.minefield b1 ∧
      Settled s.WIDTH s.HEIGHT s.mines b1 s.cursorX s.cursorY ∧
      checkCell draws s =
        .ok ({ s with shouldDrawMinefield := true, minefield := b1, victory := r }, draws) := by
  obtain ⟨_, hH, hb, hm, hc⟩ := hwf
  obtain ⟨b1, e1, p1, s1⟩ := FloodMinefield_post hm hb hH s.cursorX s.cursorY
  obtain ⟨r, er, _⟩ := VerifyVictory_spec p1.1 hm hH
  refine ⟨b1, r, e1, er, p1, s1 hc hmn, ?_⟩
  unfold checkCell
  simp only [hs, Bool.false_eq_true, if_false, bind, Except.bind, pure, Except.pure,
    CheckMine_rect hm hH, hmn, Bool.not_false, if_true, e1, er]

theorem PlaceMines_rect {W H : Int} {m m1 : Mines} {count ax ay : Int} {draws rest : List Nat}
    (hW : 0 < W) (hH : 0 < H) (hm : Rect W H m)
    (h : PlaceMines count m ax ay draws = .ok (m1, rest)) : Rect W H m1 := by
  unfold PlaceMines at h
  rw [frontSize_rect hm hH, gridSize_rect hm] at h
  exact (loop_spec hW hH ax ay count.toNat m draws m1 rest hm h).1

/-- What stays fixed in one pass of the input handling. -/
theorem checkCell_wellFormed (s t : Session) (draws rest : List Nat) (hwf : s.wellFormed)
    (h : checkCell draws s = .ok (t, rest)) :
    t.wellFormed ∧ t.WIDTH = s.WIDTH ∧ t.HEIGHT = s.HEIGHT := by
  have key : ∀ (s : Session) (draws : List Nat), s.wellFormed → s.shouldPlaceMines = false →
      checkCell draws s = .ok (t, rest) →
      t.wellFormed ∧ t.WIDTH = s.WIDTH ∧ t.HEIGHT = s.HEIGHT := by
    intro s draws hwf hs h
    cases hmn : mineAt s.mines s.cursorX s.cursorY with
    | true =>
      rw [checkCell_mine s draws hwf hs hmn] at h
      have e := Except.ok.inj h
      simp only [Prod.mk.injEq] at e
      obtain ⟨rfl, _⟩ := e
      exact ⟨hwf, rfl, rfl⟩
    | false =>
      obtain ⟨b1, r, _, _, hb1, _, e⟩ := checkCell_safe s draws hwf hs hmn
      rw [e] at h
      have e2 := Except.ok.inj h
      simp only [Prod.mk.injEq] at e2
      obtain ⟨rfl, _⟩ := e2
      obtain ⟨h1, h2, _, h4, h5⟩ := hwf
      exact ⟨⟨h1, h2, hb1.1, h4, h5⟩, rfl, rfl⟩
  cases hs : s.shouldPlaceMines with
  | false => exact key s draws hwf hs h
  | true =>
    cases hp : PlaceMines s.BASE_MINE_COUNT s.mines s.cursorX s.cursorY draws with
    | error e => rw [checkCell_failed s draws e hs hp] at h; cases h
    | ok r =>
      obtain ⟨m1, d1⟩ := r
      rw [checkCell_placed s draws d1 m1 hs hp] at h
      obtain ⟨h1, h2, h3, h4, h5⟩ := hwf
      have hm1 : Rect s.WIDTH s.HEIGHT m1 := PlaceMines_rect h1 h2 h4 hp
      exact key { s with mines := m1, shouldPlaceMines := false } d1 ⟨h1, h2, h3, hm1, h5⟩ rfl h

theorem handleInput_wellFormed (k : Keys) (s t : Session) (draws rest : List Nat)
    (hwf : s.wellFormed) (h : handleInput k draws s = .ok (t, rest)) :
    t.wellFormed ∧ t.WIDTH = s.WIDTH ∧ t.HEIGHT = s.HEIGHT := by
  have hwf1 := moveCursor_wellFormed k s hwf
  have hW1 : (moveCursor k s).WIDTH = s.WIDTH := rfl
  have hH1 : (moveCursor k s).HEIGHT = s.HEIGHT := rfl
  rw [← hW1, ← hH1]
  unfold handleInput at h
  generalize moveCursor k s = s1 at h hwf1 ⊢
  obtain ⟨v, hv⟩ := gridAt_ok_of_inBounds hwf1.2.2.1 hwf1.2.2.2.2
  have hv2 : GetMinefieldValue s1.cursorX s1.cursorY s1.minefield = .ok v := hv
  simp only [hv2, bind, Except.bind, pure, Except.pure] at h
  obtain ⟨h1, h2, h3, h4, h5⟩ := hwf1
  by_cases hf : k.flag = true
  · rw [if_pos hf] at h
    obtain ⟨mf, e, hr, _⟩ := placeFlag_spec s1 v ⟨h1, h2, h3, h4, h5⟩ hv2
    rw [e] at h
    have e2 := Except.ok.inj h
    simp only [Prod.mk.injEq] at e2
    obtain ⟨rfl, _⟩ := e2
    exact ⟨⟨h1, h2, hr, h4, h5⟩, rfl, rfl⟩
  rw [if_neg hf] at h
  by_cases hq : k.qmk = true
  · rw [if_pos hq] at h
    obtain ⟨mf, e, hr, _⟩ := placeQmk_spec s1 v ⟨h1, h2, h3, h4, h5⟩ hv2
    rw [e] at h
    have e2 := Except.ok.inj h
    simp only [Prod.mk.injEq] at e2
    obtain ⟨rfl, _⟩ := e2
    exact ⟨⟨h1, h2, hr, h4, h5⟩, rfl, rfl⟩
  rw [if_neg hq] at h
  by_cases hc : k.check = true ∧ v = CELL_HIDDEN
  · rw [if_pos hc] at h
    exact checkCell_wellFormed s1 t draws rest ⟨h1, h2, h3, h4, h5⟩ h
  rw [if_neg hc] at h
  by_cases hn : k.restart = true
  · rw [if_pos hn] at h
    have e2 := Except.ok.inj h
    simp only [Prod.mk.injEq] at e2
    obtain ⟨rfl, _⟩ := e2
    exact ⟨⟨h1, h2, h3, h4, h5⟩, rfl, rfl⟩
  · rw [if_neg hn] at h
    have e2 := Except.ok.inj h
    simp only [Prod.mk.injEq] at e2
    obtain ⟨rfl, _⟩ := e2
    exact ⟨⟨h1, h2, h3, h4, h5⟩, rfl, rfl⟩

theorem drawStep_fields (s t : Session) (out : Option (List Char))
    (h : drawStep s = .ok (t, out)) : t = { s with shouldDrawMinefield := false } := by
  unfold drawStep at h
  cases hd : s.shouldDrawMinefield with
  | false =>
    simp only [hd, Bool.false_eq_true, if_false, pure, Except.pure] at h
    have e2 := Except.ok.inj h
    simp only [Prod.mk.injEq] at e2
    obtain ⟨rfl, _⟩ := e2
    cases s
    simp only at hd
    rw [hd]
  | true =>
    simp only [hd, if_true, bind, Except.bind, pure, Except.pure] at h
    cases hf : frameText (!s.run) s with
    | error e => rw [hf] at h; cases h
    | ok o =>
      rw [hf] at h
      have e2 := Except.ok.inj h
      simp only [Prod.mk.injEq] at e2
      exact e2.1.symm

theorem loopBody_wellFormed (k : Keys) (s t : Session) (draws rest : List Nat)
    (out : Option (List Char)) (hwf : s.wellFormed)
    (h : loopBody k draws s = .ok (t, rest, out)) :
    t.wellFormed ∧ t.WIDTH = s.WIDTH ∧ t.HEIGHT = s.HEIGHT := by
  unfold loopBody at h
  cases hi : handleInput k draws s with
  | error e => rw [hi] at h; cases h
  | ok r =>
    obtain ⟨s1, d1⟩ := r
    rw [hi] at h
    simp only [bind, Except.bind, pure, Except.pure] at h
    cases hd : drawStep s1 with
    | error e => rw [hd] at h; cases h
    | ok r2 =>
      obtain ⟨s2, o2⟩ := r2
      rw [hd] at h
      have e2 := Except.ok.inj h
      simp only [Prod.mk.injEq] at e2
      obtain ⟨rfl, _, _⟩ := e2
      obtain ⟨w1, w2, w3⟩ := handleInput_wellFormed k s s1 draws d1 hwf hi
      rw [drawStep_fields s1 s2 o2 hd]
      exact ⟨w1, w2, w3⟩

theorem rect_replicate {α : Type} (W H : Int) (a : α) (hW : 0 ≤ W) (hH : 0 ≤ H) :
    Rect W H (List.replicate H.toNat (List.replicate W.toNat a)) := by
  constructor
  · rw [List.length_replicate]; omega
  · intro row hrow
    rw [(List.mem_replicate.mp hrow).2, List.length_replicate]; omega

theorem fresh_wellFormed (d : Difficulty) (hW : 0 < d.Width) (hH : 0 < d.Height) :
    (Session.fresh d).wellFormed :=
  ⟨hW, hH, rect_replicate _ _ _ (le_of_lt hW) (le_of_lt hH),
    rect_replicate _ _ _ (le_of_lt hW) (le_of_lt hH), le_refl _, hW, le_refl _, hH⟩

theorem Reachable_wellFormed {d : Difficulty} {s : Session} (hW : 0 < d.Width)
    (hH : 0 < d.Height) (h : Reachable d s) :
    s.wellFormed ∧ s.WIDTH = d.Width ∧ s.HEIGHT = d.Height := by
  induction h with
  | start => exact ⟨fresh_wellFormed d hW hH, rfl, rfl⟩
  | pass k draws rest out s t _ _ _ _ hb ih =>
    obtain ⟨w1, w2, w3⟩ := loopBody_wellFormed k s t draws rest out ih.1 hb
    exact ⟨w1, w2.trans ih.2.1, w3.trans ih.2.2⟩

theorem handleInput_toggleFlag (s : Session) (k : Keys) (draws : List Nat) (v : Int)
    (hwf : s.wellFormed) (hk : k.isToggleFlag)
    (hv : GetMinefieldValue s.cursorX s.cursorY s.minefield = .ok v) :
    ∃ mf, handleInput k draws s =
        .ok ({ s with shouldDrawMinefield := true, minefield := mf }, draws) ∧
      Rect s.WIDTH s.HEIGHT mf ∧
      GetMinefieldValue s.cursorX s.cursorY mf = .ok (toggleFlagValue v) ∧
      (∀ u w : Int, (u, w) ≠ (s.cursorX, s.cursorY) →
        GetMinefieldValue u w mf = GetMinefieldValue u w s.minefield) ∧
      (toggleFlagValue v = v → mf = s.minefield) := by
  obtain ⟨mf, e, r⟩ := placeFlag_spec s v hwf hv
  refine ⟨mf, ?_, r⟩
  unfold handleInput
  rw [moveCursor_noMove k s hk.1 hwf.2.2.2.2]
  simp only [hv, hk.2, if_true, e, bind, Except.bind, pure, Except.pure]

theorem handleInput_toggleQmk (s : Session) (k : Keys) (draws : List Nat) (v : Int)
    (hwf : s.wellFormed) (hk : k.isToggleQmk)
    (hv : GetMinefieldValue s.cursorX s.cursorY s.minefield = .ok v) :
    ∃ mf, handleInput k draws s =
        .ok ({ s with shouldDrawMinefield := true, minefield := mf }, draws) ∧
      Rect s.WIDTH s.HEIGHT mf ∧
      GetMinefieldValue s.cursorX s.cursorY mf = .ok (toggleQmkValue v) ∧
      (∀ u w : Int, (u, w) ≠ (s.cursorX, s.cursorY) →
        GetMinefieldValue u w mf = GetMinefieldValue u w s.minefield) ∧
      (toggleQmkValue v = v → mf = s.minefield) := by
  obtain ⟨mf, e, r⟩ := placeQmk_spec s v hwf hv
  refine ⟨mf, ?_, r⟩
  unfold handleInput
  rw [moveCursor_noMove k s hk.1 hwf.2.2.2.2]
  simp only [hv, hk.2.1, hk.2.2, Bool.false_eq_true, if_false, if_true, e, bind, Except.bind,
    pure, Except.pure]

theorem toggleFlagValue_revealed {v : Int} (h : isRevealed v) : toggleFlagValue v = v := by
  unfold isRevealed at h
  unfold toggleFlagValue CELL_HIDDEN CELL_QMK CELL_FLAG
  rw [if_neg (by omega), if_neg (by omega), if_neg (by omega)]

theorem toggleQmkValue_revealed {v : Int} (h : isRevealed v) : toggleQmkValue v = v := by
  unfold isRevealed at h
  unfold toggleQmkValue CELL_HIDDEN CELL_QMK CELL_FLAG
  rw [if_neg (by omega), if_neg (by omega), if_neg (by omega)]

/-- Claim C8. The toggle-flag action on a well-formed session maps the cursor cell from
Hidden to Flagged, from Questioned to Flagged and from Flagged to Hidden, leaves the board
as it is when the cell is revealed (value `0..8`), and changes no other cell, no entry of
the mine grid and not the cursor; a second toggle-flag action on a cell that was Hidden
returns it to Hidden. -/
theorem C8_toggle_flag (s : Session) (k : Keys) (draws : List Nat) (v : Int)
    (hwf : s.wellFormed) (hk : k.isToggleFlag)
    (hv : GetMinefieldValue s.cursorX s.cursorY s.minefield = .ok v) :
    ∃ t, handleInput k draws s = .ok (t, draws) ∧
      (v = CELL_HIDDEN → GetMinefieldValue s.cursorX s.cursorY t.minefield = .ok CELL_FLAG) ∧
      (v = CELL_QMK → GetMinefieldValue s.cursorX s.cursorY t.minefield = .ok CELL_FLAG) ∧
      (v = CELL_FLAG → GetMinefieldValue s.cursorX s.cursorY t.minefield = .ok CELL_HIDDEN) ∧
      (isRevealed v → t.minefield = s.minefield) ∧
      (∀ u w : Int, (u, w) ≠ (s.cursorX, s.cursorY) →
        GetMinefieldValue u w t.minefield = GetMinefieldValue u w s.minefield) ∧
      t.mines = s.mines ∧ t.cursorX = s.cursorX ∧ t.cursorY = s.cursorY ∧
      ∃ t2, handleInput k draws t = .ok (t2, draws) ∧
        (v = CELL_HIDDEN →
          GetMinefieldValue s.cursorX s.cursorY t2.minefield = .ok CELL_HIDDEN) := by
  obtain ⟨mf, e, hr, hval, hframe, hsame⟩ := handleInput_toggleFlag s k draws v hwf hk hv
  refine ⟨_, e, ?_, ?_, ?_, ?_, hframe, rfl, rfl, rfl, ?_⟩
  · intro h; rw [h] at hval; exact hval
  · intro h; rw [h] at hval; exact hval
  · intro h; rw [h] at hval; exact hval
  · intro h; exact hsame (toggleFlagValue_revealed h)
  · obtain ⟨h1, h2, _, h4, h5⟩ := hwf
    obtain ⟨mf2, e2, _, hval2, _⟩ := handleInput_toggleFlag
      { s with shouldDrawMinefield := true, minefield := mf } k draws (toggleFlagValue v)
      ⟨h1, h2, hr, h4, h5⟩ hk hval
    refine ⟨_, e2, ?_⟩
    intro h
    rw [h] at hval2
    exact hval2

/-- Claim C9. The toggle-question action on a well-formed session maps the cursor cell
from Hidden to Questioned, from Flagged to Questioned and from Questioned to Hidden, leaves
the board as it is when the cell is revealed (value `0..8`), and changes no other cell, no
entry of the mine grid and not the cursor. -/
theorem C9_toggle_question (s : Session) (k : Keys) (draws : List Nat) (v : Int)
    (hwf : s.wellFormed) (hk : k.isToggleQmk)
    (hv : GetMinefieldValue s.cursorX s.cursorY s.minefield = .ok v) :
    ∃ t, handleInput k draws s = .ok (t, draws) ∧
      (v = CELL_HIDDEN → GetMinefieldValue s.cursorX s.cursorY t.minefield = .ok CELL_QMK) ∧
      (v = CELL_FLAG → GetMinefieldValue s.cursorX s.cursorY t.minefield = .ok CELL_QMK) ∧
      (v = CELL_QMK → GetMinefieldValue s.cursorX s.cursorY t.minefield = .ok CELL_HIDDEN) ∧
      (isRevealed v → t.minefield = s.minefield) ∧
      (∀ u w : Int, (u, w) ≠ (s.cursorX, s.cursorY) →
        GetMinefieldValue u w t.minefield = GetMinefieldValue u w s.minefield) ∧
      t.mines = s.mines ∧ t.cursorX = s.cursorX ∧ t.cursorY = s.cursorY := by
  obtain ⟨mf, e, _, hval, hframe, hsame⟩ := handleInput_toggleQmk s k draws v hwf hk hv
  refine ⟨_, e, ?_, ?_, ?_, ?_, hframe, rfl, rfl, rfl⟩
  · intro h; rw [h] at hval; exact hval
  · intro h; rw [h] at hval; exact hval
  · intro h; rw [h] at hval; exact hval
  · intro h; exact hsame (toggleQmkValue_revealed h)

/-! ## Drawing -/

theorem toDigitsCore_length_ge (b : Nat) :
    ∀ (f n : Nat) (ds : List Char), ds.length ≤ (Nat.toDigitsCore b f n ds).length ∧
      (0 < f → ds.length < (Nat.toDigitsCore b f n ds).length) := by
  intro f
  induction f with
  | zero =>
    intro n ds
    simp [Nat.toDigitsCore]
  | succ g ih =>
    intro n ds
    simp only [Nat.toDigitsCore]
    split
    · simp
    · have := (ih (n / b) (Nat.digitChar (n % b) :: ds)).1
      simp only [List.length_cons] at this
      constructor
      · omega
      · intro _; omega

theorem nat_toString_length (n : Nat) : 1 ≤ (toString n).toList.length := by
  have := (toDigitsCore_length_ge 10 (n + 1) n []).2 (Nat.succ_pos n)
  simpa [toString, Nat.repr, Nat.toDigits, List.asString] using this

theorem int_toString_length (v : Int) : 1 ≤ (toString v).toList.length := by
  cases v with
  | ofNat n => exact nat_toString_length n
  | negSucc n =>
    show 1 ≤ ("-" ++ toString (n + 1)).toList.length
    simp


theorem SPACING_eq : SPACING = [' '] := rfl

theorem DrawMinefield_cell_ok {W H : Int} {b : Board} {m : Mines} (hb : Rect W H b)
    (hm : Rect W H m) (hH : 0 < H) (show_mines : Bool) {x y : Int}
    (hin : inBounds W H x y) :
    ∃ text, DrawMinefield.cell b m show_mines x y = .ok text ∧ 2 ≤ text.length := by
  obtain ⟨v, hv⟩ := gridAt_ok_of_inBounds hb hin
  have hshown : 2 ≤ ((if v = CELL_CLEAR then [CHAR_CLEAR]
      else if v = CELL_FLAG then [CHAR_FLAG]
      else if v = CELL_HIDDEN then [CHAR_HIDDEN]
      else if v = CELL_QMK then [CHAR_QMK]
      else (toString v).toList) ++ SPACING).length := by
    rw [List.length_append, SPACING_eq]
    have := int_toString_length v
    split_ifs
    · simp
    · simp
    · simp
    · simp
    · simp only [List.length_singleton]
      omega
  unfold DrawMinefield.cell
  simp only [GetMinefieldValue, hv, CheckMine_rect hm hH, bind, Except.bind, pure, Except.pure]
  cases show_mines with
  | false => exact ⟨_, rfl, hshown⟩
  | true =>
    cases hmn : mineAt m x y with
    | false => exact ⟨_, rfl, hshown⟩
    | true => exact ⟨_, rfl, by rw [SPACING_eq]; simp⟩

theorem DrawMinefield_row_ok {W H : Int} {b : Board} {m : Mines} (hb : Rect W H b)
    (hm : Rect W H m) (hH : 0 < H) (show_mines : Bool) (y : Int) (hy : 0 ≤ y ∧ y < H) :
    ∀ (n : Nat) (x : Int) (output : List Char), 0 ≤ x → x + n = W →
      ∃ out, DrawMinefield.row b m show_mines y n x output = .ok out ∧
        output.length + 2 * n ≤ out.length := by
  intro n
  induction n with
  | zero => intro x output _ _; exact ⟨output, rfl, by omega⟩
  | succ j ih =>
    intro x output hx0 hx
    have hin : inBounds W H x y := ⟨hx0, by push_cast at hx; omega, hy.1, hy.2⟩
    obtain ⟨text, et, ht⟩ := DrawMinefield_cell_ok hb hm hH show_mines hin
    obtain ⟨out, eo, ho⟩ := ih (x + 1) (output ++ text) (by omega) (by push_cast at hx ⊢; omega)
    refine ⟨out, ?_, ?_⟩
    · rw [DrawMinefield.row]
      simp only [et, bind, Except.bind]
      exact eo
    · rw [List.length_append] at ho
      omega

theorem DrawMinefield_rows_ok {W H : Int} {b : Board} {m : Mines} (hb : Rect W H b)
    (hm : Rect W H m) (hH : 0 < H) (show_mines : Bool) :
    ∀ (n : Nat) (y : Int) (output : List Char), 0 ≤ y → y + n = H →
      ∃ out, DrawMinefield.rows b m show_mines W H n y output = .ok out ∧
        output.length + n * (2 * W.toNat) + (n - 1) ≤ out.length := by
  have hW := rect_width_nonneg hb hH
  intro n
  induction n with
  | zero => intro y output _ _; exact ⟨output, rfl, by simp⟩
  | succ j ih =>
    intro y output hy0 hy
    obtain ⟨o1, e1, h1⟩ := DrawMinefield_row_ok hb hm hH show_mines y
      ⟨hy0, by push_cast at hy; omega⟩ W.toNat 0 output (le_refl _) (by omega)
    obtain ⟨o2, e2, h2⟩ := ih (y + 1)
      (if y < H - 1 then o1 ++ [Char.ofNat 10] else o1) (by omega) (by push_cast at hy ⊢; omega)
    refine ⟨o2, ?_, ?_⟩
    · rw [DrawMinefield.rows]
      simp only [e1, bind, Except.bind]
      exact e2
    · have hlen : o1.length + (if j = 0 then 0 else 1) ≤
          (if y < H - 1 then o1 ++ [Char.ofNat 10] else o1).length := by
        by_cases hj : j = 0
        · rw [if_pos hj]
          split <;> simp
        · rw [if_neg hj]
          have : y < H - 1 := by push_cast at hy; omega
          rw [if_pos this]
          simp
      have hmul : (j + 1) * (2 * W.toNat) = j * (2 * W.toNat) + 2 * W.toNat := by ring
      rw [hmul]
      by_cases hj : j = 0
      · rw [if_pos hj] at hlen
        subst hj
        simp only [zero_mul, Nat.zero_sub, add_zero, zero_add] at h2 ⊢
        omega
      · rw [if_neg hj] at hlen
        omega

theorem DrawMinefield_ok {W H : Int} {b : Board} {m : Mines} (hb : Rect W H b)
    (hm : Rect W H m) (hH : 0 < H) (show_mines : Bool) (output : List Char) :
    ∃ out, DrawMinefield output b m show_mines = .ok out ∧
      output.length + H.toNat * (2 * W.toNat) + (H.toNat - 1) ≤ out.length := by
  obtain ⟨out, e, h⟩ := DrawMinefield_rows_ok hb hm hH show_mines H.toNat 0 output (le_refl _)
    (by omega)
  refine ⟨out, ?_, h⟩
  unfold DrawMinefield
  rw [frontSize_rect hb hH, gridSize_rect hb]
  exact e

theorem frameText_ok (show_mines : Bool) (s : Session) (hwf : s.wellFormed) :
    ∃ out, frameText show_mines s = .ok out := by
  obtain ⟨hW, hH, hb, hm, hx0, hx1, hy0, hy1⟩ := hwf
  obtain ⟨o, e, h⟩ := DrawMinefield_ok hb hm hH show_mines (frameHeader s)
  unfold frameText
  simp only [e, bind, Except.bind]
  unfold stringSet
  have hidx0 : 0 ≤ s.cursorY * (s.WIDTH * CELL_SIZE + 1) + s.cursorX * CELL_SIZE +
      ((frameHeader s).length : Int) := by
    unfold CELL_SIZE
    positivity
  have hidx1 : s.cursorY * (s.WIDTH * CELL_SIZE + 1) + s.cursorX * CELL_SIZE +
      ((frameHeader s).length : Int) < (o.length : Int) := by
    unfold CELL_SIZE
    have hm1 : s.cursorY * (s.WIDTH * 2 + 1) ≤ (s.HEIGHT - 1) * (s.WIDTH * 2 + 1) :=
      mul_le_mul_of_nonneg_right (by omega) (by omega)
    have hcast : ((o.length : Nat) : Int) ≥ ((frameHeader s).length : Int) +
        s.HEIGHT * (2 * s.WIDTH) + (s.HEIGHT - 1) := by
      have h2 : (((frameHeader s).length + s.HEIGHT.toNat * (2 * s.WIDTH.toNat) +
          (s.HEIGHT.toNat - 1) : Nat) : Int) ≤ ((o.length : Nat) : Int) := by exact_mod_cast h
      have h3 : ((s.HEIGHT.toNat - 1 : Nat) : Int) = s.HEIGHT - 1 := by omega
      push_cast at h2
      rw [h3, Int.toNat_of_nonneg (le_of_lt hH), Int.toNat_of_nonneg (le_of_lt hW)] at h2
      linarith
    nlinarith
  rw [if_pos ⟨hidx0, by omega⟩]
  exact ⟨_, rfl⟩

/-! ## The actions of a session -/

theorem gridAt_replicate {α : Type} (W H : Int) (a : α) {x y : Int}
    (hin : inBounds W H x y) :
    gridAt (List.replicate H.toNat (List.replicate W.toNat a)) x y = .ok a := by
  have hr := rect_replicate W H a (by unfold inBounds at hin; omega)
    (by unfold inBounds at hin; omega)
  obtain ⟨v, hv⟩ := gridAt_ok_of_inBounds hr hin
  obtain ⟨row, hrow, hmem⟩ := gridAt_mem hv
  rw [(List.mem_replicate.mp hrow).2] at hmem
  rw [hv, (List.mem_replicate.mp hmem).2]

theorem mineCount_replicate (n w : Nat) :
    mineCount (List.replicate n (List.replicate w false)) = 0 := by
  unfold mineCount gridCount
  simp [List.map_replicate, List.countP_replicate, List.sum_replicate]

theorem handleInput_reveal (s : Session) (k : Keys) (draws : List Nat) (hwf : s.wellFormed)
    (hk : k.isReveal)
    (hv : GetMinefieldValue s.cursorX s.cursorY s.minefield = .ok CELL_HIDDEN) :
    handleInput k draws s = checkCell draws s := by
  unfold handleInput
  rw [moveCursor_noMove k s hk.1 hwf.2.2.2.2]
  simp only [hv, hk.2.1, hk.2.2.1, hk.2.2.2, Bool.false_eq_true, if_false, true_and, if_true,
    bind, Except.bind]

theorem loopBody_of_handleInput (k : Keys) (s t : Session) (draws rest : List Nat)
    (out : List Char) (hi : handleInput k draws s = .ok (t, rest))
    (hd : t.shouldDrawMinefield = true) (hf : frameText (!t.run) t = .ok out) :
    loopBody k draws s = .ok ({ t with shouldDrawMinefield := false }, rest, some out) := by
  unfold loopBody drawStep
  simp only [hi, hd, hf, if_true, bind, Except.bind, pure, Except.pure]

/-- Claim C6. Safe first click: in a fresh session of positive dimensions with the cursor
on any cell of the grid, whenever mine placement completes on the given random draws, the
reveal action completes, the mines are the ones `PlaceMines` placed with the cursor cell as
the avoided cell (`max (MineCount, 0)` of them), the cursor cell holds no mine, the session
is still running, and the cursor cell shows its adjacent-mine count. -/
theorem C6_safe_first_click (d : Difficulty) (cx cy : Int) (k : Keys)
    (draws rest : List Nat) (m1 : Mines)
    (hW : 0 < d.Width) (hH : 0 < d.Height) (hc : inBounds d.Width d.Height cx cy)
    (hk : k.isReveal)
    (hplace : PlaceMines d.MineCount (Session.fresh d).mines cx cy draws = .ok (m1, rest)) :
    ∃ t, handleInput k draws (Session.freshAt d cx cy) = .ok (t, rest) ∧
      t.mines = m1 ∧ t.shouldPlaceMines = false ∧ (mineCount t.mines : Int) = max d.MineCount 0 ∧
      CheckMine cx cy t.mines = .ok false ∧ t.run = true ∧
      t.cursorX = cx ∧ t.cursorY = cy ∧
      GetMinefieldValue cx cy t.minefield = GetAdjacentMineCount cx cy t.mines := by
  have hwf := fresh_wellFormed d hW hH
  obtain ⟨h1, h2, h3, h4, _⟩ := hwf
  have hwf0 : (Session.freshAt d cx cy).wellFormed := ⟨h1, h2, h3, h4, hc⟩
  have hv : GetMinefieldValue cx cy (Session.fresh d).minefield = .ok CELL_HIDDEN :=
    gridAt_replicate d.Width d.Height CELL_HIDDEN hc
  obtain ⟨r1, r2, r3⟩ := PlaceMines_spec hW hH h4 hplace
  have hzero : mineCount (Session.fresh d).mines = 0 := mineCount_replicate _ _
  have hmn : mineAt m1 cx cy = false := r3 (mineAt_false_of_mineCount_zero hzero cx cy)
  have hwf1 : Session.wellFormed
      { Session.freshAt d cx cy with mines := m1, shouldPlaceMines := false } :=
    ⟨h1, h2, h3, r1, hc⟩
  obtain ⟨b1, r, _, _, p1, hs1, e1⟩ := checkCell_safe _ rest hwf1 rfl hmn
  have heq := (handleInput_reveal _ k draws hwf0 hk hv).trans
    ((checkCell_placed (Session.freshAt d cx cy) draws rest m1 rfl hplace).trans e1)
  refine ⟨_, heq, rfl, rfl, ?_, ?_, rfl, rfl, rfl, ?_⟩
  · show (mineCount m1 : Int) = max d.MineCount 0
    rw [r2, hzero]
    omega
  · show CheckMine cx cy m1 = .ok false
    rw [CheckMine_rect r1 hH, hmn]
  · show GetMinefieldValue cx cy b1 = GetAdjacentMineCount cx cy m1
    rw [GetAdjacentMineCount_rect r1 hH]
    rcases hs1 with h | h
    · rcases p1.2.2.1 cx cy with e | ⟨e, _⟩
      · exfalso
        have e2 : gridAt b1 cx cy = .ok CELL_HIDDEN := e.trans hv
        have h2 : gridAt b1 cx cy = .ok CELL_CLEAR := h
        rw [e2] at h2
        exact absurd (Except.ok.inj h2) (by decide)
      · exact e
    · exact h

/-- Claim C10. Cursor movement wraps modulo the board dimensions: in a session of positive
dimensions with the cursor on the grid, the move-and-wrap step puts the cursor at
`((x + dx) mod W, (y + dy) mod H)` for the step `(dx, dy)` of the pressed keys, which ranges
over all of `{-1, 0, 1} x {-1, 0, 1}`, and changes neither grid.  Hence in every reachable
state of a game the cursor is on the grid, it is so after the step, the read of the cell at
the cursor succeeds, and a pass with only movement keys completes with the board as it
was. -/
theorem C10_cursor_wraps (d : Difficulty) (hW : 0 < d.Width) (hH : 0 < d.Height) :
    (∀ (s : Session) (k : Keys), s.WIDTH = d.Width → s.HEIGHT = d.Height →
      inBounds s.WIDTH s.HEIGHT s.cursorX s.cursorY →
      (moveCursor k s).cursorX = (s.cursorX + k.stepX) % d.Width ∧
      (moveCursor k s).cursorY = (s.cursorY + k.stepY) % d.Height ∧
      (moveCursor k s).minefield = s.minefield ∧ (moveCursor k s).mines = s.mines) ∧
    (∀ dx dy : Int, -1 ≤ dx → dx ≤ 1 → -1 ≤ dy → dy ≤ 1 →
      ∃ k : Keys, k.stepX = dx ∧ k.stepY = dy) ∧
    (∀ s : Session, Reachable d s →
      inBounds d.Width d.Height s.cursorX s.cursorY ∧
      ∀ (k : Keys) (draws : List Nat),
        inBounds d.Width d.Height (moveCursor k s).cursorX (moveCursor k s).cursorY ∧
        (∃ v, GetMinefieldValue (moveCursor k s).cursorX (moveCursor k s).cursorY
          (moveCursor k s).minefield = .ok v) ∧
        (k.flag = false → k.qmk = false → k.check = false → k.restart = false →
          handleInput k draws s = .ok (moveCursor k s, draws))) := by
  refine ⟨?_, ?_, ?_⟩
  · intro s k eW eH hc
    obtain ⟨e1, e2, e3, e4, _⟩ := moveCursor_spec k s (by omega) (by omega) hc
    rw [eW] at e1
    rw [eH] at e2
    exact ⟨e1, e2, e3, e4⟩
  · intro dx dy h1 h2 h3 h4
    refine ⟨⟨decide (dy = -1), decide (dy = 1), decide (dx = -1), decide (dx = 1),
      false, false, false, false⟩, ?_, ?_⟩
    · unfold Keys.stepX
      by_cases a : dx = -1
      · subst a; simp
      · by_cases b : dx = 1
        · subst b; simp
        · have : dx = 0 := by omega
          subst this; simp
    · unfold Keys.stepY
      by_cases a : dy = -1
      · subst a; simp
      · by_cases b : dy = 1
        · subst b; simp
        · have : dy = 0 := by omega
          subst this; simp
  · intro s hs
    obtain ⟨hwf, eW, eH⟩ := Reachable_wellFormed hW hH hs
    refine ⟨by rw [← eW, ← eH]; exact hwf.2.2.2.2, ?_⟩
    intro k draws
    have hwf1 := moveCursor_wellFormed k s hwf
    have hin1 : inBounds s.WIDTH s.HEIGHT (moveCursor k s).cursorX (moveCursor k s).cursorY :=
      hwf1.2.2.2.2
    obtain ⟨v, hv⟩ := gridAt_ok_of_inBounds hwf1.2.2.1 hwf1.2.2.2.2
    have hv2 : GetMinefieldValue (moveCursor k s).cursorX (moveCursor k s).cursorY
        (moveCursor k s).minefield = .ok v := hv
    refine ⟨by rw [← eW, ← eH]; exact hin1, ⟨v, hv2⟩, ?_⟩
    intro hf hq hc hn
    unfold handleInput
    simp only [hv2, hf, hq, hc, hn, Bool.false_eq_true, if_false, false_and, bind, Except.bind,
      pure, Except.pure]

/-- Witness for C6: a fresh 3x3 game with two mines, first click on `(0, 0)`; the draws
place the mines on `(2, 2)` and `(1, 1)`. -/
theorem C6_safe_first_click_witness :
    PlaceMines 2 (Session.fresh ⟨3, 3, 2⟩).mines 0 0 [8, 8, 1, 1]
      = .ok ([[false, false, false], [false, true, false], [false, false, true]], []) ∧
    ∃ t, handleInput ⟨false, false, false, false, false, false, true, false⟩ [8, 8, 1, 1]
        (Session.freshAt ⟨3, 3, 2⟩ 0 0) = .ok (t, []) ∧
      t.mines = [[false, false, false], [false, true, false], [false, false, true]] ∧
      t.shouldPlaceMines = false ∧ (mineCount t.mines : Int) = max 2 0 ∧
      CheckMine 0 0 t.mines = .ok false ∧ t.run = true ∧
      t.cursorX = 0 ∧ t.cursorY = 0 ∧
      GetMinefieldValue 0 0 t.minefield = GetAdjacentMineCount 0 0 t.mines :=
  ⟨by decide,
    C6_safe_first_click ⟨3, 3, 2⟩ 0 0 ⟨false, false, false, false, false, false, true, false⟩
      [8, 8, 1, 1] [] [[false, false, false], [false, true, false], [false, false, true]]
      (by decide) (by decide) (by decide) (by decide) (by decide)⟩

/-- Witness for C8: the flag key on the hidden cell `(0, 0)` of a fresh 3x3 game sets the
flag, and pressed again takes it off. -/
theorem C8_toggle_flag_witness :
    ∃ t, handleInput ⟨false, false, false, false, true, false, false, false⟩ []
        (Session.fresh ⟨3, 3, 2⟩) = .ok (t, []) ∧
      GetMinefieldValue 0 0 t.minefield = .ok CELL_FLAG ∧
      ∃ t2, handleInput ⟨false, false, false, false, true, false, false, false⟩ [] t
          = .ok (t2, []) ∧
        GetMinefieldValue 0 0 t2.minefield = .ok CELL_HIDDEN := by
  obtain ⟨t, h1, h2, _, _, _, _, _, _, _, t2, h3, h4⟩ :=
    C8_toggle_flag (Session.fresh ⟨3, 3, 2⟩)
      ⟨false, false, false, false, true, false, false, false⟩ [] 9
      (by decide) (by decide) (by decide)
  exact ⟨t, h1, h2 rfl, t2, h3, h4 rfl⟩

/-- Witness for C9: the question-mark key on the hidden cell `(0, 0)` of a fresh 3x3
game. -/
theorem C9_toggle_question_witness :
    ∃ t, handleInput ⟨false, false, false, false, false, true, false, false⟩ []
        (Session.fresh ⟨3, 3, 2⟩) = .ok (t, []) ∧
      GetMinefieldValue 0 0 t.minefield = .ok CELL_QMK ∧
      t.mines = (Session.fresh ⟨3, 3, 2⟩).mines := by
  obtain ⟨t, h1, h2, _, _, _, _, h3, _, _⟩ :=
    C9_toggle_question (Session.fresh ⟨3, 3, 2⟩)
      ⟨false, false, false, false, false, true, false, false⟩ [] 9
      (by decide) (by decide) (by decide)
  exact ⟨t, h1, h2 rfl, h3⟩

/-- Witness for C10 on the beginner preset: from the start `(0, 0)` the left key takes the
cursor to column 8 and the up key to row 8, and the start state has its cursor on the
grid. -/
theorem C10_cursor_wraps_witness :
    (moveCursor ⟨true, false, true, false, false, false, false, false⟩
        (Session.fresh ⟨9, 9, 10⟩)).cursorX = 8 ∧
    (moveCursor ⟨true, false, true, false, false, false, false, false⟩
        (Session.fresh ⟨9, 9, 10⟩)).cursorY = 8 ∧
    inBounds 9 9 (Session.fresh ⟨9, 9, 10⟩).cursorX (Session.fresh ⟨9, 9, 10⟩).cursorY :=
  ⟨((C10_cursor_wraps ⟨9, 9, 10⟩ (by decide) (by decide)).1 (Session.fresh ⟨9, 9, 10⟩)
      ⟨true, false, true, false, false, false, false, false⟩ rfl rfl (by decide)).1,
    ((C10_cursor_wraps ⟨9, 9, 10⟩ (by decide) (by decide)).1 (Session.fresh ⟨9, 9, 10⟩)
      ⟨true, false, true, false, false, false, false, false⟩ rfl rfl (by decide)).2.1,
    ((C10_cursor_wraps ⟨9, 9, 10⟩ (by decide) (by decide)).2.2 (Session.fresh ⟨9, 9, 10⟩)
      Reachable.start).1⟩

/-! ## Coordinates outside the grid -/

/-- Claim C11. Out-of-bounds coordinates are a safe default: on a rectangular board and a
mine grid of the same dimensions with at least one row, for every integer cell outside the
grid `CheckMine` returns `false` and `FloodMinefield` returns the board as it was; and for
every integer cell whatsoever `CheckMine`, `GetAdjacentMineCount` and `FloodMinefield`
return a value, so none of their cell accesses is out of range. -/
theorem C11_out_of_bounds_is_safe (W H : Int) (m : Mines) (b : Board)
    (hH : 0 < H) (hm : Rect W H m) (hb : Rect W H b) :
    (∀ x y : Int, ¬ inBounds W H x y →
      CheckMine x y m = .ok false ∧ FloodMinefield x y b m = .ok b) ∧
    (∀ x y : Int, (∃ r, CheckMine x y m = .ok r) ∧
      (∃ n, GetAdjacentMineCount x y m = .ok n) ∧
      (∃ b1, FloodMinefield x y b m = .ok b1)) := by
  constructor
  · intro x y hout
    constructor
    · rw [CheckMine_rect hm hH]
      cases hmn : mineAt m x y with
      | false => rfl
      | true => exact absurd (mineAt_inBounds hm hmn) hout
    · unfold FloodMinefield
      rw [FloodMinefieldFuel_succ hm hb hH, if_neg hout]
  · intro x y
    obtain ⟨b1, e1, _⟩ := FloodMinefield_post hm hb hH x y
    exact ⟨⟨_, CheckMine_rect hm hH x y⟩, ⟨_, GetAdjacentMineCount_rect hm hH x y⟩, ⟨b1, e1⟩⟩

/-- Witness for C11 on a 3x3 grid with one mine: a cell left of the grid, and the three
functions at the cell `(3, 3)` just outside the mined corner. -/
theorem C11_out_of_bounds_is_safe_witness :
    (CheckMine (-1) 1 [[false, false, false], [false, false, false], [false, false, true]]
        = .ok false ∧
      FloodMinefield (-1) 1 [[9, 9, 9], [9, 9, 9], [9, 9, 9]]
        [[false, false, false], [false, false, false], [false, false, true]]
        = .ok [[9, 9, 9], [9, 9, 9], [9, 9, 9]]) ∧
    GetAdjacentMineCount 3 3 [[false, false, false], [false, false, false], [false, false, true]]
      = .ok 1 :=
  ⟨(C11_out_of_bounds_is_safe 3 3
      [[false, false, false], [false, false, false], [false, false, true]]
      [[9, 9, 9], [9, 9, 9], [9, 9, 9]] (by decide) (by decide) (by decide)).1 (-1) 1
      (by decide),
    by decide⟩

/-! ## The reveal action off a hidden cell -/

/-- Claim C12. The reveal action only acts on a hidden cell: in a well-formed session whose
cursor cell is not `CELL_HIDDEN` (flagged, questioned or revealed), the reveal action
completes without using a draw and leaves the board, the mine grid, the flag
`shouldPlaceMines`, `run`, `victory` and the cursor as they were; unless the restart key is
pressed in the same pass, the whole state is unchanged. -/
theorem C12_reveal_only_on_hidden (s : Session) (k : Keys) (draws : List Nat) (v : Int)
    (hwf : s.wellFormed) (hk : k.isReveal)
    (hv : GetMinefieldValue s.cursorX s.cursorY s.minefield = .ok v)
    (hnot : v ≠ CELL_HIDDEN) :
    ∃ t, handleInput k draws s = .ok (t, draws) ∧
      t.minefield = s.minefield ∧ t.mines = s.mines ∧
      t.shouldPlaceMines = s.shouldPlaceMines ∧ t.run = s.run ∧ t.victory = s.victory ∧
      t.cursorX = s.cursorX ∧ t.cursorY = s.cursorY ∧
      (k.restart = false → t = s) := by
  have hi : handleInput k draws s =
      .ok (if k.restart = true then { s with newGame := true } else s, draws) := by
    unfold handleInput
    rw [moveCursor_noMove k s hk.1 hwf.2.2.2.2]
    simp only [hv, hk.2.1, hk.2.2.1, hk.2.2.2, hnot, Bool.false_eq_true, if_false, and_false,
      bind, Except.bind, pure, Except.pure]
    cases k.restart <;> rfl
  refine ⟨_, hi, ?_⟩
  cases hr : k.restart with
  | false => simp
  | true => simp

/-- Witness for C12: the reveal key on a flagged cell of a 2x2 game changes nothing. -/
theorem C12_reveal_only_on_hidden_witness :
    ∃ t, handleInput ⟨false, false, false, false, false, false, true, false⟩ [5, 7]
        ⟨2, 2, 1, 0, 0, [[10, 9], [9, 9]], [[false, false], [false, false]],
          true, true, false, false, false⟩ = .ok (t, [5, 7]) ∧
      t = ⟨2, 2, 1, 0, 0, [[10, 9], [9, 9]], [[false, false], [false, false]],
          true, true, false, false, false⟩ := by
  obtain ⟨t, h1, _, _, _, _, _, _, _, h9⟩ := C12_reveal_only_on_hidden
    ⟨2, 2, 1, 0, 0, [[10, 9], [9, 9]], [[false, false], [false, false]],
      true, true, false, false, false⟩
    ⟨false, false, false, false, false, false, true, false⟩ [5, 7] 10
    (by decide) (by decide) (by decide) (by decide)
  exact ⟨t, h1, h9 rfl⟩

/-! ## `RandomRange` -/

/-- The value `RandomRange` returns lies between `MIN` and `MIN + MAX - 1`. -/
theorem RandomRange_bounds (MIN MAX : Int) (r : Nat) (hMAX : 0 < MAX) :
    ∃ v, RandomRange MIN MAX r = .ok v ∧ MIN ≤ v ∧ v < MIN + MAX := by
  refine ⟨Int.tmod (r : Int) MAX + MIN, ?_, ?_, ?_⟩
  · unfold RandomRange
    rw [if_neg (by omega)]
  · have := Int.tmod_nonneg MAX (Int.ofNat_nonneg r)
    omega
  · have := Int.tmod_lt_of_pos (r : Int) hMAX
    omega

/-- Claim C20 fails on the code. `RandomRange (1, 2)` with `rand ()` giving `1` returns
`1 % 2 + 1 = 2`, which is not below `MAX = 2`: the remainder is taken by `MAX`, not by
`MAX - MIN`. -/
theorem C20_random_range_leaves_range :
    RandomRange 1 2 1 = .ok 2 ∧ (1 : Int) < 2 ∧ (0 : Int) < 2 ∧ ¬ ((2 : Int) < 2) := by
  decide

/-! ## What the flood changes -/

/-- A cell that is settled after the flood and was not clear before it shows its
adjacent-mine count. -/
theorem settled_shows_count {W H : Int} {m : Mines} {S : Int → Int → Prop} {b b1 : Board}
    (hframe : FloodFrame W H m S b b1) {u v : Int} (hs : Settled W H m b1 u v)
    (hne : gridAt b u v ≠ .ok CELL_CLEAR) :
    gridAt b1 u v = .ok (adjacentCount W H m u v) := by
  rcases hs with h | h
  · rcases hframe u v with e | ⟨e, _⟩
    · rw [h] at e
      exact absurd e.symm hne
    · exact e
  · exact h

/-- Every cell of the grid that the flood may visit is settled afterwards. -/
theorem FloodReach_settled {W H : Int} {m : Mines} {b b1 : Board}
    (hU : ∀ u v : Int, Unfinished W H m b1 u v → Unfinished W H m b u v)
    {x y u v : Int} (hr : FloodReach W H m b x y u v) :
    (inBounds W H x y → Settled W H m b1 x y) → inBounds W H u v → Settled W H m b1 u v := by
  induction hr with
  | self x y => exact fun h huv => h huv
  | step x y p q u v hin _ hc hne hadj _ ih =>
    intro hxy huv
    apply ih _ huv
    intro hpq
    have hclear : gridAt b1 x y = .ok CELL_CLEAR := by
      have hz : adjacentCount W H m x y = CELL_CLEAR := by
        unfold adjacentCount CELL_CLEAR
        rw [hc]; rfl
      rcases hxy hin with h | h
      · exact h
      · rw [h, hz]
    by_contra hns
    unfold Settled at hns
    push_neg at hns
    exact hne (hU x y ⟨hclear, p, q, hadj, hpq, hns.1, hns.2⟩).1

/-- Claim C18. `FloodMinefield` never touches mines: on a rectangular board with any cell
values and a mine grid of the same dimensions (at least one row), for every integer start
the call returns a board of the same dimensions on which every cell that holds a mine has
the value it had, and every cell whose value differs from before is a cell of the grid
without a mine that now holds its adjacent-mine count.  The mine grid is only read (it is a
`const` argument and no part of the result); in a pass of the game loop that reveals with
the mines already placed, the mine grid of the session is the same afterwards. -/
theorem C18_flood_never_touches_mines (W H : Int) (m : Mines) (b : Board) (x y : Int)
    (hH : 0 < H) (hm : Rect W H m) (hb : Rect W H b) :
    (∃ b1, FloodMinefield x y b m = .ok b1 ∧ Rect W H b1 ∧
      (∀ u v : Int, CheckMine u v m = .ok true →
        GetMinefieldValue u v b1 = GetMinefieldValue u v b) ∧
      (∀ u v : Int, GetMinefieldValue u v b1 ≠ GetMinefieldValue u v b →
        inBounds W H u v ∧ CheckMine u v m = .ok false ∧
          GetMinefieldValue u v b1 = GetAdjacentMineCount u v m)) ∧
    (∀ (s t : Session) (draws rest : List Nat), s.wellFormed → s.shouldPlaceMines = false →
      checkCell draws s = .ok (t, rest) → t.mines = s.mines) := by
  constructor
  · obtain ⟨b1, e1, ⟨hb1, _, hframe, _⟩, _⟩ := FloodMinefield_post hm hb hH x y
    refine ⟨b1, e1, hb1, ?_, ?_⟩
    · intro u v hmine
      rw [CheckMine_rect hm hH] at hmine
      rcases hframe u v with e | ⟨_, _, hmn, _⟩
      · exact e
      · rw [hmn] at hmine
        exact absurd (Except.ok.inj hmine) (by decide)
    · intro u v hne
      rcases hframe u v with e | ⟨e, hin, hmn, _⟩
      · exact absurd e hne
      · refine ⟨hin, ?_, ?_⟩
        · rw [CheckMine_rect hm hH, hmn]
        · rw [GetAdjacentMineCount_rect hm hH]
          exact e
  · intro s t draws rest hwf hs h
    cases hmn : mineAt s.mines s.cursorX s.cursorY with
    | true =>
      rw [checkCell_mine s draws hwf hs hmn] at h
      have e := Except.ok.inj h
      simp only [Prod.mk.injEq] at e
      rw [← e.1]
    | false =>
      obtain ⟨b1, r, _, _, _, _, e0⟩ := checkCell_safe s draws hwf hs hmn
      rw [e0] at h
      have e := Except.ok.inj h
      simp only [Prod.mk.injEq] at e
      rw [← e.1]

/-- Witness for C18: a board with a flag on the mine and a stale `0` that keeps the flood from
the bottom row. -/
theorem C18_flood_never_touches_mines_witness :
    FloodMinefield 0 0 [[9, 11, 9], [0, 9, 9], [9, 9, 10]]
        [[false, false, false], [false, false, false], [false, false, true]]
      = .ok [[0, 0, 0], [0, 1, 1], [9, 9, 10]] ∧
    ∃ b1, FloodMinefield 0 0 [[9, 11, 9], [0, 9, 9], [9, 9, 10]]
        [[false, false, false], [false, false, false], [false, false, true]] = .ok b1 ∧
      Rect 3 3 b1 ∧
      (∀ u v : Int,
        CheckMine u v [[false, false, false], [false, false, false], [false, false, true]]
          = .ok true →
        GetMinefieldValue u v b1 =
          GetMinefieldValue u v [[9, 11, 9], [0, 9, 9], [9, 9, 10]]) ∧
      (∀ u v : Int, GetMinefieldValue u v b1 ≠
          GetMinefieldValue u v [[9, 11, 9], [0, 9, 9], [9, 9, 10]] →
        inBounds 3 3 u v ∧
        CheckMine u v [[false, false, false], [false, false, false], [false, false, true]]
          = .ok false ∧
        GetMinefieldValue u v b1 = GetAdjacentMineCount u v
          [[false, false, false], [false, false, false], [false, false, true]]) :=
  ⟨by decide,
    (C18_flood_never_touches_mines 3 3
      [[false, false, false], [false, false, false], [false, false, true]]
      [[9, 11, 9], [0, 9, 9], [9, 9, 10]] 0 0 (by decide) (by decide) (by decide)).1⟩

/-- Claim C17. Flags and question marks do not protect a cell from the flood: on a
rectangular board and a mine grid of the same dimensions, started on a cell of the grid
that holds no mine and is not `CELL_CLEAR` (hidden, flagged, questioned or anything else),
`FloodMinefield` returns a board on which the start shows its adjacent-mine count; and for
every zero-adjacency non-mine cell that the flood reaches and that was not clear, the cell
is clear afterwards and every cell of the grid touching it that was not clear, flagged and
questioned ones included, shows its adjacent-mine count. -/
theorem C17_flags_do_not_protect (W H : Int) (m : Mines) (b : Board) (x y v : Int)
    (hH : 0 < H) (hm : Rect W H m) (hb : Rect W H b) (hin : inBounds W H x y)
    (hmine : CheckMine x y m = .ok false) (hv : GetMinefieldValue x y b = .ok v)
    (hne : v ≠ CELL_CLEAR) :
    ∃ b1, FloodMinefield x y b m = .ok b1 ∧
      GetMinefieldValue x y b1 = GetAdjacentMineCount x y m ∧
      ∀ p q : Int, FloodReach W H m b x y p q → isZeroCell W H m p q →
        GetMinefieldValue p q b ≠ .ok CELL_CLEAR →
        GetMinefieldValue p q b1 = .ok CELL_CLEAR ∧
        ∀ u w : Int, adjacent p q u w → inBounds W H u w →
          GetMinefieldValue u w b ≠ .ok CELL_CLEAR →
          GetMinefieldValue u w b1 = GetAdjacentMineCount u w m := by
  have hmn : mineAt m x y = false := by
    rw [CheckMine_rect hm hH] at hmine
    exact Except.ok.inj hmine
  have hne0 : gridAt b x y ≠ .ok CELL_CLEAR := by
    intro e
    have hv2 : gridAt b x y = .ok v := hv
    rw [hv2] at e
    exact hne (Except.ok.inj e)
  obtain ⟨b1, e1, ⟨_, _, hframe, hU⟩, hset⟩ := FloodMinefield_post hm hb hH x y
  refine ⟨b1, e1, ?_, ?_⟩
  · rw [GetAdjacentMineCount_rect hm hH]
    exact settled_shows_count hframe (hset hin hmn) hne0
  · intro p q hr hz hpq
    have hsp : Settled W H m b1 p q :=
      FloodReach_settled hU hr (fun h => hset h hmn) hz.1
    have hcp : gridAt b1 p q = .ok CELL_CLEAR := by
      have := settled_shows_count hframe hsp hpq
      rw [this]
      unfold adjacentCount CELL_CLEAR
      rw [hz.2.2]; rfl
    refine ⟨hcp, ?_⟩
    intro u w hadj huw hnc
    rw [GetAdjacentMineCount_rect hm hH]
    apply settled_shows_count hframe _ hnc
    by_contra hns
    unfold Settled at hns
    push_neg at hns
    exact hpq (hU p q ⟨hcp, u, w, hadj, huw, hns.1, hns.2⟩).1

/-- Witness for C17: the start `(0, 0)` is flagged, `(1, 0)` is questioned and `(1, 1)` is
flagged; the flood overwrites all three. -/
theorem C17_flags_do_not_protect_witness :
    FloodMinefield 0 0 [[10, 11, 9], [9, 10, 9], [9, 9, 9]]
        [[false, false, false], [false, false, false], [false, false, true]]
      = .ok [[0, 0, 0], [0, 1, 1], [0, 1, 9]] ∧
    ∃ b1, FloodMinefield 0 0 [[10, 11, 9], [9, 10, 9], [9, 9, 9]]
        [[false, false, false], [false, false, false], [false, false, true]] = .ok b1 ∧
      GetMinefieldValue 0 0 b1 = GetAdjacentMineCount 0 0
        [[false, false, false], [false, false, false], [false, false, true]] ∧
      GetMinefieldValue 1 1 b1 = GetAdjacentMineCount 1 1
        [[false, false, false], [false, false, false], [false, false, true]] := by
  refine ⟨by decide, ?_⟩
  obtain ⟨b1, h1, h2, h3⟩ := C17_flags_do_not_protect 3 3
    [[false, false, false], [false, false, false], [false, false, true]]
    [[10, 11, 9], [9, 10, 9], [9, 9, 9]] 0 0 10 (by decide) (by decide) (by decide)
    (by decide) (by decide) (by decide) (by decide)
  exact ⟨b1, h1, h2, (h3 0 0 (FloodReach.self 0 0) (by decide) (by decide)).2 1 1
    (by decide) (by decide) (by decide)⟩

/-! ## Termination of the flood -/

/-- Claim C14. `FloodMinefield` terminates on every input: on a rectangular board with any
cell values and a mine grid of the same dimensions (at least one row), for every integer
start, the recursion run with any budget above the number of cells that are not
`CELL_CLEAR` returns a board, the same as `FloodMinefield`, so the nesting depth of the
recursive calls is at most that number; the reason is the second part: a call that does
not reach the recursion returns with budget 1, and a call that recurses has first turned
a cell that was not clear into `CELL_CLEAR`, so its eight recursive calls start on a board
with one such cell less. -/
theorem C14_flood_terminates (W H : Int) (m : Mines) (b : Board) (x y : Int)
    (hH : 0 < H) (hm : Rect W H m) (hb : Rect W H b) :
    (∀ fuel : Nat, nonClearCount b < fuel →
      ∃ b1, FloodMinefieldFuel fuel x y b m = .ok b1 ∧ FloodMinefield x y b m = .ok b1 ∧
        Rect W H b1 ∧ nonClearCount b1 ≤ nonClearCount b) ∧
    (¬ (inBounds W H x y ∧ GetMinefieldValue x y b ≠ .ok CELL_CLEAR ∧
          CheckMine x y m = .ok false ∧ GetAdjacentMineCount x y m = .ok 0) →
      ∃ b1, FloodMinefieldFuel 1 x y b m = .ok b1) ∧
    (inBounds W H x y → GetMinefieldValue x y b ≠ .ok CELL_CLEAR →
      CheckMine x y m = .ok false → GetAdjacentMineCount x y m = .ok 0 →
      ∃ b0, SetMinefieldValue x y CELL_CLEAR b = .ok b0 ∧
        nonClearCount b0 + 1 = nonClearCount b ∧
        ∀ fuel : Nat, FloodMinefieldFuel (fuel + 1) x y b m =
          floodEach fuel m (floodOrder x y) b0) := by
  have hcm : ∀ r : Bool, CheckMine x y m = .ok r ↔ mineAt m x y = r := by
    intro r
    rw [CheckMine_rect hm hH]
    exact ⟨fun h => Except.ok.inj h, fun h => by rw [h]⟩
  have hcnt : GetAdjacentMineCount x y m = .ok 0 ↔ adjacentCount W H m x y = 0 := by
    rw [GetAdjacentMineCount_rect hm hH]
    exact ⟨fun h => Except.ok.inj h, fun h => by unfold adjacentCount at h; rw [h]⟩
  refine ⟨?_, ?_, ?_⟩
  · intro fuel hf
    obtain ⟨b1, e1, p1, _⟩ := FloodMinefieldFuel_post hm hH fuel x y b hb hf
    refine ⟨b1, e1, ?_, p1.1, p1.2.1⟩
    rw [← FloodMinefield_eq_fuel hm hb hH fuel hf x y]
    exact e1
  · intro hno
    rw [FloodMinefieldFuel_succ hm hb hH]
    by_cases hin : inBounds W H x y
    swap
    · rw [if_neg hin]; exact ⟨b, rfl⟩
    rw [if_pos hin]
    obtain ⟨v, hv⟩ := gridAt_ok_of_inBounds hb hin
    rw [hv]
    simp only
    by_cases h0 : v = CELL_CLEAR
    · rw [if_pos h0]; exact ⟨b, rfl⟩
    rw [if_neg h0]
    by_cases hmn : mineAt m x y = true
    · rw [if_pos hmn]; exact ⟨b, rfl⟩
    rw [if_neg hmn]
    obtain ⟨b0, hs⟩ := gridSet_ok_of_at (adjacentCount W H m x y) hv
    rw [hs]
    simp only
    by_cases hpos : adjacentCount W H m x y > 0
    · rw [if_pos hpos]; exact ⟨b0, rfl⟩
    exfalso
    apply hno
    refine ⟨hin, ?_, (hcm false).mpr (by simpa using hmn), hcnt.mpr ?_⟩
    · show gridAt b x y ≠ .ok CELL_CLEAR
      rw [hv]
      exact fun e => h0 (Except.ok.inj e)
    · unfold adjacentCount at hpos ⊢
      omega
  · intro hin hne hmine hzero
    have hmn : mineAt m x y = false := (hcm false).mp hmine
    have hz : adjacentCount W H m x y = 0 := hcnt.mp hzero
    obtain ⟨v, hv⟩ := gridAt_ok_of_inBounds hb hin
    have h0 : v ≠ CELL_CLEAR := by
      intro e
      apply hne
      show gridAt b x y = .ok CELL_CLEAR
      rw [hv, e]
    obtain ⟨b0, hs⟩ := gridSet_ok_of_at CELL_CLEAR hv
    refine ⟨b0, hs, ?_, ?_⟩
    · have hc := nonClearCount_set hv hs
      rw [if_pos h0] at hc
      simp only [ne_eq, not_true_eq_false, if_false] at hc
      omega
    · intro fuel
      have hs2 : gridSet b x y (adjacentCount W H m x y) = .ok b0 := by
        rw [hz]; exact hs
      rw [FloodMinefieldFuel_succ hm hb hH, if_pos hin, hv]
      simp only
      rw [if_neg h0, if_neg (by rw [hmn]; decide), hs2]
      simp only
      rw [if_neg (by rw [hz]; decide)]

/-- Witness for C14: a 3x3 board with nine cells that are not clear; budget 10 suffices,
and so does budget 5, while budget 4 does not. -/
theorem C14_flood_terminates_witness :
    (∀ fuel : Nat, nonClearCount [[9, 9, 9], [9, 9, 9], [9, 9, 9]] < fuel →
      ∃ b1, FloodMinefieldFuel fuel 0 0 [[9, 9, 9], [9, 9, 9], [9, 9, 9]]
          [[false, false, false], [false, false, false], [false, false, true]] = .ok b1 ∧
        FloodMinefield 0 0 [[9, 9, 9], [9, 9, 9], [9, 9, 9]]
          [[false, false, false], [false, false, false], [false, false, true]] = .ok b1 ∧
        Rect 3 3 b1 ∧ nonClearCount b1 ≤ nonClearCount [[9, 9, 9], [9, 9, 9], [9, 9, 9]]) ∧
    nonClearCount [[9, 9, 9], [9, 9, 9], [9, 9, 9]] = 9 ∧
    FloodMinefieldFuel 5 0 0 [[9, 9, 9], [9, 9, 9], [9, 9, 9]]
        [[false, false, false], [false, false, false], [false, false, true]]
      = .ok [[0, 0, 0], [0, 1, 1], [0, 1, 9]] ∧
    FloodMinefieldFuel 4 0 0 [[9, 9, 9], [9, 9, 9], [9, 9, 9]]
        [[false, false, false], [false, false, false], [false, false, true]]
      = .error .outOfFuel :=
  ⟨(C14_flood_terminates 3 3
      [[false, false, false], [false, false, false], [false, false, true]]
      [[9, 9, 9], [9, 9, 9], [9, 9, 9]] 0 0 (by decide) (by decide) (by decide)).1,
    by decide, by decide, by decide⟩

/-! ## Cell values in reachable states -/

theorem consistent_congr {s t : Session} (h1 : t.minefield = s.minefield)
    (h2 : t.mines = s.mines) (h3 : t.shouldPlaceMines = s.shouldPlaceMines)
    (h : s.consistent) : t.consistent := by
  unfold Session.consistent at h ⊢
  rw [h1, h2, h3]
  exact h

theorem toggleFlagValue_cases (v : Int)
    (h : isRevealed v ∨ v = CELL_HIDDEN ∨ v = CELL_FLAG ∨ v = CELL_QMK) :
    (toggleFlagValue v = CELL_HIDDEN ∨ toggleFlagValue v = CELL_FLAG) ∨
      (isRevealed v ∧ toggleFlagValue v = v) := by
  rcases h with h | h | h | h
  · exact Or.inr ⟨h, toggleFlagValue_revealed h⟩
  · subst h; exact Or.inl (Or.inr (by decide))
  · subst h; exact Or.inl (Or.inl (by decide))
  · subst h; exact Or.inl (Or.inr (by decide))

theorem toggleQmkValue_cases (v : Int)
    (h : isRevealed v ∨ v = CELL_HIDDEN ∨ v = CELL_FLAG ∨ v = CELL_QMK) :
    (toggleQmkValue v = CELL_HIDDEN ∨ toggleQmkValue v = CELL_QMK) ∨
      (isRevealed v ∧ toggleQmkValue v = v) := by
  rcases h with h | h | h | h
  · exact Or.inr ⟨h, toggleQmkValue_revealed h⟩
  · subst h; exact Or.inl (Or.inr (by decide))
  · subst h; exact Or.inl (Or.inr (by decide))
  · subst h; exact Or.inl (Or.inl (by decide))

/-- Writing a mark, or the value the cell had, at the cursor keeps a session consistent. -/
theorem consistent_mark {s : Session} {mf : Board} {v a : Int} (hc : s.consistent)
    (hv : GetMinefieldValue s.cursorX s.cursorY s.minefield = .ok v)
    (hcur : GetMinefieldValue s.cursorX s.cursorY mf = .ok a)
    (ha : (a = CELL_HIDDEN ∨ a = CELL_FLAG ∨ a = CELL_QMK) ∨ (isRevealed v ∧ a = v))
    (hrest : ∀ u w : Int, (u, w) ≠ (s.cursorX, s.cursorY) →
      GetMinefieldValue u w mf = GetMinefieldValue u w s.minefield) :
    Session.consistent { s with shouldDrawMinefield := true, minefield := mf } := by
  intro x y val hval
  by_cases e : (x, y) = (s.cursorX, s.cursorY)
  · obtain ⟨rfl, rfl⟩ := Prod.mk.inj e
    have hval2 : GetMinefieldValue s.cursorX s.cursorY mf = .ok val := hval
    rw [hcur] at hval2
    have eav : a = val := Except.ok.inj hval2
    subst eav
    rcases ha with h | ⟨h1, h2⟩
    · refine ⟨Or.inr h, ?_⟩
      intro hr
      exfalso
      unfold isRevealed at hr
      rcases h with h | h | h <;> rw [h] at hr <;> revert hr <;> decide
    · subst h2
      exact hc _ _ _ hv
  · have hval2 : GetMinefieldValue x y mf = .ok val := hval
    rw [hrest x y e] at hval2
    exact hc x y val hval2

theorem checkCell_consistent (s t : Session) (draws rest : List Nat) (hwf : s.wellFormed)
    (hc : s.consistent) (h : checkCell draws s = .ok (t, rest)) : t.consistent := by
  have key : ∀ (s : Session) (draws : List Nat), s.wellFormed → s.consistent →
      s.shouldPlaceMines = false → checkCell draws s = .ok (t, rest) → t.consistent := by
    intro s draws hwf hc hs h
    cases hmn : mineAt s.mines s.cursorX s.cursorY with
    | true =>
      rw [checkCell_mine s draws hwf hs hmn] at h
      have e := Except.ok.inj h
      simp only [Prod.mk.injEq] at e
      rw [← e.1]
      exact consistent_congr rfl rfl rfl hc
    | false =>
      obtain ⟨b1, r, _, _, p1, _, e0⟩ := checkCell_safe s draws hwf hs hmn
      rw [e0] at h
      have e := Except.ok.inj h
      simp only [Prod.mk.injEq] at e
      rw [← e.1]
      intro x y val hval
      have hval2 : gridAt b1 x y = .ok val := hval
      rcases p1.2.2.1 x y with e1 | ⟨e1, _⟩
      · rw [e1] at hval2
        exact hc x y val hval2
      · rw [e1] at hval2
        have ev : adjacentCount s.WIDTH s.HEIGHT s.mines x y = val := Except.ok.inj hval2
        have hrev := adjacentCount_revealed s.WIDTH s.HEIGHT s.mines x y
        rw [ev] at hrev
        refine ⟨Or.inl hrev, fun _ => ⟨?_, hs⟩⟩
        show GetAdjacentMineCount x y s.mines = .ok val
        rw [GetAdjacentMineCount_rect hwf.2.2.2.1 hwf.2.1, ← ev]
        rfl
  cases hs : s.shouldPlaceMines with
  | false => exact key s draws hwf hc hs h
  | true =>
    cases hp : PlaceMines s.BASE_MINE_COUNT s.mines s.cursorX s.cursorY draws with
    | error e => rw [checkCell_failed s draws e hs hp] at h; cases h
    | ok r =>
      obtain ⟨m1, d1⟩ := r
      rw [checkCell_placed s draws d1 m1 hs hp] at h
      obtain ⟨h1, h2, h3, h4, h5⟩ := hwf
      have hm1 : Rect s.WIDTH s.HEIGHT m1 := PlaceMines_rect h1 h2 h4 hp
      refine key { s with mines := m1, shouldPlaceMines := false } d1 ⟨h1, h2, h3, hm1, h5⟩
        ?_ rfl h
      intro x y val hval
      obtain ⟨a1, a2⟩ := hc x y val hval
      refine ⟨a1, fun hr => ?_⟩
      have := (a2 hr).2
      rw [hs] at this
      cases this

theorem handleInput_consistent (k : Keys) (s t : Session) (draws rest : List Nat)
    (hwf : s.wellFormed) (hc : s.consistent) (h : handleInput k draws s = .ok (t, rest)) :
    t.consistent := by
  have hwf1 := moveCursor_wellFormed k s hwf
  have hc1 : (moveCursor k s).consistent := consistent_congr rfl rfl rfl hc
  unfold handleInput at h
  generalize moveCursor k s = s1 at h hwf1 hc1
  obtain ⟨v, hv⟩ := gridAt_ok_of_inBounds hwf1.2.2.1 hwf1.2.2.2.2
  have hv2 : GetMinefieldValue s1.cursorX s1.cursorY s1.minefield = .ok v := hv
  have hallowed := (hc1 _ _ _ hv2).1
  simp only [hv2, bind, Except.bind, pure, Except.pure] at h
  by_cases hf : k.flag = true
  · rw [if_pos hf] at h
    obtain ⟨mf, e, _, hcur, hrest, _⟩ := placeFlag_spec s1 v hwf1 hv2
    rw [e] at h
    have e2 := Except.ok.inj h
    simp only [Prod.mk.injEq] at e2
    rw [← e2.1]
    refine consistent_mark hc1 hv2 hcur ?_ hrest
    rcases toggleFlagValue_cases v hallowed with a | a
    · rcases a with a | a
      · exact Or.inl (Or.inl a)
      · exact Or.inl (Or.inr (Or.inl a))
    · exact Or.inr a
  rw [if_neg hf] at h
  by_cases hq : k.qmk = true
  · rw [if_pos hq] at h
    obtain ⟨mf, e, _, hcur, hrest, _⟩ := placeQmk_spec s1 v hwf1 hv2
    rw [e] at h
    have e2 := Except.ok.inj h
    simp only [Prod.mk.injEq] at e2
    rw [← e2.1]
    refine consistent_mark hc1 hv2 hcur ?_ hrest
    rcases toggleQmkValue_cases v hallowed with a | a
    · rcases a with a | a
      · exact Or.inl (Or.inl a)
      · exact Or.inl (Or.inr (Or.inr a))
    · exact Or.inr a
  rw [if_neg hq] at h
  by_cases hch : k.check = true ∧ v = CELL_HIDDEN
  · rw [if_pos hch] at h
    exact checkCell_consistent s1 t draws rest hwf1 hc1 h
  rw [if_neg hch] at h
  by_cases hn : k.restart = true
  · rw [if_pos hn] at h
    have e2 := Except.ok.inj h
    simp only [Prod.mk.injEq] at e2
    rw [← e2.1]
    exact consistent_congr rfl rfl rfl hc1
  · rw [if_neg hn] at h
    have e2 := Except.ok.inj h
    simp only [Prod.mk.injEq] at e2
    rw [← e2.1]
    exact hc1

theorem loopBody_consistent (k : Keys) (s t : Session) (draws rest : List Nat)
    (out : Option (List Char)) (hwf : s.wellFormed) (hc : s.consistent)
    (h : loopBody k draws s = .ok (t, rest, out)) : t.consistent := by
  unfold loopBody at h
  cases hi : handleInput k draws s with
  | error e => rw [hi] at h; cases h
  | ok r =>
    obtain ⟨s1, d1⟩ := r
    rw [hi] at h
    simp only [bind, Except.bind, pure, Except.pure] at h
    cases hd : drawStep s1 with
    | error e => rw [hd] at h; cases h
    | ok r2 =>
      obtain ⟨s2, o2⟩ := r2
      rw [hd] at h
      have e2 := Except.ok.inj h
      simp only [Prod.mk.injEq] at e2
      rw [← e2.1, drawStep_fields s1 s2 o2 hd]
      exact consistent_congr rfl rfl rfl (handleInput_consistent k s s1 draws d1 hwf hc hi)

theorem fresh_consistent (d : Difficulty) : (Session.fresh d).consistent := by
  intro x y v hv
  obtain ⟨row, hrow, hmem⟩ := gridAt_mem hv
  have hrow2 : row = List.replicate d.Width.toNat CELL_HIDDEN :=
    (List.mem_replicate.mp hrow).2
  rw [hrow2] at hmem
  have e : v = CELL_HIDDEN := (List.mem_replicate.mp hmem).2
  subst e
  exact ⟨Or.inr (Or.inl rfl), fun hr => absurd hr (by decide)⟩

theorem Reachable_consistent {d : Difficulty} {s : Session} (hW : 0 < d.Width)
    (hH : 0 < d.Height) (h : Reachable d s) : s.consistent := by
  induction h with
  | start => exact fresh_consistent d
  | pass k draws rest out s t hs _ _ _ hb ih =>
    exact loopBody_consistent k s t draws rest out (Reachable_wellFormed hW hH hs).1 ih hb

/-- Claim C13. Reachable-state invariant: in every state that the game loop reaches from a
fresh game of positive dimensions, by passes with any keys and any random draws, every cell
value is a count `0..8`, `CELL_HIDDEN`, `CELL_FLAG` or `CELL_QMK`, and every cell holding a
count `0..8` holds exactly what `GetAdjacentMineCount` returns for it on the current mine
grid. -/
theorem C13_reachable_cells_consistent (d : Difficulty) (s : Session)
    (hW : 0 < d.Width) (hH : 0 < d.Height) (hs : Reachable d s) :
    ∀ x y v : Int, GetMinefieldValue x y s.minefield = .ok v →
      (isRevealed v ∨ v = CELL_HIDDEN ∨ v = CELL_FLAG ∨ v = CELL_QMK) ∧
      (isRevealed v → GetAdjacentMineCount x y s.mines = .ok v) := by
  intro x y v hv
  obtain ⟨a1, a2⟩ := Reachable_consistent hW hH hs x y v hv
  exact ⟨a1, fun hr => (a2 hr).1⟩

set_option maxRecDepth 100000 in
/-- Witness for C13: the state after the first reveal of a 3x3 game with two mines, where
the cell `(0, 0)` shows the count 1. -/
theorem C13_reachable_cells_consistent_witness :
    (loopBody ⟨false, false, false, false, false, false, true, false⟩ [8, 8, 1, 1]
        (Session.fresh ⟨3, 3, 2⟩)).map (fun r => (r.1.minefield, r.1.mines))
      = .ok ([[1, 9, 9], [9, 9, 9], [9, 9, 9]],
          [[false, false, false], [false, true, false], [false, false, true]]) ∧
    ∀ (t : Session) (rest : List Nat) (out : Option (List Char)),
      loopBody ⟨false, false, false, false, false, false, true, false⟩ [8, 8, 1, 1]
        (Session.fresh ⟨3, 3, 2⟩) = .ok (t, rest, out) →
      ∀ x y v : Int, GetMinefieldValue x y t.minefield = .ok v →
        (isRevealed v ∨ v = CELL_HIDDEN ∨ v = CELL_FLAG ∨ v = CELL_QMK) ∧
        (isRevealed v → GetAdjacentMineCount x y t.mines = .ok v) :=
  ⟨by decide, fun t rest out h =>
    C13_reachable_cells_consistent ⟨3, 3, 2⟩ t (by decide) (by decide)
      (Reachable.pass ⟨false, false, false, false, false, false, true, false⟩ [8, 8, 1, 1]
        rest out (Session.fresh ⟨3, 3, 2⟩) t Reachable.start rfl rfl rfl h)⟩

/-! ## The drawn text, character by character -/

theorem digit_toString (v : Int) (h1 : 1 ≤ v) (h2 : v ≤ 8) :
    ∃ c, (toString v).toList = [c] := by
  interval_cases v <;> exact ⟨_, rfl⟩

theorem DrawMinefield_cell_exact {W H W2 H2 : Int} {b : Board} {m : Mines} (hb : Rect W H b)
    (hvals : ∀ row ∈ b, ∀ v ∈ row, 0 ≤ v ∧ v ≤ 11) (hm : Rect W2 H2 m) (hH2 : 0 < H2)
    (show_mines : Bool) {x y : Int} (hin : inBounds W H x y) :
    ∃ c, DrawMinefield.cell b m show_mines x y = .ok [c, ' '] := by
  obtain ⟨v, hv⟩ := gridAt_ok_of_inBounds hb hin
  obtain ⟨row, hrow, hmem⟩ := gridAt_mem hv
  obtain ⟨v0, v11⟩ := hvals row hrow v hmem
  have hshown : ∃ c, (if v = CELL_CLEAR then [CHAR_CLEAR]
      else if v = CELL_FLAG then [CHAR_FLAG]
      else if v = CELL_HIDDEN then [CHAR_HIDDEN]
      else if v = CELL_QMK then [CHAR_QMK]
      else (toString v).toList) = [c] := by
    by_cases h0 : v = CELL_CLEAR
    · rw [if_pos h0]; exact ⟨_, rfl⟩
    rw [if_neg h0]
    by_cases h1 : v = CELL_FLAG
    · rw [if_pos h1]; exact ⟨_, rfl⟩
    rw [if_neg h1]
    by_cases h2 : v = CELL_HIDDEN
    · rw [if_pos h2]; exact ⟨_, rfl⟩
    rw [if_neg h2]
    by_cases h3 : v = CELL_QMK
    · rw [if_pos h3]; exact ⟨_, rfl⟩
    rw [if_neg h3]
    unfold CELL_CLEAR at h0
    unfold CELL_FLAG at h1
    unfold CELL_HIDDEN at h2
    unfold CELL_QMK at h3
    exact digit_toString v (by omega) (by omega)
  obtain ⟨c, hc⟩ := hshown
  unfold DrawMinefield.cell
  simp only [GetMinefieldValue, hv, CheckMine_rect hm hH2, bind, Except.bind, pure, Except.pure,
    hc, SPACING_eq]
  cases show_mines with
  | false => exact ⟨c, rfl⟩
  | true =>
    cases hmn : mineAt m x y with
    | false => exact ⟨c, rfl⟩
    | true => exact ⟨CHAR_MINE, rfl⟩

theorem DrawMinefield_row_exact {W H W2 H2 : Int} {b : Board} {m : Mines} (hb : Rect W H b)
    (hvals : ∀ row ∈ b, ∀ v ∈ row, 0 ≤ v ∧ v ≤ 11) (hm : Rect W2 H2 m) (hH2 : 0 < H2)
    (show_mines : Bool) (y : Int) (hy : 0 ≤ y ∧ y < H) :
    ∀ (n : Nat) (x : Int) (output : List Char), 0 ≤ x → x + n = W →
      ∃ text, DrawMinefield.row b m show_mines y n x output = .ok (output ++ text) ∧
        text.length = 2 * n ∧
        ∀ j : Nat, j < n → ∃ c, DrawMinefield.cell b m show_mines (x + j) y = .ok [c, ' '] ∧
          text[2 * j]? = some c := by
  intro n
  induction n with
  | zero =>
    intro x output _ _
    exact ⟨[], by simp [DrawMinefield.row], rfl, fun j hj => absurd hj (Nat.not_lt_zero _)⟩
  | succ k ih =>
    intro x output hx0 hx
    have hin : inBounds W H x y := ⟨hx0, by push_cast at hx; omega, hy.1, hy.2⟩
    obtain ⟨c, hc⟩ := DrawMinefield_cell_exact hb hvals hm hH2 show_mines hin
    obtain ⟨text, e, hlen, hat⟩ := ih (x + 1) (output ++ [c, ' ']) (by omega)
      (by push_cast at hx ⊢; omega)
    refine ⟨[c, ' '] ++ text, ?_, ?_, ?_⟩
    · rw [DrawMinefield.row]
      simp only [hc, bind, Except.bind]
      rw [e, List.append_assoc]
    · simp only [List.length_append, List.length_cons, List.length_nil, hlen]
      omega
    · intro j hj
      cases j with
      | zero =>
        refine ⟨c, ?_, rfl⟩
        simp only [Nat.cast_zero, add_zero]
        exact hc
      | succ i =>
        obtain ⟨c2, hc2, hi⟩ := hat i (by omega)
        refine ⟨c2, ?_, ?_⟩
        · have e2 : x + ((i + 1 : Nat) : Int) = x + 1 + (i : Int) := by push_cast; omega
          rw [e2]
          exact hc2
        · have e3 : 2 * (i + 1) = (2 * i) + 2 := by omega
          rw [e3]
          show (c :: ' ' :: text)[2 * i + 1 + 1]? = some c2
          rw [List.getElem?_cons_succ, List.getElem?_cons_succ]
          exact hi

theorem DrawMinefield_rows_exact {W H W2 H2 : Int} {b : Board} {m : Mines} (hb : Rect W H b)
    (hvals : ∀ row ∈ b, ∀ v ∈ row, 0 ≤ v ∧ v ≤ 11) (hm : Rect W2 H2 m) (hH2 : 0 < H2)
    (hW : 0 ≤ W) (show_mines : Bool) :
    ∀ (n : Nat) (y : Int) (output : List Char), 0 ≤ y → y + n = H →
      ∃ text, DrawMinefield.rows b m show_mines W H n y output = .ok (output ++ text) ∧
        text.length = n * (2 * W.toNat) + (n - 1) ∧
        ∀ i j : Nat, i < n → j < W.toNat →
          ∃ c, DrawMinefield.cell b m show_mines j (y + i) = .ok [c, ' '] ∧
            text[i * (2 * W.toNat + 1) + 2 * j]? = some c := by
  intro n
  induction n with
  | zero =>
    intro y output _ _
    exact ⟨[], by simp [DrawMinefield.rows], by simp,
      fun i j hi _ => absurd hi (Nat.not_lt_zero _)⟩
  | succ k ih =>
    intro y output hy0 hy
    obtain ⟨rt, er, hrl, hrat⟩ := DrawMinefield_row_exact hb hvals hm hH2 show_mines y
      ⟨hy0, by push_cast at hy; omega⟩ W.toNat 0 output (le_refl _) (by omega)
    -- the line break after the row, absent after the last row
    have hnl : ∃ nl : List Char, nl.length = (if k = 0 then 0 else 1) ∧
        (if y < H - 1 then (output ++ rt) ++ [Char.ofNat 10] else output ++ rt)
          = output ++ (rt ++ nl) := by
      by_cases hk : k = 0
      · refine ⟨[], by simp [hk], ?_⟩
        rw [if_neg (by push_cast at hy; omega)]
        simp
      · refine ⟨[Char.ofNat 10], by simp [hk], ?_⟩
        rw [if_pos (by push_cast at hy; omega), List.append_assoc]
    obtain ⟨nl, hnll, hnle⟩ := hnl
    obtain ⟨text, e, hlen, hat⟩ := ih (y + 1) (output ++ (rt ++ nl)) (by omega)
      (by push_cast at hy ⊢; omega)
    refine ⟨(rt ++ nl) ++ text, ?_, ?_, ?_⟩
    · rw [DrawMinefield.rows]
      simp only [er, bind, Except.bind]
      rw [hnle, e, List.append_assoc]
    · simp only [List.length_append, hrl, hnll, hlen]
      by_cases hk : k = 0
      · subst hk; simp
      · rw [if_neg hk]
        have : (k + 1) * (2 * W.toNat) = k * (2 * W.toNat) + 2 * W.toNat := by ring
        rw [this]
        omega
    · intro i j hi hj
      cases i with
      | zero =>
        obtain ⟨c, hc, hcat⟩ := hrat j hj
        refine ⟨c, ?_, ?_⟩
        · simp only [Nat.cast_zero, add_zero]
          simpa using hc
        · have hlt : 2 * j < (rt ++ nl).length := by
            rw [List.length_append, hrl]; omega
          rw [Nat.zero_mul, Nat.zero_add, List.getElem?_append_left hlt,
            List.getElem?_append_left (by rw [hrl]; omega)]
          exact hcat
      | succ i2 =>
        have hk : k ≠ 0 := by omega
        obtain ⟨c, hc, hcat⟩ := hat i2 j (by omega) hj
        refine ⟨c, ?_, ?_⟩
        · have e2 : y + ((i2 + 1 : Nat) : Int) = y + 1 + (i2 : Int) := by push_cast; omega
          rw [e2]
          exact hc
        · have hl : (rt ++ nl).length = 2 * W.toNat + 1 := by
            rw [List.length_append, hrl, hnll, if_neg hk]
          have hge : (rt ++ nl).length ≤ (i2 + 1) * (2 * W.toNat + 1) + 2 * j := by
            rw [hl]
            have : (i2 + 1) * (2 * W.toNat + 1) = i2 * (2 * W.toNat + 1) + (2 * W.toNat + 1) := by
              ring
            omega
          rw [List.getElem?_append_right hge, hl]
          have e3 : (i2 + 1) * (2 * W.toNat + 1) + 2 * j - (2 * W.toNat + 1)
              = i2 * (2 * W.toNat + 1) + 2 * j := by
            have : (i2 + 1) * (2 * W.toNat + 1) = i2 * (2 * W.toNat + 1) + (2 * W.toNat + 1) := by
              ring
            omega
          rw [e3]
          exact hcat
/-- Claim C19. The cursor overlay index is valid and lands on the cursor cell: for a board
of `W ≥ 1` columns and `H ≥ 1` rows whose cell values all lie in `0..11` and any
rectangular mine grid with at least one row, with or without mines shown, `DrawMinefield`
appends to `output` a text of exactly `H * (2 * W) + (H - 1)` characters; for every cell
`(x, y)` of the grid the character drawn for it (the first of the two that the loop body
appends) stands at offset `y * (2 * W + 1) + 2 * x` of that text; and the index
`y * (WIDTH * CELL_SIZE + 1) + x * CELL_SIZE + CURSOR_OFFSET`, with `CURSOR_OFFSET` the
length of `output`, lies inside the string, points at that character, and the write of
`CHAR_CURSOR` there succeeds. -/
theorem C19_cursor_index_valid (W H W2 H2 : Int) (b : Board) (m : Mines) (show_mines : Bool)
    (output : List Char) (hW : 0 < W) (hH : 0 < H) (hb : Rect W H b)
    (hvals : ∀ row ∈ b, ∀ v ∈ row, 0 ≤ v ∧ v ≤ 11) (hm : Rect W2 H2 m) (hH2 : 0 < H2) :
    ∃ text, DrawMinefield output b m show_mines = .ok (output ++ text) ∧
      (text.length : Int) = H * (2 * W) + (H - 1) ∧
      ∀ x y : Int, inBounds W H x y →
        ∃ c, DrawMinefield.cell b m show_mines x y = .ok [c, ' '] ∧
          text[(y * (2 * W + 1) + 2 * x).toNat]? = some c ∧
          0 ≤ y * (W * CELL_SIZE + 1) + x * CELL_SIZE + (output.length : Int) ∧
          (y * (W * CELL_SIZE + 1) + x * CELL_SIZE + (output.length : Int)).toNat
            < (output ++ text).length ∧
          (output ++ text)[(y * (W * CELL_SIZE + 1) + x * CELL_SIZE
            + (output.length : Int)).toNat]? = some c ∧
          stringSet (output ++ text)
            (y * (W * CELL_SIZE + 1) + x * CELL_SIZE + (output.length : Int)) CHAR_CURSOR
            = .ok ((output ++ text).set (y * (W * CELL_SIZE + 1) + x * CELL_SIZE
              + (output.length : Int)).toNat CHAR_CURSOR) := by
  obtain ⟨text, e, hlen, hat⟩ := DrawMinefield_rows_exact hb hvals hm hH2 (le_of_lt hW)
    show_mines H.toNat 0 output (le_refl _) (by omega)
  have eW : ((W.toNat : Nat) : Int) = W := Int.toNat_of_nonneg (le_of_lt hW)
  have eH : ((H.toNat : Nat) : Int) = H := Int.toNat_of_nonneg (le_of_lt hH)
  refine ⟨text, ?_, ?_, ?_⟩
  · unfold DrawMinefield
    rw [frontSize_rect hb hH, gridSize_rect hb]
    exact e
  · rw [hlen]
    have h1 : 1 ≤ H.toNat := by omega
    push_cast [Nat.cast_sub h1]
    rw [eW, eH]
  · intro x y hin
    obtain ⟨hx0, hx1, hy0, hy1⟩ := hin
    have ex : ((x.toNat : Nat) : Int) = x := Int.toNat_of_nonneg hx0
    have ey : ((y.toNat : Nat) : Int) = y := Int.toNat_of_nonneg hy0
    obtain ⟨c, hc, hcat⟩ := hat y.toNat x.toNat (by omega) (by omega)
    rw [ex, ey, zero_add] at hc
    have hidx : y * (2 * W + 1) + 2 * x
        = ((y.toNat * (2 * W.toNat + 1) + 2 * x.toNat : Nat) : Int) := by
      push_cast
      rw [ex, ey, eW]
    have hidx2 : y * (W * CELL_SIZE + 1) + x * CELL_SIZE + (output.length : Int)
        = ((output.length + (y.toNat * (2 * W.toNat + 1) + 2 * x.toNat) : Nat) : Int) := by
      unfold CELL_SIZE
      push_cast
      rw [ex, ey, eW]
      ring
    have hin_text : y.toNat * (2 * W.toNat + 1) + 2 * x.toNat < text.length :=
      (List.getElem?_eq_some.mp hcat).1
    have hget : (output ++ text)[output.length + (y.toNat * (2 * W.toNat + 1) + 2 * x.toNat)]?
        = some c := by
      rw [List.getElem?_append_right (Nat.le_add_right _ _), Nat.add_sub_cancel_left]
      exact hcat
    have hlt : output.length + (y.toNat * (2 * W.toNat + 1) + 2 * x.toNat)
        < (output ++ text).length := by
      rw [List.length_append]; omega
    refine ⟨c, hc, ?_, ?_, ?_, ?_, ?_⟩
    · rw [hidx, Int.toNat_ofNat]
      exact hcat
    · rw [hidx2]
      exact Int.ofNat_nonneg _
    · rw [hidx2, Int.toNat_ofNat]
      exact hlt
    · rw [hidx2, Int.toNat_ofNat]
      exact hget
    · rw [hidx2]
      unfold stringSet
      rw [Int.toNat_ofNat, if_pos ⟨Int.ofNat_nonneg _, hlt⟩]

/-- Witness for C19: a 3x2 board with a revealed 1, a flag, a question mark and a clear
cell, drawn with mines shown after the two-character text `ab`; the glyph of cell `(1, 1)`
is the mine and the cursor index for that cell is `2 + 1 * 7 + 2 = 11`. -/
theorem C19_cursor_index_valid_witness :
    DrawMinefield ['a', 'b'] [[1, 10, 9], [11, 9, 0]] [[false, false, false],
        [false, true, false]] true
      = .ok ['a', 'b', '1', ' ', '#', ' ', '-', ' ', Char.ofNat 10,
          '?', ' ', 'M', ' ', ' ', ' '] ∧
    ∃ text, DrawMinefield ['a', 'b'] [[1, 10, 9], [11, 9, 0]] [[false, false, false],
        [false, true, false]] true = .ok (['a', 'b'] ++ text) ∧
      (text.length : Int) = 2 * (2 * 3) + (2 - 1) ∧
      ∃ c, DrawMinefield.cell [[1, 10, 9], [11, 9, 0]] [[false, false, false],
          [false, true, false]] true 1 1 = .ok [c, ' '] ∧
        (['a', 'b'] ++ text)[11]? = some c := by
  refine ⟨by decide, ?_⟩
  obtain ⟨text, h1, h2, h3⟩ := C19_cursor_index_valid 3 2 3 2 [[1, 10, 9], [11, 9, 0]]
    [[false, false, false], [false, true, false]] true ['a', 'b']
    (by decide) (by decide) (by decide) (by decide) (by decide) (by decide)
  obtain ⟨c, h4, _, _, _, h5, _⟩ := h3 1 1 (by decide)
  exact ⟨text, h1, h2, c, h4, h5⟩

/-! ## Mine placement can complete -/

theorem exists_pos_of_sum_pos {α : Type} (f : α → Nat) :
    ∀ l : List α, 0 < (l.map f).sum → ∃ a ∈ l, 0 < f a
  | [], h => by simp at h
  | a :: l, h => by
    by_cases ha : 0 < f a
    · exact ⟨a, List.mem_cons_self _ _, ha⟩
    · have h2 : 0 < (l.map f).sum := by
        simp only [List.map_cons, List.sum_cons] at h
        omega
      obtain ⟨c, hc, hpos⟩ := exists_pos_of_sum_pos f l h2
      exact ⟨c, List.mem_cons_of_mem _ hc, hpos⟩

theorem vecAt_of_mem {α : Type} {l : List α} {a : α} (h : a ∈ l) :
    ∃ i : Int, vecAt l i = .ok a := by
  obtain ⟨n, hn⟩ := List.mem_iff_getElem?.mp h
  refine ⟨(n : Int), ?_⟩
  rw [vecAt_eq_ok_iff]
  exact ⟨Int.ofNat_nonneg n, by rw [Int.toNat_ofNat]; exact hn⟩

/-- A grid that counts at least one cell with `p` has such a cell. -/
theorem exists_cell_of_gridCount_pos {α : Type} (p : α → Bool) (g : List (List α))
    (h : 0 < gridCount p g) : ∃ (x y : Int) (a : α), gridAt g x y = .ok a ∧ p a = true := by
  obtain ⟨row, hrow, hpos⟩ := exists_pos_of_sum_pos (fun r : List α => r.countP p) g h
  obtain ⟨a, ha, hpa⟩ := List.countP_pos_iff.mp hpos
  obtain ⟨y, hy⟩ := vecAt_of_mem hrow
  obtain ⟨x, hx⟩ := vecAt_of_mem ha
  refine ⟨x, y, a, ?_, hpa⟩
  unfold gridAt
  rw [hy]
  exact hx

/-- In a grid of rows of length `w` the cells with `p` and the cells without `p` add up to
all cells. -/
theorem gridCount_add_not {α : Type} (p : α → Bool) (w : Nat) :
    ∀ g : List (List α), (∀ row ∈ g, row.length = w) →
      gridCount p g + gridCount (fun a => !p a) g = g.length * w
  | [], _ => by simp [gridCount]
  | row :: g, h => by
    have ih := gridCount_add_not p w g (fun r hr => h r (List.mem_cons_of_mem _ hr))
    have hrow := h row (List.mem_cons_self _ _)
    have hsplit := List.length_eq_countP_add_countP p row
    have hnot : List.countP (fun a => decide ¬p a = true) row
        = List.countP (fun a => !p a) row := by
      congr 1
      funext a
      cases p a <;> rfl
    rw [hnot] at hsplit
    unfold gridCount at ih ⊢
    simp only [List.map_cons, List.sum_cons, List.length_cons]
    have : (g.length + 1) * w = g.length * w + w := by ring
    omega

/-- While two cells of the grid are free of mines, one of them is not the avoided cell. -/
theorem exists_free_cell {W H : Int} {m : Mines} (hm : Rect W H m)
    (hroom : mineCount m + 2 ≤ H.toNat * W.toNat) (ax ay : Int) :
    ∃ x y : Int, inBounds W H x y ∧ ¬ (x = ax ∧ y = ay) ∧ mineAt m x y = false := by
  have hH0 : 0 ≤ H := by have := hm.1; omega
  have hrows : ∀ row ∈ m, row.length = W.toNat := by
    intro row hrow
    have := hm.2 row hrow
    omega
  have hlen : m.length = H.toNat := by have := hm.1; omega
  have hsum : gridCount (fun v : Bool => v) m + gridCount (fun v : Bool => !v) m
      = m.length * W.toNat := gridCount_add_not (fun v : Bool => v) W.toNat m hrows
  rw [hlen] at hsum
  have hfree : 2 ≤ gridCount (fun v : Bool => !v) m := by
    unfold mineCount at hroom
    omega
  obtain ⟨x1, y1, a1, h1, hp1⟩ := exists_cell_of_gridCount_pos (fun v : Bool => !v) m
    (by omega)
  have ha1 : a1 = false := by simpa using hp1
  subst ha1
  have hin1 := gridAt_ok_bounds hm h1
  by_cases hav : x1 = ax ∧ y1 = ay
  swap
  · exact ⟨x1, y1, hin1, hav, (mineAt_false_iff hm hin1).mpr h1⟩
  obtain ⟨m2, hs⟩ := gridSet_ok_of_at true h1
  have hc := gridCount_set (fun v : Bool => !v) h1 hs
  simp only [Bool.not_false, Bool.not_true, if_true, Bool.false_eq_true, if_false] at hc
  obtain ⟨x2, y2, a2, h2, hp2⟩ := exists_cell_of_gridCount_pos (fun v : Bool => !v) m2
    (by omega)
  have ha2 : a2 = false := by simpa using hp2
  subst ha2
  have hne : (x2, y2) ≠ (x1, y1) := by
    intro e
    obtain ⟨rfl, rfl⟩ := Prod.mk.inj e
    rw [gridAt_set_self hs] at h2
    cases h2
  rw [gridAt_set_ne hs hne] at h2
  have hin2 := gridAt_ok_bounds hm h2
  refine ⟨x2, y2, hin2, ?_, (mineAt_false_iff hm hin2).mpr h2⟩
  rintro ⟨rfl, rfl⟩
  exact hne (by rw [hav.1, hav.2])

/-- The draws `x`, `y` of a free cell that is not the avoided one are accepted at once. -/
theorem pick_accepts {W H : Int} {m : Mines} (hm : Rect W H m) (hH : 0 < H) {ax ay x y : Int}
    (hin : inBounds W H x y) (hav : ¬ (x = ax ∧ y = ay)) (hmn : mineAt m x y = false)
    (rest : List Nat) :
    PlaceMines.pick W H m ax ay (x.toNat :: y.toNat :: rest) = .ok (x, y, rest) := by
  obtain ⟨hx0, hx1, hy0, hy1⟩ := hin
  have ex : RandomRange 0 W x.toNat = .ok x := by
    unfold RandomRange
    rw [if_neg (by omega), Int.toNat_of_nonneg hx0, Int.tmod_eq_of_lt hx0 hx1, add_zero]
  have ey : RandomRange 0 H y.toNat = .ok y := by
    unfold RandomRange
    rw [if_neg (by omega), Int.toNat_of_nonneg hy0, Int.tmod_eq_of_lt hy0 hy1, add_zero]
  rw [PlaceMines.pick]
  simp only [ex, ey, CheckMine_rect hm hH, hmn, bind, Except.bind, pure, Except.pure]
  rw [if_neg hav]
  rfl

theorem loop_completes {W H : Int} (hH : 0 < H) (ax ay : Int) :
    ∀ (n : Nat) (m : Mines), Rect W H m → mineCount m + n + 1 ≤ H.toNat * W.toNat →
      ∃ (draws : List Nat) (m1 : Mines),
        (∀ r ∈ draws, (r : Int) < W ∨ (r : Int) < H) ∧
        PlaceMines.loop W H ax ay n m draws = .ok (m1, []) := by
  intro n
  induction n with
  | zero => intro m _ _; exact ⟨[], m, by simp, rfl⟩
  | succ k ih =>
    intro m hm hroom
    obtain ⟨x, y, hin, hav, hmn⟩ := exists_free_cell hm (by omega) ax ay
    have hold : gridAt m x y = .ok false := (mineAt_false_iff hm hin).mp hmn
    obtain ⟨m2, hs⟩ := gridSet_ok_of_at true hold
    have hc := gridCount_set (fun v : Bool => v) hold hs
    simp only [Bool.false_eq_true, if_false, if_true] at hc
    obtain ⟨draws, m1, hd, e⟩ := ih m2 (gridSet_rect hm hs) (by unfold mineCount at hroom ⊢; omega)
    refine ⟨x.toNat :: y.toNat :: draws, m1, ?_, ?_⟩
    · intro r hr
      obtain ⟨hx0, hx1, hy0, hy1⟩ := hin
      rcases List.mem_cons.mp hr with rfl | hr
      · left; omega
      rcases List.mem_cons.mp hr with rfl | hr
      · right; omega
      exact hd r hr
    · rw [PlaceMines.loop, pick_accepts hm hH hin hav hmn draws]
      simp only [bind, Except.bind, hs]
      exact e

theorem PlaceMines_completes {W H : Int} {mines : Mines} (hW : 0 < W) (hH : 0 < H)
    (hm : Rect W H mines) (count ax ay : Int)
    (hroom : (mineCount mines : Int) + max count 0 < W * H) :
    ∃ (draws : List Nat) (m1 : Mines),
      (∀ r ∈ draws, (r : Int) < W ∨ (r : Int) < H) ∧
      PlaceMines count mines ax ay draws = .ok (m1, []) := by
  have hcast : ((H.toNat * W.toNat : Nat) : Int) = W * H := by
    push_cast
    rw [Int.toNat_of_nonneg (le_of_lt hW), Int.toNat_of_nonneg (le_of_lt hH)]
    ring
  have hnat : mineCount mines + count.toNat + 1 ≤ H.toNat * W.toNat := by
    have : ((mineCount mines + count.toNat + 1 : Nat) : Int) ≤ ((H.toNat * W.toNat : Nat) : Int) := by
      rw [hcast]
      push_cast
      have : ((count.toNat : Nat) : Int) = max count 0 := by omega
      omega
    exact_mod_cast this
  obtain ⟨draws, m1, hd, e⟩ := loop_completes hH ax ay count.toNat mines hm hnat
  refine ⟨draws, m1, hd, ?_⟩
  unfold PlaceMines
  rw [frontSize_rect hm hH, gridSize_rect hm]
  exact e
/-- Claim C16. `PlaceMines` can always make progress for a valid count: on a `W` by `H`
grid (both positive) that starts without a mine, with `count < W * H`, every grid of these
dimensions holding fewer than `count` mines (the state at the start of an iteration) has a
cell of the grid that is neither the avoided cell nor a mine, and the two draws equal to
its coordinates are accepted by the rejection loop at once; and there is a sequence of
random draws, each smaller than `W` or `H`, on which `PlaceMines` completes using all of
them.  The same holds for the three presets, whatever the avoided cell. -/
theorem C16_place_mines_can_complete (W H : Int) (mines : Mines) (count ax ay : Int)
    (hW : 0 < W) (hH : 0 < H) (hm : Rect W H mines) (hempty : mineCount mines = 0)
    (hcount : count < W * H) :
    (∀ m : Mines, Rect W H m → (mineCount m : Int) < count →
      ∃ (x y : Int) (r1 r2 : Nat), inBounds W H x y ∧ ¬ (x = ax ∧ y = ay) ∧
        CheckMine x y m = .ok false ∧
        ∀ rest : List Nat, PlaceMines.pick W H m ax ay (r1 :: r2 :: rest) = .ok (x, y, rest)) ∧
    (∃ (draws : List Nat) (m1 : Mines),
      (∀ r ∈ draws, (r : Int) < W ∨ (r : Int) < H) ∧
      PlaceMines count mines ax ay draws = .ok (m1, [])) ∧
    (∀ d ∈ DIFFICULTIES, ∀ cx cy : Int, ∃ (draws : List Nat) (m1 : Mines),
      (∀ r ∈ draws, (r : Int) < d.Width ∨ (r : Int) < d.Height) ∧
      PlaceMines d.MineCount (Session.fresh d).mines cx cy draws = .ok (m1, [])) := by
  have hcast : ((H.toNat * W.toNat : Nat) : Int) = W * H := by
    push_cast
    rw [Int.toNat_of_nonneg (le_of_lt hW), Int.toNat_of_nonneg (le_of_lt hH)]
    ring
  refine ⟨?_, ?_, ?_⟩
  · intro m hmr hlt
    have hroom : mineCount m + 2 ≤ H.toNat * W.toNat := by
      have : ((mineCount m + 2 : Nat) : Int) ≤ ((H.toNat * W.toNat : Nat) : Int) := by
        rw [hcast]
        push_cast
        omega
      exact_mod_cast this
    obtain ⟨x, y, hin, hav, hmn⟩ := exists_free_cell hmr hroom ax ay
    refine ⟨x, y, x.toNat, y.toNat, hin, hav, ?_, fun rest => pick_accepts hmr hH hin hav hmn rest⟩
    rw [CheckMine_rect hmr hH, hmn]
  · apply PlaceMines_completes hW hH hm count ax ay
    rw [hempty]
    have : max count 0 < W * H := by
      have : 0 < W * H := Int.mul_pos hW hH
      omega
    simpa using this
  · intro d hd cx cy
    have hd2 : d = ⟨9, 9, 10⟩ ∨ d = ⟨16, 16, 40⟩ ∨ d = ⟨30, 16, 99⟩ := by
      simpa [DIFFICULTIES] using hd
    have hpos : 0 < d.Width ∧ 0 < d.Height ∧
        (0 : Int) + max d.MineCount 0 < d.Width * d.Height := by
      rcases hd2 with rfl | rfl | rfl <;> decide
    have hfresh := fresh_wellFormed d hpos.1 hpos.2.1
    apply PlaceMines_completes hpos.1 hpos.2.1 hfresh.2.2.2.1 d.MineCount cx cy
    have hz : mineCount (Session.fresh d).mines = 0 := mineCount_replicate _ _
    rw [hz]
    exact hpos.2.2

/-- Witness for C16: three mines on an empty 2x2 grid with `(0, 0)` avoided, the largest
valid count; the draws `1, 0, 0, 1, 1, 1` complete the placement. -/
theorem C16_place_mines_can_complete_witness :
    PlaceMines 3 [[false, false], [false, false]] 0 0 [1, 0, 0, 1, 1, 1]
      = .ok ([[false, true], [true, true]], []) ∧
    ∃ (draws : List Nat) (m1 : Mines),
      (∀ r ∈ draws, (r : Int) < 2 ∨ (r : Int) < 2) ∧
      PlaceMines 3 [[false, false], [false, false]] 0 0 draws = .ok (m1, []) :=
  ⟨by decide,
    (C16_place_mines_can_complete 2 2 [[false, false], [false, false]] 3 0 0
      (by decide) (by decide) (by decide) (by decide) (by decide)).2.1⟩

/-! ## Flood fill with another visiting order -/

theorem mem_floodOffsets_adjacent (x y : Int) (d : Int × Int) (h : d ∈ floodOffsets) :
    adjacent x y (x + d.1) (y + d.2) := by
  obtain ⟨d1, d2⟩ := d
  unfold floodOffsets at h
  simp only [List.mem_cons, Prod.mk.injEq, List.mem_singleton, List.mem_nil_iff, or_false] at h
  unfold adjacent
  rcases h with h | h | h | h | h | h | h | h <;> obtain ⟨hp, hq⟩ := h <;> subst hp <;>
    subst hq <;> simp <;> omega

theorem adjacent_floodOffsets {x y p q : Int} (h : adjacent x y p q) :
    ∃ d ∈ floodOffsets, p = x + d.1 ∧ q = y + d.2 := by
  refine ⟨(p - x, q - y), ?_, by simp, by simp⟩
  obtain ⟨hne, hp | hp | hp, hq | hq | hq⟩ := h <;> subst hp <;> subst hq <;>
    simp [floodOffsets] at hne ⊢

/-- The body of a flood call on rectangular grids, with `tail` standing for the recursive
calls: if `tail` floods the neighbours of the start, the call floods from the start. -/
theorem flood_body_post {W H : Int} {m : Mines} {b : Board} (hm : Rect W H m)
    (hb : Rect W H b) (x y : Int) (tail : Board → Res Board)
    (htail : ∀ b0 : Board, Rect W H b0 → nonClearCount b0 + 1 = nonClearCount b →
      FloodFrame W H m (FloodReach W H m b x y) b b0 →
      ∃ b1, tail b0 = .ok b1 ∧
        FloodPost W H m (fun u v => ∃ p q, adjacent x y p q ∧ FloodReach W H m b0 p q u v)
          b0 b1 ∧
        ∀ p q : Int, adjacent x y p q → inBounds W H p q → mineAt m p q = false →
          Settled W H m b1 p q) :
    ∃ b1, (if inBounds W H x y then
        match gridAt b x y with
        | .error e => .error e
        | .ok v =>
          if v = CELL_CLEAR then .ok b
          else if mineAt m x y = true then .ok b
          else match gridSet b x y (adjacentCount W H m x y) with
            | .error e => .error e
            | .ok b0 =>
              if adjacentCount W H m x y > 0 then .ok b0
              else tail b0
      else .ok b) = Except.ok b1 ∧
      FloodPost W H m (FloodReach W H m b x y) b b1 ∧
      (inBounds W H x y → mineAt m x y = false → Settled W H m b1 x y) := by
  by_cases hin : inBounds W H x y
  swap
  · rw [if_neg hin]
    exact ⟨b, rfl, FloodPost_refl hb, fun h => absurd h hin⟩
  rw [if_pos hin]
  obtain ⟨v, hv⟩ := gridAt_ok_of_inBounds hb hin
  rw [hv]
  simp only
  by_cases h0 : v = CELL_CLEAR
  · rw [if_pos h0]
    refine ⟨b, rfl, FloodPost_refl hb, fun _ _ => Or.inl ?_⟩
    rw [hv, h0]
  rw [if_neg h0]
  by_cases hmn : mineAt m x y = true
  · rw [if_pos hmn]
    exact ⟨b, rfl, FloodPost_refl hb, fun _ h => by rw [hmn] at h; cases h⟩
  rw [if_neg hmn]
  have hmn : mineAt m x y = false := by simpa using hmn
  obtain ⟨b0, hs⟩ := gridSet_ok_of_at (adjacentCount W H m x y) hv
  rw [hs]
  simp only
  have hb0 : Rect W H b0 := gridSet_rect hb hs
  have hcount := nonClearCount_set hv hs
  have hc1 : (if v ≠ CELL_CLEAR then 1 else 0) = 1 := if_pos h0
  rw [hc1] at hcount
  have hself : gridAt b0 x y = .ok (adjacentCount W H m x y) := gridAt_set_self hs
  have hother : ∀ u w : Int, (u, w) ≠ (x, y) → gridAt b0 u w = gridAt b u w :=
    fun u w hne => gridAt_set_ne hs hne
  have hne0 : gridAt b x y ≠ .ok CELL_CLEAR := by
    rw [hv]; intro e; exact h0 (Except.ok.inj e)
  have hframe0 : FloodFrame W H m (FloodReach W H m b x y) b b0 := by
    intro u w
    by_cases e : (u, w) = (x, y)
    · obtain ⟨rfl, rfl⟩ := Prod.mk.inj e
      exact Or.inr ⟨hself, hin, hmn, hne0, FloodReach.self _ _⟩
    · exact Or.inl (hother u w e)
  -- cells other than the start that were unfinished after the store were so before it
  have hold : ∀ u w : Int, (u, w) ≠ (x, y) → Unfinished W H m b0 u w →
      Unfinished W H m b u w := by
    rintro u w huw ⟨hc, p, q, hadj, hpq, n1, n2⟩
    have hpq2 : (p, q) ≠ (x, y) := by
      intro e
      obtain ⟨rfl, rfl⟩ := Prod.mk.inj e
      exact n2 hself
    rw [hother u w huw] at hc
    rw [hother p q hpq2] at n1 n2
    exact ⟨hc, p, q, hadj, hpq, n1, n2⟩
  by_cases hpos : adjacentCount W H m x y > 0
  · rw [if_pos hpos]
    refine ⟨b0, rfl, ⟨hb0, ?_, hframe0, ?_⟩, fun _ _ => Or.inr hself⟩
    · have hle : (if adjacentCount W H m x y ≠ CELL_CLEAR then 1 else 0 : Nat) ≤ 1 := by
        split <;> omega
      omega
    · intro u w hu
      refine hold u w ?_ hu
      intro e
      obtain ⟨rfl, rfl⟩ := Prod.mk.inj e
      have hc := hu.1
      rw [hself] at hc
      have := Except.ok.inj hc
      unfold CELL_CLEAR at this
      omega
  · rw [if_neg hpos]
    have hzero : adjacentCount W H m x y = 0 := by
      unfold adjacentCount at hpos ⊢
      omega
    have hbz : bruteForceCount W H m x y = 0 := by
      unfold adjacentCount at hzero
      omega
    have hdec : nonClearCount b0 + 1 = nonClearCount b := by
      rw [hzero] at hcount
      simp only [CELL_CLEAR, ne_eq, not_true_eq_false, if_false] at hcount
      omega
    obtain ⟨b1, e1, p1, s1⟩ := htail b0 hb0 hdec hframe0
    have hframe1 : FloodFrame W H m (FloodReach W H m b x y) b0 b1 := by
      refine FloodFrame_mono ?_ p1.2.2.1
      rintro u w ⟨p, q, hadj, hr⟩
      exact FloodReach.step x y p q u w hin hmn hbz hne0 hadj (FloodReach_mono hframe0 hr)
    refine ⟨b1, e1, ⟨p1.1, ?_, FloodFrame_trans hframe0 hframe1, ?_⟩, ?_⟩
    · exact le_trans p1.2.1 (by omega)
    · intro u w hu
      by_cases e : (u, w) = (x, y)
      · exfalso
        obtain ⟨rfl, rfl⟩ := Prod.mk.inj e
        obtain ⟨_, p, q, hadj, hpq, n1, n2⟩ := hu
        rcases s1 p q hadj hpq (mineAt_false_of_count_zero hm hbz hadj) with h | h
        · exact n1 h
        · exact n2 h
      · exact hold u w e (p1.2.2.2 u w hu)
    · intro _ _
      exact FloodFrame_settled hframe1 (Or.inr hself)

theorem floodVisit_post {W H : Int} {m : Mines} (fuel : Nat)
    (call : Int → Int → Board → Res Board)
    (IH : ∀ x y b, Rect W H b → nonClearCount b < fuel →
      ∃ b1, call x y b = .ok b1 ∧
        FloodPost W H m (FloodReach W H m b x y) b b1 ∧
        (inBounds W H x y → mineAt m x y = false → Settled W H m b1 x y)) (x y : Int) :
    ∀ (ds : List (Int × Int)) (b : Board), Rect W H b → nonClearCount b < fuel →
      ∃ b1, floodVisit call x y ds b = .ok b1 ∧
        FloodPost W H m
          (fun u v => ∃ d ∈ ds, FloodReach W H m b (x + d.1) (y + d.2) u v) b b1 ∧
        ∀ d ∈ ds, inBounds W H (x + d.1) (y + d.2) → mineAt m (x + d.1) (y + d.2) = false →
          Settled W H m b1 (x + d.1) (y + d.2) := by
  intro ds
  induction ds with
  | nil =>
    intro b hb _
    exact ⟨b, rfl, FloodPost_refl hb, fun c hc => absurd hc (List.not_mem_nil c)⟩
  | cons c cs ih =>
    intro b hb hlt
    obtain ⟨b1, e1, p1, s1⟩ := IH (x + c.1) (y + c.2) b hb hlt
    obtain ⟨b2, e2, p2, s2⟩ := ih b1 p1.1 (lt_of_le_of_lt p1.2.1 hlt)
    refine ⟨b2, ?_, ?_, ?_⟩
    · show (call (x + c.1) (y + c.2) b >>= fun b => floodVisit call x y cs b) = _
      rw [e1]
      exact e2
    · refine FloodPost_trans (FloodPost_mono ?_ p1) (FloodPost_mono ?_ p2)
      · intro u v h
        exact ⟨c, List.mem_cons_self _ _, h⟩
      · rintro u v ⟨d, hd, h⟩
        exact ⟨d, List.mem_cons_of_mem _ hd, FloodReach_mono p1.2.2.1 h⟩
    · intro d hd hin hmn
      rcases List.mem_cons.mp hd with rfl | hd
      · exact FloodFrame_settled p2.2.2.1 (s1 hin hmn)
      · exact s2 d hd hin hmn

theorem FloodOrderedFuel_succ {W H : Int} {m : Mines} {b : Board} (hm : Rect W H m)
    (hb : Rect W H b) (hH : 0 < H) (order : List (Int × Int)) (f : Nat) (x y : Int) :
    FloodOrderedFuel order (f + 1) x y b m =
      if inBounds W H x y then
        match gridAt b x y with
        | .error e => .error e
        | .ok v =>
          if v = CELL_CLEAR then .ok b
          else if mineAt m x y = true then .ok b
          else match gridSet b x y (adjacentCount W H m x y) with
            | .error e => .error e
            | .ok b0 =>
              if adjacentCount W H m x y > 0 then .ok b0
              else floodVisit (fun x y b => FloodOrderedFuel order f x y b m) x y order b0
      else .ok b := by
  rw [FloodOrderedFuel]
  simp only [frontSize_rect hb hH, gridSize_rect hb, CheckMine_rect hm hH,
    GetAdjacentMineCount_rect hm hH, GetMinefieldValue, SetMinefieldValue, bind, Except.bind,
    pure, Except.pure, adjacentCount]
  by_cases hin : inBounds W H x y
  · have hc : ¬ (x < 0 ∨ x ≥ W ∨ y < 0 ∨ y ≥ H) := by
      unfold inBounds at hin; omega
    simp only [hin, hc, if_true, if_false]
    cases hv : gridAt b x y with
    | error e => rfl
    | ok v =>
      simp only
      by_cases h0 : v = CELL_CLEAR
      · simp [h0]
      · simp only [h0, if_false]
        cases hmn : mineAt m x y with
        | true => simp
        | false =>
          simp only [Bool.false_eq_true, if_false]
          cases hs : gridSet b x y ((bruteForceCount W H m x y : Nat) : Int) with
          | error e => rfl
          | ok b1 => simp only
  · have hc : (x < 0 ∨ x ≥ W ∨ y < 0 ∨ y ≥ H) := by
      unfold inBounds at hin; omega
    simp [hin, hc]

/-- The flood with any order that lists exactly the eight neighbour offsets returns a
board and satisfies the same description as `FloodMinefield`. -/
theorem FloodOrderedFuel_post {W H : Int} {m : Mines} (hm : Rect W H m) (hH : 0 < H)
    (order : List (Int × Int)) (horder : ∀ d, d ∈ order ↔ d ∈ floodOffsets) :
    ∀ (fuel : Nat) (x y : Int) (b : Board), Rect W H b → nonClearCount b < fuel →
      ∃ b1, FloodOrderedFuel order fuel x y b m = .ok b1 ∧
        FloodPost W H m (FloodReach W H m b x y) b b1 ∧
        (inBounds W H x y → mineAt m x y = false → Settled W H m b1 x y) := by
  intro fuel
  induction fuel with
  | zero => intro x y b _ h; exact absurd h (Nat.not_lt_zero _)
  | succ f ih =>
    intro x y b hb hlt
    rw [FloodOrderedFuel_succ hm hb hH]
    apply flood_body_post hm hb x y
    intro b0 hb0 hdec _
    obtain ⟨b1, e1, p1, s1⟩ := floodVisit_post f
      (fun x y b => FloodOrderedFuel order f x y b m) ih x y order b0 hb0 (by omega)
    refine ⟨b1, e1, FloodPost_mono ?_ p1, ?_⟩
    · rintro u v ⟨d, hd, hr⟩
      exact ⟨x + d.1, y + d.2, mem_floodOffsets_adjacent x y d ((horder d).mp hd), hr⟩
    · intro p q hadj hpq hmn
      obtain ⟨d, hd, rfl, rfl⟩ := adjacent_floodOffsets hadj
      exact s1 d ((horder d).mpr hd) hpq hmn
theorem gridAt_getElem {α : Type} (g : List (List α)) (i j : Nat) (hj : j < g.length)
    (hi : i < (g[j]).length) : gridAt g (i : Int) (j : Int) = .ok ((g[j])[i]) := by
  have h1 : vecAt g (j : Int) = .ok g[j] := by
    rw [vecAt_eq_ok_iff]
    exact ⟨Int.ofNat_nonneg j, by simp [hj]⟩
  have h2 : vecAt g[j] (i : Int) = .ok ((g[j])[i]) := by
    rw [vecAt_eq_ok_iff]
    exact ⟨Int.ofNat_nonneg i, by simp [hi]⟩
  unfold gridAt
  rw [h1]
  exact h2

/-- Two rectangles of the same dimensions that agree at every cell are the same grid. -/
theorem rect_ext {α : Type} {W H : Int} {g1 g2 : List (List α)} (h1 : Rect W H g1)
    (h2 : Rect W H g2) (h : ∀ u v : Int, gridAt g1 u v = gridAt g2 u v) : g1 = g2 := by
  have hlen : g1.length = g2.length := by
    have := h1.1
    have := h2.1
    omega
  apply List.ext_getElem hlen
  intro j hj1 hj2
  have hr1 := h1.2 g1[j] (List.getElem_mem hj1)
  have hr2 := h2.2 g2[j] (List.getElem_mem hj2)
  apply List.ext_getElem (by omega)
  intro i hi1 hi2
  have e := h (i : Int) (j : Int)
  rw [gridAt_getElem g1 i j hj1 hi1, gridAt_getElem g2 i j hj2 hi2] at e
  exact Except.ok.inj e

theorem FloodReach_start {W H : Int} {m : Mines} {b : Board} {x y u v : Int}
    (hr : FloodReach W H m b x y u v) (hin : inBounds W H u v) (hmn : mineAt m u v = false) :
    inBounds W H x y ∧ mineAt m x y = false := by
  cases hr with
  | self => exact ⟨hin, hmn⟩
  | step _ _ p q _ _ h1 h2 _ _ _ _ => exact ⟨h1, h2⟩

/-- The description of a flood result determines the value of every cell: two boards that
both satisfy it for the same start and the same board before agree everywhere. -/
theorem FloodPost_cells_unique {W H : Int} {m : Mines} {b b1 b2 : Board} {x y : Int}
    (p1 : FloodPost W H m (FloodReach W H m b x y) b b1)
    (s1 : inBounds W H x y → mineAt m x y = false → Settled W H m b1 x y)
    (p2 : FloodPost W H m (FloodReach W H m b x y) b b2)
    (s2 : inBounds W H x y → mineAt m x y = false → Settled W H m b2 x y) (u v : Int) :
    gridAt b1 u v = gridAt b2 u v := by
  have key : ∀ {c : Board}, FloodPost W H m (FloodReach W H m b x y) b c →
      (inBounds W H x y → mineAt m x y = false → Settled W H m c x y) →
      inBounds W H u v → mineAt m u v = false → gridAt b u v ≠ .ok CELL_CLEAR →
      FloodReach W H m b x y u v → gridAt c u v = .ok (adjacentCount W H m u v) := by
    intro c pc sc hin hmn hne hr
    obtain ⟨hsx, hsm⟩ := FloodReach_start hr hin hmn
    exact settled_shows_count pc.2.2.1
      (FloodReach_settled pc.2.2.2 hr (fun _ => sc hsx hsm) hin) hne
  rcases p1.2.2.1 u v with e1 | ⟨e1, hin, hmn, hne, hr⟩
  · rcases p2.2.2.1 u v with e2 | ⟨e2, hin, hmn, hne, hr⟩
    · rw [e1, e2]
    · rw [e2]
      exact key p1 s1 hin hmn hne hr
  · rw [e1]
    exact (key p2 s2 hin hmn hne hr).symm

/-- Claim C15. The order in which `FloodMinefield` visits the eight neighbours does not
change the board it produces: on a rectangular board with any cell values and a mine grid
of the same dimensions (at least one row), for every integer start and for every list
`order` that is a rearrangement of the eight neighbour offsets, the flood fill that makes
its recursive calls in the order of that list returns a board, `FloodMinefield` returns a
board, and the two boards are the same. -/
theorem C15_flood_order_independent (W H : Int) (m : Mines) (b : Board) (x y : Int)
    (order : List (Int × Int)) (hH : 0 < H) (hm : Rect W H m) (hb : Rect W H b)
    (horder : order.Perm floodOffsets) :
    ∃ b1, FloodMinefield x y b m = .ok b1 ∧ FloodOrdered order x y b m = .ok b1 := by
  obtain ⟨b1, e1, p1, s1⟩ := FloodMinefield_post hm hb hH x y
  obtain ⟨b2, e2, p2, s2⟩ := FloodOrderedFuel_post hm hH order (fun d => horder.mem_iff)
    (nonClearCount b + 1) x y b hb (Nat.lt_succ_self _)
  refine ⟨b1, e1, ?_⟩
  unfold FloodOrdered
  rw [e2, rect_ext p2.1 p1.1 (FloodPost_cells_unique p2 s2 p1 s1)]

set_option maxRecDepth 100000 in
/-- On the 3 by 3 board with all cells hidden and one mine in the bottom-right corner, the
flood from the top-left corner with the neighbours visited in the reverse of the source
order gives the board that `FloodMinefield` gives. -/
theorem C15_flood_order_independent_witness :
    ∃ b1, FloodMinefield 0 0 [[9, 9, 9], [9, 9, 9], [9, 9, 9]]
          [[false, false, false], [false, false, false], [false, false, true]] = .ok b1 ∧
      FloodOrdered floodOffsets.reverse 0 0 [[9, 9, 9], [9, 9, 9], [9, 9, 9]]
          [[false, false, false], [false, false, false], [false, false, true]] = .ok b1 :=
  C15_flood_order_independent 3 3
    [[false, false, false], [false, false, false], [false, false, true]]
    [[9, 9, 9], [9, 9, 9], [9, 9, 9]] 0 0 floodOffsets.reverse (by decide) (by decide)
    (by decide) (List.reverse_perm floodOffsets)

/-! ## The drawing of a lost game -/

theorem DrawMinefield_cell_mine {W2 H2 : Int} (b : Board) {m : Mines} (hm : Rect W2 H2 m)
    (hH2 : 0 < H2) {x y : Int} (hmn : mineAt m x y = true) :
    DrawMinefield.cell b m true x y = .ok [CHAR_MINE, ' '] := by
  unfold DrawMinefield.cell
  simp only [CheckMine_rect hm hH2, hmn, bind, Except.bind, pure, Except.pure, if_true,
    SPACING_eq]

theorem DrawMinefield_cell_no_mine {W2 H2 : Int} (b : Board) {m : Mines} (hm : Rect W2 H2 m)
    (hH2 : 0 < H2) {x y : Int} (hmn : mineAt m x y = false) :
    DrawMinefield.cell b m true x y = DrawMinefield.cell b m false x y := by
  unfold DrawMinefield.cell
  simp only [CheckMine_rect hm hH2, hmn, bind, Except.bind, pure, Except.pure, if_true,
    Bool.false_eq_true, if_false]

/-- Without `SHOW_MINES` no cell whose value lies in `0..11` is drawn as `CHAR_MINE`. -/
theorem DrawMinefield_cell_glyph {b : Board} (m : Mines)
    (hvals : ∀ row ∈ b, ∀ v ∈ row, 0 ≤ v ∧ v ≤ 11) {x y : Int} {c : Char}
    (hc : DrawMinefield.cell b m false x y = .ok [c, ' ']) : c ≠ CHAR_MINE := by
  unfold DrawMinefield.cell at hc
  simp only [GetMinefieldValue, bind, Except.bind, pure, Except.pure, Bool.false_eq_true,
    if_false, SPACING_eq] at hc
  cases hv : gridAt b x y with
  | error e => rw [hv] at hc; cases hc
  | ok v =>
    rw [hv] at hc
    obtain ⟨row, hrow, hmem⟩ := gridAt_mem hv
    obtain ⟨v0, v11⟩ := hvals row hrow v hmem
    simp only at hc
    have hl := Except.ok.inj hc
    intro e
    subst e
    revert hl
    interval_cases v <;> decide

/-- Text that `DrawMinefield` appends, cell by cell, with the index that the game loop
computes for a cell. -/
theorem DrawMinefield_at {W H W2 H2 : Int} {b : Board} {m : Mines} (hW : 0 < W) (hH : 0 < H)
    (hb : Rect W H b) (hvals : ∀ row ∈ b, ∀ v ∈ row, 0 ≤ v ∧ v ≤ 11) (hm : Rect W2 H2 m)
    (hH2 : 0 < H2) (show_mines : Bool) (output : List Char) :
    ∃ o, DrawMinefield output b m show_mines = .ok o ∧
      (o.length : Int) = (output.length : Int) + H * (2 * W) + (H - 1) ∧
      ∀ x y : Int, inBounds W H x y →
        0 ≤ y * (W * CELL_SIZE + 1) + x * CELL_SIZE + (output.length : Int) ∧
        (y * (W * CELL_SIZE + 1) + x * CELL_SIZE + (output.length : Int)).toNat < o.length ∧
        ∃ c, DrawMinefield.cell b m show_mines x y = .ok [c, ' '] ∧
          o[(y * (W * CELL_SIZE + 1) + x * CELL_SIZE + (output.length : Int)).toNat]?
            = some c := by
  obtain ⟨text, e, hlen, hat⟩ := DrawMinefield_rows_exact hb hvals hm hH2 (le_of_lt hW)
    show_mines H.toNat 0 output (le_refl _) (by omega)
  have eW : ((W.toNat : Nat) : Int) = W := Int.toNat_of_nonneg (le_of_lt hW)
  have eH : ((H.toNat : Nat) : Int) = H := Int.toNat_of_nonneg (le_of_lt hH)
  refine ⟨output ++ text, ?_, ?_, ?_⟩
  · unfold DrawMinefield
    rw [frontSize_rect hb hH, gridSize_rect hb]
    exact e
  · rw [List.length_append, hlen]
    have h1 : 1 ≤ H.toNat := by omega
    push_cast [Nat.cast_sub h1]
    rw [eW, eH]
    ring
  · intro x y hin
    obtain ⟨hx0, hx1, hy0, hy1⟩ := hin
    have ex : ((x.toNat : Nat) : Int) = x := Int.toNat_of_nonneg hx0
    have ey : ((y.toNat : Nat) : Int) = y := Int.toNat_of_nonneg hy0
    obtain ⟨c, hc, hcat⟩ := hat y.toNat x.toNat (by omega) (by omega)
    rw [ex, ey, zero_add] at hc
    have hidx : y * (W * CELL_SIZE + 1) + x * CELL_SIZE + (output.length : Int)
        = ((output.length + (y.toNat * (2 * W.toNat + 1) + 2 * x.toNat) : Nat) : Int) := by
      unfold CELL_SIZE
      push_cast
      rw [ex, ey, eW]
      ring
    have hin_text : y.toNat * (2 * W.toNat + 1) + 2 * x.toNat < text.length :=
      (List.getElem?_eq_some.mp hcat).1
    rw [hidx, Int.toNat_ofNat]
    refine ⟨Int.ofNat_nonneg _, by rw [List.length_append]; omega, c, hc, ?_⟩
    rw [List.getElem?_append_right (Nat.le_add_right _ _), Nat.add_sub_cancel_left]
    exact hcat

/-- Two cells of the grid with the same drawing index are the same cell. -/
theorem cursor_index_inj {W H x y p q : Int} (o : Int) (h1 : inBounds W H x y)
    (h2 : inBounds W H p q)
    (h : y * (W * CELL_SIZE + 1) + x * CELL_SIZE + o
      = q * (W * CELL_SIZE + 1) + p * CELL_SIZE + o) : x = p ∧ y = q := by
  obtain ⟨hx0, hx1, hy0, hy1⟩ := h1
  obtain ⟨hp0, hp1, hq0, hq1⟩ := h2
  unfold CELL_SIZE at h
  have hyq : y = q := by
    rcases lt_trichotomy y q with hlt | heq | hgt
    · have hm : (y + 1) * (W * 2 + 1) ≤ q * (W * 2 + 1) :=
        mul_le_mul_of_nonneg_right (by omega) (by omega)
      nlinarith
    · exact heq
    · have hm : (q + 1) * (W * 2 + 1) ≤ y * (W * 2 + 1) :=
        mul_le_mul_of_nonneg_right (by omega) (by omega)
      nlinarith
  subst hyq
  exact ⟨by omega, rfl⟩

/-- The frame printed by the drawing step, cell by cell: the cursor cell shows
`CHAR_CURSOR`, every other cell of the grid the character that `DrawMinefield` draws for
it, each at the index the game loop computes for the cell. -/
theorem frameText_cells (show_mines : Bool) (s : Session) (hwf : s.wellFormed)
    (hvals : ∀ row ∈ s.minefield, ∀ v ∈ row, 0 ≤ v ∧ v ≤ 11) :
    ∃ out, frameText show_mines s = .ok out ∧
      out[(s.cursorY * (s.WIDTH * CELL_SIZE + 1) + s.cursorX * CELL_SIZE
        + ((frameHeader s).length : Int)).toNat]? = some CHAR_CURSOR ∧
      ∀ x y : Int, inBounds s.WIDTH s.HEIGHT x y → ¬ (x = s.cursorX ∧ y = s.cursorY) →
        ∃ c, DrawMinefield.cell s.minefield s.mines show_mines x y = .ok [c, ' '] ∧
          out[(y * (s.WIDTH * CELL_SIZE + 1) + x * CELL_SIZE
            + ((frameHeader s).length : Int)).toNat]? = some c := by
  obtain ⟨hW, hH, hb, hm, hcur⟩ := hwf
  obtain ⟨o, e, _, hat⟩ := DrawMinefield_at hW hH hb hvals hm hH show_mines (frameHeader s)
  obtain ⟨c0, c1, _⟩ := hat s.cursorX s.cursorY hcur
  refine ⟨o.set (s.cursorY * (s.WIDTH * CELL_SIZE + 1) + s.cursorX * CELL_SIZE
    + ((frameHeader s).length : Int)).toNat CHAR_CURSOR, ?_, ?_, ?_⟩
  · unfold frameText
    simp only [e, bind, Except.bind]
    unfold stringSet
    rw [if_pos ⟨c0, c1⟩]
  · rw [List.getElem?_set_self c1]
  · intro x y hin hne
    obtain ⟨d0, _, c, hc, hget⟩ := hat x y hin
    refine ⟨c, hc, ?_⟩
    rw [List.getElem?_set_ne, hget]
    intro heq
    have h2 := congrArg (fun n : Nat => (n : Int)) heq
    simp only [Int.toNat_of_nonneg c0, Int.toNat_of_nonneg d0] at h2
    obtain ⟨a1, a2⟩ := cursor_index_inj _ hin hcur h2.symm
    exact hne ⟨a1, a2⟩

/-- In every state that the game loop reaches, the cell values are cell states of the game:
they lie in `0..11`. -/
theorem Reachable_cell_values {d : Difficulty} {s : Session} (hW : 0 < d.Width)
    (hH : 0 < d.Height) (h : Reachable d s) :
    ∀ row ∈ s.minefield, ∀ v ∈ row, 0 ≤ v ∧ v ≤ 11 := by
  intro row hrow v hv
  obtain ⟨y, hy⟩ := vecAt_of_mem hrow
  obtain ⟨x, hx⟩ := vecAt_of_mem hv
  have hg : GetMinefieldValue x y s.minefield = .ok v := by
    unfold GetMinefieldValue gridAt
    rw [hy]
    exact hx
  rcases (Reachable_consistent hW hH h x y v hg).1 with h1 | h1 | h1 | h1
  · unfold isRevealed at h1
    omega
  · rw [h1]; decide
  · rw [h1]; decide
  · rw [h1]; decide

/-- Claim C7. In a well-formed session that is not won, whose mines are placed and whose
cursor is on a hidden cell that holds a mine, the reveal action ends play as a loss:
`run` becomes false and `victory` stays false, no cell of the board and no entry of the
mine grid changes, and the pass completes with a drawing of the board made with
`SHOW_MINES = true`.  In that drawing the mines are shown: when the cell values are cell
states of the game (`0..11`), the character at the drawing index of the cursor cell is
`CHAR_CURSOR`, and for every other cell of the grid the character at its drawing index is
`CHAR_MINE` if the cell holds a mine, and otherwise the character that the drawing
without mines gives the cell, which is not `CHAR_MINE`.  Every state that the game loop
reaches has such cell values (`Reachable_cell_values`). -/
theorem C7_reveal_mine_loses (s : Session) (k : Keys) (draws : List Nat)
    (hwf : s.wellFormed) (hk : k.isReveal) (hvic : s.victory = false)
    (hplaced : s.shouldPlaceMines = false)
    (hhid : GetMinefieldValue s.cursorX s.cursorY s.minefield = .ok CELL_HIDDEN)
    (hmine : CheckMine s.cursorX s.cursorY s.mines = .ok true) :
    ∃ t out, handleInput k draws s = .ok (t, draws) ∧
      t.run = false ∧ t.victory = false ∧ t.minefield = s.minefield ∧ t.mines = s.mines ∧
      t.cursorX = s.cursorX ∧ t.cursorY = s.cursorY ∧ t.shouldDrawMinefield = true ∧
      frameText true t = .ok out ∧
      loopBody k draws s = .ok ({ t with shouldDrawMinefield := false }, draws, some out) ∧
      ((∀ row ∈ s.minefield, ∀ v ∈ row, 0 ≤ v ∧ v ≤ 11) →
        out[(s.cursorY * (s.WIDTH * CELL_SIZE + 1) + s.cursorX * CELL_SIZE
          + ((frameHeader s).length : Int)).toNat]? = some CHAR_CURSOR ∧
        ∀ x y : Int, inBounds s.WIDTH s.HEIGHT x y → ¬ (x = s.cursorX ∧ y = s.cursorY) →
          (mineAt s.mines x y = true →
            out[(y * (s.WIDTH * CELL_SIZE + 1) + x * CELL_SIZE
              + ((frameHeader s).length : Int)).toNat]? = some CHAR_MINE) ∧
          (mineAt s.mines x y = false →
            ∃ c, c ≠ CHAR_MINE ∧
              DrawMinefield.cell s.minefield s.mines false x y = .ok [c, ' '] ∧
              out[(y * (s.WIDTH * CELL_SIZE + 1) + x * CELL_SIZE
                + ((frameHeader s).length : Int)).toNat]? = some c)) := by
  have hmn : mineAt s.mines s.cursorX s.cursorY = true := by
    rw [CheckMine_rect hwf.2.2.2.1 hwf.2.1] at hmine
    exact Except.ok.inj hmine
  have hi : handleInput k draws s =
      .ok ({ s with shouldDrawMinefield := true, run := false }, draws) := by
    rw [handleInput_reveal s k draws hwf hk hhid]
    exact checkCell_mine s draws hwf hplaced hmn
  obtain ⟨out, hout⟩ := frameText_ok true { s with shouldDrawMinefield := true, run := false }
    hwf
  refine ⟨_, out, hi, rfl, hvic, rfl, rfl, rfl, rfl, rfl, hout,
    loopBody_of_handleInput k s _ draws draws out hi rfl hout, ?_⟩
  intro hvals
  obtain ⟨out2, e2, hcur, hcells⟩ :=
    frameText_cells true { s with shouldDrawMinefield := true, run := false } hwf hvals
  rw [hout] at e2
  obtain rfl := Except.ok.inj e2
  refine ⟨hcur, ?_⟩
  intro x y hin hne
  obtain ⟨c, hc, hget⟩ := hcells x y hin hne
  refine ⟨?_, ?_⟩
  · intro hm1
    have hc2 : DrawMinefield.cell s.minefield s.mines true x y = .ok [CHAR_MINE, ' '] :=
      DrawMinefield_cell_mine s.minefield hwf.2.2.2.1 hwf.2.1 hm1
    have hc1 : DrawMinefield.cell s.minefield s.mines true x y = .ok [c, ' '] := hc
    rw [hc2] at hc1
    have hcc : CHAR_MINE = c := by
      have := Except.ok.inj hc1
      exact (List.cons.inj this).1
    rw [hcc]
    exact hget
  · intro hm0
    have hc1 : DrawMinefield.cell s.minefield s.mines true x y = .ok [c, ' '] := hc
    rw [DrawMinefield_cell_no_mine s.minefield hwf.2.2.2.1 hwf.2.1 hm0] at hc1
    exact ⟨c, DrawMinefield_cell_glyph s.mines hvals hc1, hc1, hget⟩

set_option maxRecDepth 100000 in
/-- Witness for C7: a 2x2 game with mines on `(0, 0)` and under the cursor at `(1, 1)`, a
flag on `(1, 0)` and the other cells hidden.  The reveal loses the game, and the frame
drawn shows `M` for the mine on `(0, 0)`, `#` for the flag and `X` for the cursor; the
header of the frame has 211 characters. -/
theorem C7_reveal_mine_loses_witness :
    ∃ t out, handleInput ⟨false, false, false, false, false, false, true, false⟩ []
        ⟨2, 2, 2, 1, 1, [[9, 10], [9, 9]], [[true, false], [false, true]],
          false, true, false, false, false⟩ = .ok (t, []) ∧
      t.run = false ∧ t.victory = false ∧ t.minefield = [[9, 10], [9, 9]] ∧
      t.mines = [[true, false], [false, true]] ∧
      t.cursorX = 1 ∧ t.cursorY = 1 ∧ t.shouldDrawMinefield = true ∧
      frameText true t = .ok out ∧
      loopBody ⟨false, false, false, false, false, false, true, false⟩ []
        ⟨2, 2, 2, 1, 1, [[9, 10], [9, 9]], [[true, false], [false, true]],
          false, true, false, false, false⟩
        = .ok ({ t with shouldDrawMinefield := false }, [], some out) ∧
      out[211 + 7]? = some 'X' ∧ out[211]? = some 'M' ∧ out[211 + 2]? = some '#' ∧
      out[211 + 5]? = some '-' := by
  obtain ⟨t, out, h1, h2, h3, h4, h5, h6, h7, h8, h9, h10, h11⟩ := C7_reveal_mine_loses
    ⟨2, 2, 2, 1, 1, [[9, 10], [9, 9]], [[true, false], [false, true]],
      false, true, false, false, false⟩
    ⟨false, false, false, false, false, false, true, false⟩ []
    (by decide) (by decide) (by decide) (by decide) (by decide) (by decide)
  obtain ⟨hX, hcells⟩ := h11 (by decide)
  have hM := (hcells 0 0 (by decide) (by decide)).1 (by decide)
  obtain ⟨c1, _, e1, hF⟩ := (hcells 1 0 (by decide) (by decide)).2 (by decide)
  obtain ⟨c2, _, e2, hH⟩ := (hcells 0 1 (by decide) (by decide)).2 (by decide)
  have hc1 : c1 = '#' := by
    have : (Except.ok ['#', ' '] : Res (List Char)) = .ok [c1, ' '] := e1
    exact ((List.cons.inj (Except.ok.inj this)).1).symm
  have hc2 : c2 = '-' := by
    have : (Except.ok ['-', ' '] : Res (List Char)) = .ok [c2, ' '] := e2
    exact ((List.cons.inj (Except.ok.inj this)).1).symm
  subst hc1
  subst hc2
  exact ⟨t, out, h1, h2, h3, h4, h5, h6, h7, h8, h9, h10, hX, hM, hF, hH⟩

end Minesweeper
